import Mathlib

/-!
# Response normalisation in `PlatformAnalysis.jsx`

A shallow embedding of the body of `fetchAI` (lines 77-116 of
`src/components/PlatformAnalysis.jsx`): the text of the HTTP response is
trimmed, stripped of newlines, repaired (`}{` becomes `},{`), wrapped in
brackets, handed to `JSON.parse`, and the parsed array is folded into one
object with `Object.assign`.

JavaScript strings are sequences of UTF-16 code units and are modelled as
lists of natural numbers.  `JSON.parse`, `String.prototype.trim`,
`String.prototype.replace`, property reads and `Object.assign` are platform
functions; they are modelled after ECMA-262.  Objects keep their properties in
the order in which they were created; `Object.keys` lists the array-index keys
first (`objectKeys`), and the order in which `Object.assign` visits the keys of
one source has no influence on the bindings it produces.  An assignment to
`__proto__` reaches the accessor of `Object.prototype` and creates no own
property; `Target` keeps track of that.  Numbers are kept as the exact decimal
that was written.  Their double-precision value matters in two places: the
truthiness test of `item.status`, which is modelled with the exact rounding
threshold, and `JSON.stringify`, which writes the shortest decimal that reads
back as the same double (`JNum.toDouble`, `serializeNumber`) and `null` for an
infinity.

The chart helpers of the component (`skillsList`, `getScoreLevel`,
`getChartData`, `topSkill`, lines 128-158) are embedded as well, with scores
as exact rationals.
-/

set_option maxRecDepth 100000
set_option exponentiation.threshold 5000

namespace PlatformAnalysis

/-! ## Strings -/

/-- A JavaScript string, as its UTF-16 code units. -/
abbrev JStr := List Nat

/-- UTF-16 encoding of one Unicode scalar value. -/
def utf16 (c : Char) : List Nat :=
  if c.toNat < 0x10000 then [c.toNat]
  else [0xD800 + (c.toNat - 0x10000) / 0x400, 0xDC00 + (c.toNat - 0x10000) % 0x400]

/-- The JavaScript string denoted by a string literal. -/
def js (s : String) : JStr := s.toList.flatMap utf16

/-- Code units removed by `String.prototype.trim`: ECMA-262 WhiteSpace and
LineTerminator. -/
def isJsSpace (c : Nat) : Bool :=
  c == 0x09 || c == 0x0A || c == 0x0B || c == 0x0C || c == 0x0D || c == 0x20 ||
  c == 0xA0 || c == 0x1680 || (0x2000 ≤ c && c ≤ 0x200A) || c == 0x2028 ||
  c == 0x2029 || c == 0x202F || c == 0x205F || c == 0x3000 || c == 0xFEFF

/-- The call `s.trim()`. -/
def trim (s : JStr) : JStr := (s.dropWhile isJsSpace).rdropWhile isJsSpace

/-- The call `s.replace(/\n/g, "")`. -/
def removeNewlines (s : JStr) : JStr := s.filter (fun c => c != 0x0A)

/-- The call `s.replace(/}{/g, "},{")`: every occurrence of a closing brace directly
followed by an opening brace gets a comma in between.  Occurrences cannot
overlap, and the opening brace of a match starts no match, so the scan may
resume right after the closing brace. -/
def fixSmashed : JStr → JStr
  | [] => []
  | c :: rest =>
    if c = 125 ∧ rest.head? = some 123 then 125 :: 44 :: fixSmashed rest
    else c :: fixSmashed rest

/-- The text has a closing brace directly followed by an opening brace. -/
def hasSmash : JStr → Bool
  | [] => false
  | c :: rest => (c == 125 && rest.head? == some 123) || hasSmash rest

/-- Lines 86-88: wrap in brackets unless the text starts with an opening
bracket. -/
def wrapBrackets (s : JStr) : JStr :=
  if s.head? = some 91 then s else 91 :: (s ++ [93])

/-- Lines 82-88: the text that is handed to `JSON.parse`. -/
def cleanText (rawText : JStr) : JStr :=
  wrapBrackets (fixSmashed (trim (removeNewlines rawText)))

/-! ## JSON values -/

/-- A JSON number as written: `(-1)^neg * mant * 10^exp`. -/
structure JNum where
  neg : Bool
  mant : Nat
  exp : Int
deriving DecidableEq, Repr

/-- The double nearest to the number is `+0` or `-0`: the magnitude is at
most `2^-1075`, half of the least positive double (a tie rounds to even). -/
def JNum.isZero (n : JNum) : Bool :=
  if 0 ≤ n.exp then n.mant == 0 else decide (n.mant * 2 ^ 1075 ≤ 10 ^ n.exp.natAbs)

/-- The values `JSON.parse` can return. -/
inductive JVal where
  | null
  | bool (b : Bool)
  | num (n : JNum)
  | str (s : JStr)
  | arr (xs : List JVal)
  | obj (kvs : List (JStr × JVal))
deriving Repr

/-- The own enumerable string-keyed properties of an object. -/
abbrev Props := List (JStr × JVal)

mutual
/-- Decidable equality of JSON values. -/
def JVal.decEq : (a b : JVal) → Decidable (a = b)
  | .null, .null => isTrue rfl
  | .bool a, .bool b =>
    if h : a = b then isTrue (by rw [h]) else isFalse (by intro e; injection e; contradiction)
  | .num a, .num b =>
    if h : a = b then isTrue (by rw [h]) else isFalse (by intro e; injection e; contradiction)
  | .str a, .str b =>
    if h : a = b then isTrue (by rw [h]) else isFalse (by intro e; injection e; contradiction)
  | .arr a, .arr b =>
    match JVal.decEqList a b with
    | isTrue h => isTrue (by rw [h])
    | isFalse h => isFalse (by intro e; injection e; contradiction)
  | .obj a, .obj b =>
    match JVal.decEqProps a b with
    | isTrue h => isTrue (by rw [h])
    | isFalse h => isFalse (by intro e; injection e; contradiction)
  | .null, .bool _ | .null, .num _ | .null, .str _ | .null, .arr _ | .null, .obj _
  | .bool _, .null | .bool _, .num _ | .bool _, .str _ | .bool _, .arr _ | .bool _, .obj _
  | .num _, .null | .num _, .bool _ | .num _, .str _ | .num _, .arr _ | .num _, .obj _
  | .str _, .null | .str _, .bool _ | .str _, .num _ | .str _, .arr _ | .str _, .obj _
  | .arr _, .null | .arr _, .bool _ | .arr _, .num _ | .arr _, .str _ | .arr _, .obj _
  | .obj _, .null | .obj _, .bool _ | .obj _, .num _ | .obj _, .str _ | .obj _, .arr _ =>
    isFalse (by intro e; cases e)
/-- Decidable equality of lists of JSON values. -/
def JVal.decEqList : (a b : List JVal) → Decidable (a = b)
  | [], [] => isTrue rfl
  | [], _ :: _ => isFalse (by intro e; cases e)
  | _ :: _, [] => isFalse (by intro e; cases e)
  | x :: xs, y :: ys =>
    match JVal.decEq x y, JVal.decEqList xs ys with
    | isTrue h1, isTrue h2 => isTrue (by rw [h1, h2])
    | isFalse h, _ => isFalse (by intro e; injection e; contradiction)
    | _, isFalse h => isFalse (by intro e; injection e; contradiction)
/-- Decidable equality of property lists. -/
def JVal.decEqProps : (a b : Props) → Decidable (a = b)
  | [], [] => isTrue rfl
  | [], _ :: _ => isFalse (by intro e; cases e)
  | _ :: _, [] => isFalse (by intro e; cases e)
  | (k, x) :: xs, (l, y) :: ys =>
    if hk : k = l then
      match JVal.decEq x y, JVal.decEqProps xs ys with
      | isTrue h1, isTrue h2 => isTrue (by rw [hk, h1, h2])
      | isFalse h, _ => isFalse (by intro e; injection e with e1 e2; injection e1; contradiction)
      | _, isFalse h => isFalse (by intro e; injection e; contradiction)
    else isFalse (by intro e; injection e with e1 e2; injection e1; contradiction)
end

instance : DecidableEq JVal := JVal.decEq

/-- The operation `CreateDataProperty`: define or overwrite an own property; an existing
key keeps its place. -/
def setProp : Props → JStr → JVal → Props
  | [], k, v => [(k, v)]
  | (k0, v0) :: rest, k, v =>
    if k0 = k then (k0, v) :: rest else (k0, v0) :: setProp rest k v

/-- The object built from the members of an object literal, in source order;
a repeated key keeps its last value. -/
def mkObject (members : Props) : Props :=
  members.foldl (fun o p => setProp o p.1 p.2) []

/-! ## `JSON.parse` -/

/-- JSON white space: tab, line feed, carriage return, space. -/
def isWs (c : Nat) : Bool := c == 0x09 || c == 0x0A || c == 0x0D || c == 0x20

/-- Skip JSON white space. -/
def skipWs (s : JStr) : JStr := s.dropWhile isWs

/-- ASCII decimal digit. -/
def isDigit (c : Nat) : Bool := 48 ≤ c && c ≤ 57

/-- Read a maximal run of digits: the value read so far, the number of digits
read so far, and the rest. -/
def readDigits : JStr → Nat → Nat → Nat × Nat × JStr
  | [], acc, n => (acc, n, [])
  | c :: cs, acc, n =>
    if isDigit c then readDigits cs (acc * 10 + (c - 48)) (n + 1) else (acc, n, c :: cs)

/-- The fraction of a JSON number: nothing, or a dot and at least one digit.
Takes the integer part read so far; returns the mantissa, the number of
fraction digits, and the rest. -/
def readFraction (ip : Nat) (s : JStr) : Option (Nat × Nat × JStr) :=
  match s with
  | [] => some (ip, 0, [])
  | c :: r =>
    if c = 46 then
      match readDigits r ip 0 with
      | (m, n, r1) => if n = 0 then none else some (m, n, r1)
    else some (ip, 0, s)

/-- The exponent of a JSON number: nothing, or `e`/`E`, an optional sign and
at least one digit. -/
def readExponent (s : JStr) : Option (Int × JStr) :=
  match s with
  | [] => some (0, [])
  | c :: r =>
    if c = 101 ∨ c = 69 then
      match r with
      | [] => none
      | d :: r1 =>
        if d = 45 then
          match readDigits r1 0 0 with
          | (e, n, r2) => if n = 0 then none else some (-(e : Int), r2)
        else if d = 43 then
          match readDigits r1 0 0 with
          | (e, n, r2) => if n = 0 then none else some ((e : Int), r2)
        else
          match readDigits r 0 0 with
          | (e, n, r2) => if n = 0 then none else some ((e : Int), r2)
    else some (0, s)

/-- The digits, fraction and exponent of a JSON number, after the sign. -/
def readUnsigned (neg : Bool) (s : JStr) : Option (JNum × JStr) :=
  match s with
  | [] => none
  | c :: r =>
    if isDigit c then
      let ip : Nat × Nat × JStr := if c = 48 then (0, 1, r) else readDigits s 0 0
      match readFraction ip.1 ip.2.2 with
      | none => none
      | some (m, fl, r1) =>
        match readExponent r1 with
        | none => none
        | some (e, r2) => some (⟨neg, m, e - fl⟩, r2)
    else none

/-- The characters a JSON number is made of. -/
def isNumChar (c : Nat) : Bool :=
  isDigit c || c == 43 || c == 45 || c == 46 || c == 69 || c == 101

/-- The number denoted by a whole token:
`-? (0 | [1-9][0-9]*) (. [0-9]+)? ([eE] [+-]? [0-9]+)?`. -/
def decodeNumber (tok : JStr) : Option JNum :=
  match tok with
  | [] => none
  | c :: r =>
    match (if c = 45 then readUnsigned true r else readUnsigned false tok) with
    | some (n, []) => some n
    | _ => none

/-- A JSON number at the front of the text.  After a number only white
space, a comma, a closing bracket or brace, or the end of the text can follow,
so the number is the longest run of number characters. -/
def parseNumber (s : JStr) : Option (JNum × JStr) :=
  (decodeNumber (s.takeWhile isNumChar)).map fun n => (n, s.dropWhile isNumChar)

/-- Value of a hexadecimal digit. -/
def hexVal (c : Nat) : Option Nat :=
  if 48 ≤ c ∧ c ≤ 57 then some (c - 48)
  else if 65 ≤ c ∧ c ≤ 70 then some (c - 55)
  else if 97 ≤ c ∧ c ≤ 102 then some (c - 87)
  else none

/-- The code unit denoted by the character after a backslash, for the
single-character escapes. -/
def escapeVal (c : Nat) : Option Nat :=
  if c = 34 then some 34
  else if c = 92 then some 92
  else if c = 47 then some 47
  else if c = 98 then some 8
  else if c = 102 then some 12
  else if c = 110 then some 10
  else if c = 114 then some 13
  else if c = 116 then some 9
  else none

/-- The code unit denoted by the four hexadecimal digits of a `\u` escape. -/
def hex4 (a b c d : Nat) : Option Nat :=
  match hexVal a, hexVal b, hexVal c, hexVal d with
  | some x, some y, some z, some w => some (((x * 16 + y) * 16 + z) * 16 + w)
  | _, _, _, _ => none

/-- A JSON string after its opening quote: the decoded code units and the
text after the closing quote.  Code units below U+0020 must be escaped. -/
def parseString : JStr → Option (JStr × JStr)
  | [] => none
  | c :: r =>
    if c = 34 then some ([], r)
    else if c = 92 then
      match r with
      | [] => none
      | e :: r1 =>
        if e = 117 then
          match r1 with
          | a :: b :: c :: d :: r2 =>
            match hex4 a b c d with
            | none => none
            | some u => (parseString r2).map fun p => (u :: p.1, p.2)
          | _ => none
        else
          match escapeVal e with
          | none => none
          | some u => (parseString r1).map fun p => (u :: p.1, p.2)
    else if c < 32 then none
    else (parseString r).map fun p => (c :: p.1, p.2)

/-- Drop a literal from the front of the text. -/
def dropLit : JStr → JStr → Option JStr
  | [], s => some s
  | _ :: _, [] => none
  | p :: ps, c :: cs => if p = c then dropLit ps cs else none

mutual
/-- A JSON value at the front of a text that does not start with white
space; the first argument bounds the depth of the recursion. -/
def parseValue : Nat → JStr → Option (JVal × JStr)
  | 0, _ => none
  | f + 1, s =>
    match s with
    | [] => none
    | c :: r =>
      if c = 91 then
        if (skipWs r).head? = some 93 then some (.arr [], (skipWs r).tail)
        else (parseElements f (skipWs r)).map fun p => (.arr p.1, p.2)
      else if c = 123 then
        if (skipWs r).head? = some 125 then some (.obj [], (skipWs r).tail)
        else (parseMembers f (skipWs r)).map fun p => (.obj (mkObject p.1), p.2)
      else if c = 34 then (parseString r).map fun p => (.str p.1, p.2)
      else if c = 116 then (dropLit [114, 117, 101] r).map fun r1 => (.bool true, r1)
      else if c = 102 then (dropLit [97, 108, 115, 101] r).map fun r1 => (.bool false, r1)
      else if c = 110 then (dropLit [117, 108, 108] r).map fun r1 => (.null, r1)
      else (parseNumber s).map fun p => (.num p.1, p.2)
/-- The elements of a non-empty array and its closing bracket. -/
def parseElements : Nat → JStr → Option (List JVal × JStr)
  | 0, _ => none
  | f + 1, s =>
    match parseValue f s with
    | none => none
    | some (v, r) =>
      match skipWs r with
      | [] => none
      | c :: r1 =>
        if c = 44 then (parseElements f (skipWs r1)).map fun p => (v :: p.1, p.2)
        else if c = 93 then some ([v], r1)
        else none
/-- The members of a non-empty object and its closing brace. -/
def parseMembers : Nat → JStr → Option (Props × JStr)
  | 0, _ => none
  | f + 1, s =>
    match s with
    | [] => none
    | q :: r =>
      if q = 34 then
        match parseString r with
        | none => none
        | some (k, r1) =>
          match skipWs r1 with
          | [] => none
          | c :: r2 =>
            if c = 58 then
              match parseValue f (skipWs r2) with
              | none => none
              | some (v, r3) =>
                match skipWs r3 with
                | [] => none
                | d :: r4 =>
                  if d = 44 then
                    (parseMembers f (skipWs r4)).map fun p => ((k, v) :: p.1, p.2)
                  else if d = 125 then some ([(k, v)], r4)
                  else none
            else none
      else none
end

/-- The call `JSON.parse(s)`: one value between optional white space; `none` stands
for the `SyntaxError`. -/
def JSONparse (s : JStr) : Option JVal :=
  match parseValue (s.length + 1) (skipWs s) with
  | none => none
  | some (v, r) => if skipWs r = [] then some v else none

/-! ## The fold of lines 100-110 -/

/-- The ways `fetchAI` can fail between lines 78 and 116: the three thrown
`Error`s, and the `TypeError` of reading a property of `null`. -/
inductive NormalizationError where
  | emptyResponse
  | malformedJson
  | noAnalysisData
  | typeError
deriving DecidableEq, Repr

instance {α : Type} [DecidableEq α] : DecidableEq (Except NormalizationError α) := fun a b =>
  match a, b with
  | .ok x, .ok y =>
    if h : x = y then isTrue (by rw [h]) else isFalse (by intro e; injection e; contradiction)
  | .error x, .error y =>
    if h : x = y then isTrue (by rw [h]) else isFalse (by intro e; injection e; contradiction)
  | .ok _, .error _ => isFalse (by intro e; cases e)
  | .error _, .ok _ => isFalse (by intro e; cases e)

/-- The key `status`. -/
def statusKey : JStr := [115, 116, 97, 116, 117, 115]

/-- The key `__proto__`. -/
def protoKey : JStr := [95, 95, 112, 114, 111, 116, 111, 95, 95]

/-- The read `item.status`: a `TypeError` on `null`, the own property of an object,
`undefined` (here `none`) on every other value. -/
def readStatus : JVal → Except NormalizationError (Option JVal)
  | .null => .error .typeError
  | .obj kvs => .ok (kvs.lookup statusKey)
  | _ => .ok none

/-- The conversion `ToBoolean` on a JSON value. -/
def truthy : JVal → Bool
  | .null => false
  | .bool b => b
  | .num n => !n.isZero
  | .str s => !s.isEmpty
  | .arr _ => true
  | .obj _ => true

/-- The conversion `ToBoolean` on the result of a property read. -/
def truthyOpt : Option JVal → Bool
  | none => false
  | some v => truthy v

/-- The decimal digits of `n` in front of `acc`; the first argument bounds the
number of digits. -/
def digitsAux : Nat → Nat → JStr → JStr
  | 0, _, acc => acc
  | f + 1, n, acc =>
    if n < 10 then (48 + n) :: acc else digitsAux f (n / 10) ((48 + n % 10) :: acc)

/-- The decimal numeral of a natural number. -/
def natDigits (n : Nat) : JStr := digitsAux (n + 1) n []

/-- The decimal numeral of an array index. -/
def indexKey (i : Nat) : JStr := natDigits i

/-- The properties `Object.assign` copies from a source: the members of an
object, the elements of an array and the code units of a string under their
indices, nothing from `null`, booleans and numbers. -/
def ownProps : JVal → Props
  | .obj kvs => kvs
  | .arr xs => xs.enum.map fun p => (indexKey p.1, p.2)
  | .str s => s.enum.map fun p => (indexKey p.1, JVal.str [p.2])
  | _ => []

/-- The object `finalResults` while it is built: its own properties, and
whether an assignment to `__proto__` has stopped reaching the accessor of
`Object.prototype` (the prototype has become `null`, or an object that has a
data property `__proto__` of its own). -/
structure Target where
  props : Props
  protoHidden : Bool
deriving DecidableEq, Repr

/-- The object literal `{}` of line 100. -/
def Target.empty : Target := ⟨[], false⟩

/-- The setter of `Object.prototype.__proto__` called with `v`: an object,
an array or `null` becomes the prototype, any other value is ignored.  The
result tells whether a later assignment to `__proto__` finds no accessor: the
new prototype is `null`, or an object with a data property `__proto__`. -/
def protoHiddenAfter : JVal → Bool
  | .null => true
  | .obj kvs => (kvs.lookup protoKey).isSome
  | _ => false

/-- The assignment `target[k] = v`.  Every key defines or overwrites an own
property, except `__proto__` while the target has no such own property and
the accessor of `Object.prototype` is reached: then the setter runs and no
own property is created. -/
def assignProp (target : Target) (k : JStr) (v : JVal) : Target :=
  if k = protoKey ∧ target.props.lookup protoKey = none ∧ target.protoHidden = false then
    { target with protoHidden := protoHiddenAfter v }
  else { target with props := setProp target.props k v }

/-- The call `Object.assign(target, source)`. -/
def objectAssign (target : Target) (source : JVal) : Target :=
  (ownProps source).foldl (fun t p => assignProp t p.1 p.2) target

/-- Lines 102-106: the `forEach` over the parsed array. -/
def foldItems : List JVal → Target → Except NormalizationError Target
  | [], acc => .ok acc
  | item :: rest, acc =>
    match readStatus item with
    | .error e => .error e
    | .ok st => if truthyOpt st then foldItems rest acc else foldItems rest (objectAssign acc item)

/-- Lines 100-110: the object built from the parsed value. -/
def collect (streamData : JVal) : Except NormalizationError Target :=
  match streamData with
  | .arr items => foldItems items Target.empty
  | other => .ok (objectAssign Target.empty other)

/-- Lines 78-116 of `fetchAI`: the own properties of the object passed to
`setAiResults`, or the error that reaches the `catch`. -/
def normalize (rawText : JStr) : Except NormalizationError Props :=
  if trim rawText = [] then .error .emptyResponse
  else
    match JSONparse (cleanText rawText) with
    | none => .error .malformedJson
    | some streamData =>
      match collect streamData with
      | .error e => .error e
      | .ok finalResults =>
        if finalResults.props.length = 0 then .error .noAnalysisData
        else .ok finalResults.props

/-- The test of line 103: the element is skipped by the fold. -/
def isSkipped (item : JVal) : Bool :=
  match readStatus item with
  | .ok st => truthyOpt st
  | .error _ => false

/-- The element has an own property `status`. -/
def hasStatusKey : JVal → Bool
  | .obj kvs => (kvs.lookup statusKey).isSome
  | _ => false

/-! ## The texts `JSON.parse` accepts

A declarative description of the texts the parser accepts, used to reason
about it: `parseValue` returns `v` and the rest `r` on a text exactly when the
text is `c ++ r` for a `c` with `Txt c (.val v)` (and `r` does not go on with
a number character). -/

/-- All code units are JSON white space. -/
def AllWs (w : JStr) : Prop := ∀ c ∈ w, isWs c = true

/-- The text is a number token denoting `n`. -/
def NumText (c : JStr) (n : JNum) : Prop :=
  (∀ x ∈ c, isNumChar x = true) ∧ decodeNumber c = some n

/-- The text is the body and closing quote of a string denoting `s`. -/
def StrText (c : JStr) (s : JStr) : Prop := parseString c = some (s, [])

/-- What a text can denote: a value, the elements of an array up to its
closing bracket, or the members of an object up to its closing brace. -/
inductive Res where
  | val (v : JVal)
  | elems (vs : List JVal)
  | members (m : Props)

/-- The JSON grammar with the value each text denotes. -/
inductive Txt : JStr → Res → Prop where
  | null : Txt [110, 117, 108, 108] (.val .null)
  | tru : Txt [116, 114, 117, 101] (.val (.bool true))
  | fls : Txt [102, 97, 108, 115, 101] (.val (.bool false))
  | num (c : JStr) (n : JNum) : NumText c n → Txt c (.val (.num n))
  | str (c s : JStr) : StrText c s → Txt (34 :: c) (.val (.str s))
  | arrNil (w : JStr) : AllWs w → Txt (91 :: (w ++ [93])) (.val (.arr []))
  | arr (w c : JStr) (vs : List JVal) :
      AllWs w → Txt c (.elems vs) → Txt (91 :: (w ++ c)) (.val (.arr vs))
  | objNil (w : JStr) : AllWs w → Txt (123 :: (w ++ [125])) (.val (.obj []))
  | obj (w c : JStr) (m : Props) :
      AllWs w → Txt c (.members m) → Txt (123 :: (w ++ c)) (.val (.obj (mkObject m)))
  | elemLast (c w : JStr) (v : JVal) :
      Txt c (.val v) → AllWs w → Txt (c ++ (w ++ [93])) (.elems [v])
  | elemCons (c w1 w2 c2 : JStr) (v : JVal) (vs : List JVal) :
      Txt c (.val v) → AllWs w1 → AllWs w2 → Txt c2 (.elems vs) →
      Txt (c ++ (w1 ++ 44 :: (w2 ++ c2))) (.elems (v :: vs))
  | memLast (k ks w1 w2 c w3 : JStr) (v : JVal) :
      StrText k ks → AllWs w1 → AllWs w2 → Txt c (.val v) → AllWs w3 →
      Txt (34 :: (k ++ (w1 ++ 58 :: (w2 ++ (c ++ (w3 ++ [125])))))) (.members [(ks, v)])
  | memCons (k ks w1 w2 c w3 w4 c2 : JStr) (v : JVal) (m : Props) :
      StrText k ks → AllWs w1 → AllWs w2 → Txt c (.val v) → AllWs w3 → AllWs w4 →
      Txt c2 (.members m) →
      Txt (34 :: (k ++ (w1 ++ 58 :: (w2 ++ (c ++ (w3 ++ 44 :: (w4 ++ c2)))))))
        (.members ((ks, v) :: m))

/-! ## Auxiliary definitions -/

/-- The rest of the text does not go on with a number character. -/
def Follow (r : JStr) : Prop := ∀ x t, r = x :: t → isNumChar x = false

/-- The characters a JSON value can start with. -/
def isValStart (x : Nat) : Bool :=
  x == 91 || x == 123 || x == 34 || x == 116 || x == 102 || x == 110 || x == 45 || isDigit x

/-- The texts joined with commas. -/
def commaJoin : List JStr → JStr
  | [] => []
  | [t] => t
  | t :: u :: ts => t ++ 44 :: commaJoin (u :: ts)

/-- The value the fold expects: an array stays, any other value becomes the
only element of an array. -/
def asArray : JVal → JVal
  | .arr xs => .arr xs
  | v => .arr [v]

mutual
/-- Every object inside the value has pairwise distinct keys, as every
object built by `JSON.parse` has. -/
def Canon : JVal → Prop
  | .arr xs => CanonList xs
  | .obj kvs => (kvs.map Prod.fst).Nodup ∧ CanonProps kvs
  | _ => True
/-- Every value of the list is canonical. -/
def CanonList : List JVal → Prop
  | [] => True
  | v :: vs => Canon v ∧ CanonList vs
/-- Every value of the property list is canonical. -/
def CanonProps : Props → Prop
  | [] => True
  | p :: ps => Canon p.2 ∧ CanonProps ps
end

/-- The read `v[k]` of an own property. -/
def valueIn (v : JVal) (k : JStr) : Option JVal := (ownProps v).lookup k

/-- The own keys of a value. -/
def keysOf (v : JVal) : List JStr := (ownProps v).map Prod.fst

/-- An object with pairwise distinct keys, none of them `status` or
`__proto__`. -/
def PlainObj (it : JVal) : Prop :=
  ∃ kvs, it = .obj kvs ∧ (kvs.map Prod.fst).Nodup ∧ kvs.lookup statusKey = none ∧
    kvs.lookup protoKey = none

/-- The element is an object without a `status` property. -/
def isSkillObject : JVal → Bool
  | .obj kvs => (kvs.lookup statusKey).isNone
  | _ => false

/-- The result of `normalize` on `raw` is the merge of `items`: its keys are
the keys of the items, and each key has the value given by the last item that
has the key. -/
def MergesAll (raw : JStr) (items : List JVal) : Prop :=
  ∃ M, normalize raw = .ok M ∧
    (∀ k, k ∈ M.map Prod.fst ↔ ∃ it ∈ items, k ∈ keysOf it) ∧
    (∀ k v, M.lookup k = some v ↔
      ∃ pre it post, items = pre ++ it :: post ∧ valueIn it k = some v ∧
        ∀ j ∈ post, valueIn j k = none)

/-- How the repair can change a string: not at all, or by inserting commas
after closing braces. -/
def StrSim (s s2 : JStr) : Prop := s2 = s ∨ (125 ∈ s ∧ 125 ∈ s2)

/-- What the repair of a text keeps of the value it denotes: the kind of the
value, atoms as they are, strings up to `StrSim`, and for an object the
truthiness of its `status` property. -/
def Sim : JVal → JVal → Prop
  | .null, .null => True
  | .bool a, .bool b => a = b
  | .num a, .num b => a = b
  | .str a, .str b => StrSim a b
  | .arr _, .arr _ => True
  | .obj a, .obj b => truthyOpt (a.lookup statusKey) = truthyOpt (b.lookup statusKey)
  | _, _ => False

/-- The relation `Sim` on what a text denotes. -/
def SimRes : Res → Res → Prop
  | .val a, .val b => Sim a b
  | .elems a, .elems b => List.Forall₂ Sim a b
  | .members a, .members b => List.Forall₂ (fun p q => StrSim p.1 q.1 ∧ Sim p.2 q.2) a b
  | _, _ => False

/-- The value of the last member with the key. -/
def lastBinding (k : JStr) : Props → Option JVal
  | [] => none
  | p :: m =>
    match lastBinding k m with
    | some v => some v
    | none => if p.1 = k then some p.2 else none

/-- A JSON text with nothing before its opening brace and nothing after its
closing brace, and the value it denotes. -/
def ObjectText (t : JStr) (v : JVal) : Prop :=
  JSONparse t = some v ∧ t.head? = some 123 ∧ t.getLast? = some 125

/-- The key `semantic_similarity`. -/
def similarityKey : JStr := js "semantic_similarity"

/-- The key `score`. -/
def scoreKey : JStr := js "score"

/-- The text of a skill object, written without spaces: an opening brace,
the name in quotes, a colon, and the record
`{"semantic_similarity":{"score":lit}}` with the number as written, a closing
brace. -/
def skillText (name lit : JStr) : JStr :=
  [123, 34] ++ (name ++ ([34, 58, 123, 34] ++ (similarityKey ++ ([34, 58, 123, 34] ++
    (scoreKey ++ ([34, 58] ++ (lit ++ [125, 125, 125])))))))

/-- The text `{"status":"st"}` of a status object, the string as written. -/
def statusText (st : JStr) : JStr := [123, 34] ++ (statusKey ++ ([34, 58, 34] ++ (st ++ [34, 125])))

/-- The record `{semantic_similarity: {score: n}}`. -/
def scoreRecord (n : JNum) : JVal := .obj [(similarityKey, .obj [(scoreKey, .num n)])]

/-- The string can be written between quotes as it is: it has no quote, no
backslash and no control character. -/
def PlainString (s : JStr) : Prop := ∀ c ∈ s, c ≠ 34 ∧ c ≠ 92 ∧ 32 ≤ c

/-- The value of a digit string read after `a`. -/
def digitsValue (a : Nat) (ds : JStr) : Nat := ds.foldl (fun v c => v * 10 + (c - 48)) a

/-- A lower-case hexadecimal digit. -/
def hexDigit (n : Nat) : Nat := if n < 10 then 48 + n else 87 + n

/-- The escape `\uXXXX` of a code unit. -/
def unicodeEscape (c : Nat) : JStr :=
  [92, 117, hexDigit (c / 4096 % 16), hexDigit (c / 256 % 16), hexDigit (c / 16 % 16),
    hexDigit (c % 16)]

/-- How `JSON.stringify` writes one code unit that is no surrogate. -/
def quoteUnit (c : Nat) : JStr :=
  if c = 8 then [92, 98]
  else if c = 9 then [92, 116]
  else if c = 10 then [92, 110]
  else if c = 12 then [92, 102]
  else if c = 13 then [92, 114]
  else if c = 34 then [92, 34]
  else if c = 92 then [92, 92]
  else if c < 32 then unicodeEscape c
  else [c]

/-- Leading surrogate. -/
def isLead (c : Nat) : Bool := 0xD800 ≤ c && c ≤ 0xDBFF

/-- Trailing surrogate. -/
def isTrail (c : Nat) : Bool := 0xDC00 ≤ c && c ≤ 0xDFFF

/-- How `JSON.stringify` writes a code unit that is not part of a surrogate
pair: the short escapes, `\u00XX` for the other control characters, a
`\u` escape for a lone surrogate, any other code unit as it is. -/
def quoteOne (c : Nat) : JStr :=
  if isLead c || isTrail c then unicodeEscape c else quoteUnit c

/-- The operation `QuoteJSONString` without the quotes; a surrogate pair is written as it
is. -/
def quoteBody : JStr → JStr
  | [] => []
  | [c] => quoteOne c
  | c :: d :: rest =>
    if isLead c && isTrail d then c :: d :: quoteBody rest
    else quoteOne c ++ quoteBody (d :: rest)

/-- The predicate `Canon` on what a text denotes. -/
def CanonRes : Res → Prop
  | .val v => Canon v
  | .elems vs => CanonList vs
  | .members m => CanonProps m

/-- What holds of the own properties of every object the fold builds:
pairwise distinct keys, canonical values, and no truthy `status`. -/
def GoodMap (M : Props) : Prop :=
  (M.map Prod.fst).Nodup ∧ CanonProps M ∧ truthyOpt (M.lookup statusKey) = false

/-- An object as `JSON.parse` builds it: its keys are pairwise distinct. -/
def isJsObject : JVal → Bool
  | .obj kvs => decide (kvs.map Prod.fst).Nodup
  | _ => false

/-- The claim that the fold merges the entries without a `status` key: it
returns a mapping whose keys are the keys of these entries, each key with the
value given by the last of these entries that has the key. -/
def MergesNonStatus (items : List JVal) : Prop :=
  ∃ T, foldItems items Target.empty = .ok T ∧
    (∀ k, k ∈ T.props.map Prod.fst ↔ ∃ it ∈ items, hasStatusKey it = false ∧ k ∈ keysOf it) ∧
    (∀ k v, T.props.lookup k = some v ↔
      ∃ pre it post, items = pre ++ it :: post ∧ hasStatusKey it = false ∧
        valueIn it k = some v ∧ ∀ j ∈ post, hasStatusKey j = false → valueIn j k = none)

/-- The left-to-right scan of `String.prototype.replace` with the global
pattern of a closing brace and an opening brace: a match is replaced by the
two braces with a comma in between, and the scan resumes behind the match. -/
def replaceSmashed : JStr → JStr
  | [] => []
  | [c] => [c]
  | c :: d :: rest =>
    if c = 125 ∧ d = 123 then 125 :: 44 :: 123 :: replaceSmashed rest
    else c :: replaceSmashed (d :: rest)

/-- The text with a comma inserted between each closing brace and the opening
brace that immediately follows it: every code unit is looked at together with
the code unit after it. -/
def insertCommas (s : JStr) : JStr :=
  (s.zip (s.tail.map some ++ [none])).flatMap fun p =>
    if p.1 = 125 ∧ p.2 = some 123 then [125, 44] else [p.1]

/-- The magnitude is that of a finite double or of twice the greatest one:
below `2^53` units, or 53 significant bits followed by zeros. -/
def IsDouble (u : Nat) : Prop :=
  u < 2 ^ 53 ∨ ∃ g j, 1 ≤ j ∧ 2 ^ 52 ≤ g ∧ g < 2 ^ 53 ∧ u = g * 2 ^ j

/-! ## The chart helpers of lines 128-158

The component keeps the mapping passed to `setAiResults` in the state
`aiResults`, which is `null` until then.  The helpers read the score of a
skill with `aiResults[s].semantic_similarity.score`; the scores are taken as
the exact numbers that were written, and a read that does not end in a JSON
number has no model here (`none`): such a value is no skill record. -/

/-- The number a JSON number literal denotes, exactly. -/
def JNum.toRat (n : JNum) : ℚ :=
  (if n.neg then -1 else 1) * (n.mant : ℚ) * (10 : ℚ) ^ n.exp

/-- The array index a property key denotes, if it is one: the key is the
decimal numeral, without leading zeros, of a number below `2^32 - 1`. -/
def arrayIndex (k : JStr) : Option Nat :=
  if k = natDigits (digitsValue 0 k) ∧ digitsValue 0 k < 4294967295 then some (digitsValue 0 k)
  else none

/-- The call `Object.keys(o)`: the keys that are array indices in ascending
order, then the other keys in the order in which they were created. -/
def objectKeys (o : Props) : List JStr :=
  (((o.map Prod.fst).filterMap arrayIndex).insertionSort (· ≤ ·)).map natDigits ++
    (o.map Prod.fst).filter fun k => (arrayIndex k).isNone

/-- Line 128: `skillsList`, the keys of `aiResults`, or the empty list while
`aiResults` is `null` (here `none`). -/
def skillsList (aiResults : Option Props) : List JStr :=
  match aiResults with
  | some r => objectKeys r
  | none => []

/-- The read `aiResults[s].semantic_similarity.score` when it ends in a JSON
number. -/
def score (aiResults : Props) (s : JStr) : Option ℚ :=
  match aiResults.lookup s with
  | some data =>
    match valueIn data similarityKey with
    | some sem =>
      match valueIn sem scoreKey with
      | some (.num n) => some n.toRat
      | _ => none
    | none => none
  | none => none

/-- The labels of `getScoreLevel`. -/
inductive Level where
  | skilled
  | moderate
  | beginner
deriving DecidableEq, Repr

/-- Lines 133-138: `getScoreLevel`, by its label. -/
def getScoreLevel (score : ℚ) : Level :=
  let percent := score * 100
  if percent > 50 then .skilled
  else if percent ≥ 40 then .moderate
  else .beginner

/-- Lines 298-300: the level shown on the card of a skill. -/
def cardLevel (aiResults : Props) (skill : JStr) : Option Level :=
  (score aiResults skill).map getScoreLevel

/-- The value `skills.filter(s => test(score of s)).length`. -/
def countWhere (aiResults : Props) (test : ℚ → Bool) : List JStr → Option Nat
  | [] => some 0
  | s :: rest =>
    match score aiResults s, countWhere aiResults test rest with
    | some x, some n => some (if test x then n + 1 else n)
    | _, _ => none

/-- What `getChartData` returns: `null`, or the chart whose `data` array is
`[skilled, moderate, beginner]`. -/
inductive Chart where
  | null
  | data (skilled moderate beginner : Int)
deriving DecidableEq, Repr

/-- Lines 140-154: `getChartData`. -/
def getChartData (aiResults : Option Props) : Option Chart :=
  match aiResults with
  | none => some .null
  | some r =>
    match countWhere r (fun x => x * 100 > 50) (skillsList aiResults),
      countWhere r (fun x => x * 100 ≥ 40 && x * 100 ≤ 50) (skillsList aiResults) with
    | some skilled, some moderate =>
      some (.data skilled moderate ((skillsList aiResults).length - skilled - moderate))
    | _, _ => none

/-- The callback of line 157: `a` when its score is greater, else `b`. -/
def higher (aiResults : Props) (a b : JStr) : Option JStr :=
  match score aiResults a, score aiResults b with
  | some x, some y => some (if x > y then a else b)
  | _, _ => none

/-- The call `reduce` without an initial value, on the list `a :: rest`: the
callback is not called on a list of one element. -/
def reduceHigher (aiResults : Props) : JStr → List JStr → Option JStr
  | a, [] => some a
  | a, b :: rest =>
    match higher aiResults a b with
    | some c => reduceHigher aiResults c rest
    | none => none

/-- Lines 156-158: `topSkill`. -/
def topSkill (aiResults : Option Props) : Option JStr :=
  match skillsList aiResults, aiResults with
  | a :: rest, some r => reduceHigher r a rest
  | _, _ => some (js "N/A")

/-! ## Numbers as doubles, and `JSON.stringify`

`JSON.parse` turns a number literal into the nearest double, and
`JSON.stringify` writes a double with the fewest digits that read back as the
same double.  Every finite double is a whole number of units of `2^-1074`, so
its magnitude is kept as that whole number. -/

/-- A double other than NaN: the sign with the magnitude in units of
`2^-1074`, or an infinity. -/
inductive Dbl where
  | finite (neg : Bool) (units : Nat)
  | infinite (neg : Bool)
deriving DecidableEq, Repr

/-- Binary search for the exponent: `e` grows by `2^m`, `2^(m-1)`, ..., `1`
whenever the power of two still is at most `n`. -/
def log2Search : Nat → Nat → Nat → Nat
  | 0, e, n => if 2 ^ (e + 1) ≤ n then e + 1 else e
  | m + 1, e, n => log2Search m (if 2 ^ (e + 2 ^ (m + 1)) ≤ n then e + 2 ^ (m + 1) else e) n

/-- The greatest `e` with `2^e ≤ n`, for `0 < n < 2^4096`. -/
def floorLog2 (n : Nat) : Nat := log2Search 11 0 n

/-- The binary exponent of the last place of a double of `F` units or
slightly more: a double has 53 significant bits, and the unit is the last
place of the doubles below `2^53` units. -/
def lastPlace (F : Nat) : Nat := if F < 2 ^ 53 then 0 else floorLog2 F - 52

/-- The magnitude, in units of `2^-1074`, of the double nearest to `A / b`
units, a tie going to the even significand.  A result of `2^2098` or more
stands for a magnitude beyond the largest finite double; a quotient of
`2^2100` or more is not rounded any further. -/
def roundUnits (A b : Nat) : Nat :=
  if 2 ^ 2100 ≤ A / b then 2 ^ 2100
  else
    let j := lastPlace (A / b)
    let f := A / (b * 2 ^ j)
    let r := A % (b * 2 ^ j)
    (if 2 * r > b * 2 ^ j ∨ (2 * r = b * 2 ^ j ∧ f % 2 = 1) then f + 1 else f) * 2 ^ j

/-- The magnitude, in units of `2^-1074`, of the double nearest to
`s * 10^p`. -/
def decimalToUnits (s : Nat) (p : Int) : Nat :=
  roundUnits (s * 10 ^ p.toNat * 2 ^ 1074) (10 ^ (-p).toNat)

/-- The Number value of a JSON number literal. -/
def JNum.toDouble (n : JNum) : Dbl :=
  if decimalToUnits n.mant n.exp < 2 ^ 2098 then .finite n.neg (decimalToUnits n.mant n.exp)
  else .infinite n.neg

/-- The decimal exponent of a positive magnitude `u` (in units of `2^-1074`):
the greatest `E` with `10^E ≤ u * 2^-1074`. -/
def decimalExponent (u : Nat) : Int :=
  if 2 ^ 1074 ≤ u then ((natDigits (u / 2 ^ 1074)).length : Int) - 1
  else -((natDigits ((2 ^ 1074 + u - 1) / u - 1)).length : Int)

/-- Of two decimals `s * 10^p`, given as `(s, p)`, the one that reads back as
the magnitude `u`; when both do, the lower one if it is the nearer, else the
upper one. -/
def pickDecimal (u : Nat) (lo hi : Nat × Int) (lowerNearer : Bool) : Option (Nat × Int) :=
  if decimalToUnits lo.1 lo.2 = u then
    if decimalToUnits hi.1 hi.2 = u ∧ lowerNearer = false then some hi else some lo
  else if decimalToUnits hi.1 hi.2 = u then some hi
  else none

/-- The decimal with `k` digits that reads back as the magnitude `u`, if
there is one: one of the two decimals with `k` digits that enclose the value,
the nearer one (on a tie the even one) when both read back as `u`.  The upper
decimal is written with one digit when it is a power of ten. -/
def candidate (u : Nat) (k : Nat) : Option (Nat × Int) :=
  let p : Int := decimalExponent u - k + 1
  let X := u * 10 ^ (-p).toNat
  let Y := 2 ^ 1074 * 10 ^ p.toNat
  let lo := X / Y
  let r := X % Y
  pickDecimal u (lo, p) (if lo + 1 = 10 ^ k then (1, p + k) else (lo + 1, p))
    (decide (2 * r < Y ∨ (2 * r = Y ∧ lo % 2 = 0)))

/-- The digits `s` and the exponent `p` that `Number::toString` writes for
the positive magnitude `u`: the decimal `s * 10^p` with the fewest digits that
reads back as `u`.  Seventeen digits always suffice
(`shortestDecimal_found`), so the exact decimal expansion of `u * 2^-1074`
that stands at the end is never taken for a double. -/
def shortestDecimal (u : Nat) : Nat × Int :=
  ((List.range 17).findSome? fun i => candidate u (i + 1)).getD (u * 5 ^ 1074, -1074)

/-- The exponent part as `Number::toString` writes it: the letter `e`, a sign
and the digits. -/
def exponentText (e : Int) : JStr := 101 :: (if e < 0 then 45 else 43) :: natDigits e.natAbs

/-- The decimal `s * 10^p` as `Number::toString` writes it, with `k` the
number of digits of `s` and `n = p + k` the place of the decimal point: the
digits and `n - k` zeros when `k ≤ n ≤ 21`; the digits with the point after
the first `n` when `0 < n ≤ 21`; `0.`, `-n` zeros and the digits when
`-6 < n ≤ 0`; and else the exponent form, with the point after the first digit
and the exponent `n - 1`. -/
def formatDecimal (s : Nat) (p : Int) : JStr :=
  let ds := natDigits s
  let k := ds.length
  let n : Int := p + k
  if (k : Int) ≤ n ∧ n ≤ 21 then ds ++ List.replicate (n - k).toNat 48
  else if 0 < n ∧ n ≤ 21 then ds.take n.toNat ++ 46 :: ds.drop n.toNat
  else if -6 < n ∧ n ≤ 0 then 48 :: 46 :: (List.replicate (-n).toNat 48 ++ ds)
  else if k = 1 then ds ++ exponentText (n - 1)
  else ds.take 1 ++ 46 :: (ds.drop 1 ++ exponentText (n - 1))

/-- How `JSON.stringify` writes a number: `null` for an infinity, `0` for
both zeros, and else the sign and the shortest decimal. -/
def serializeNumber : Dbl → JStr
  | .infinite _ => [110, 117, 108, 108]
  | .finite neg u =>
    if u = 0 then [48]
    else (if neg then [45] else []) ++ formatDecimal (shortestDecimal u).1 (shortestDecimal u).2

mutual
/-- The call `JSON.stringify(v)`, without indentation, on a value that
`JSON.parse` has returned: the elements of an array and the members of an
object joined by commas, the members in the order of `Object.keys`. -/
def stringify : JVal → JStr
  | .null => [110, 117, 108, 108]
  | .bool true => [116, 114, 117, 101]
  | .bool false => [102, 97, 108, 115, 101]
  | .num n => serializeNumber n.toDouble
  | .str s => 34 :: (quoteBody s ++ [34])
  | .arr xs => 91 :: (commaJoin (stringifyList xs) ++ [93])
  | .obj kvs =>
    123 :: (commaJoin ((objectKeys kvs).map fun k =>
      34 :: (quoteBody k ++ 34 :: 58 :: ((stringifyProps kvs).lookup k).getD [])) ++ [125])
/-- The serialisations of the elements of an array. -/
def stringifyList : List JVal → List JStr
  | [] => []
  | v :: vs => stringify v :: stringifyList vs
/-- The serialisations of the property values of an object, each under its
key. -/
def stringifyProps : Props → List (JStr × JStr)
  | [] => []
  | p :: kvs => (p.1, stringify p.2) :: stringifyProps kvs
end

/-- A JavaScript value as a program can tell it from another: a number is a
double, and the properties of an object stand in the order in which
`Object.keys` lists them. -/
inductive JsVal where
  | null
  | bool (b : Bool)
  | num (d : Dbl)
  | str (s : JStr)
  | arr (xs : List JsVal)
  | obj (kvs : List (JStr × JsVal))
deriving Repr

mutual
/-- Decidable equality of JavaScript values. -/
def JsVal.decEq : (a b : JsVal) → Decidable (a = b)
  | .null, .null => isTrue rfl
  | .bool a, .bool b =>
    if h : a = b then isTrue (by rw [h]) else isFalse (by intro e; injection e; contradiction)
  | .num a, .num b =>
    if h : a = b then isTrue (by rw [h]) else isFalse (by intro e; injection e; contradiction)
  | .str a, .str b =>
    if h : a = b then isTrue (by rw [h]) else isFalse (by intro e; injection e; contradiction)
  | .arr a, .arr b =>
    match JsVal.decEqList a b with
    | isTrue h => isTrue (by rw [h])
    | isFalse h => isFalse (by intro e; injection e; contradiction)
  | .obj a, .obj b =>
    match JsVal.decEqProps a b with
    | isTrue h => isTrue (by rw [h])
    | isFalse h => isFalse (by intro e; injection e; contradiction)
  | .null, .bool _ => isFalse (by intro e; cases e)
  | .null, .num _ => isFalse (by intro e; cases e)
  | .null, .str _ => isFalse (by intro e; cases e)
  | .null, .arr _ => isFalse (by intro e; cases e)
  | .null, .obj _ => isFalse (by intro e; cases e)
  | .bool _, .null => isFalse (by intro e; cases e)
  | .bool _, .num _ => isFalse (by intro e; cases e)
  | .bool _, .str _ => isFalse (by intro e; cases e)
  | .bool _, .arr _ => isFalse (by intro e; cases e)
  | .bool _, .obj _ => isFalse (by intro e; cases e)
  | .num _, .null => isFalse (by intro e; cases e)
  | .num _, .bool _ => isFalse (by intro e; cases e)
  | .num _, .str _ => isFalse (by intro e; cases e)
  | .num _, .arr _ => isFalse (by intro e; cases e)
  | .num _, .obj _ => isFalse (by intro e; cases e)
  | .str _, .null => isFalse (by intro e; cases e)
  | .str _, .bool _ => isFalse (by intro e; cases e)
  | .str _, .num _ => isFalse (by intro e; cases e)
  | .str _, .arr _ => isFalse (by intro e; cases e)
  | .str _, .obj _ => isFalse (by intro e; cases e)
  | .arr _, .null => isFalse (by intro e; cases e)
  | .arr _, .bool _ => isFalse (by intro e; cases e)
  | .arr _, .num _ => isFalse (by intro e; cases e)
  | .arr _, .str _ => isFalse (by intro e; cases e)
  | .arr _, .obj _ => isFalse (by intro e; cases e)
  | .obj _, .null => isFalse (by intro e; cases e)
  | .obj _, .bool _ => isFalse (by intro e; cases e)
  | .obj _, .num _ => isFalse (by intro e; cases e)
  | .obj _, .str _ => isFalse (by intro e; cases e)
  | .obj _, .arr _ => isFalse (by intro e; cases e)
/-- Decidable equality of lists of JavaScript values. -/
def JsVal.decEqList : (a b : List JsVal) → Decidable (a = b)
  | [], [] => isTrue rfl
  | [], _ :: _ => isFalse (by intro e; cases e)
  | _ :: _, [] => isFalse (by intro e; cases e)
  | x :: xs, y :: ys =>
    match JsVal.decEq x y, JsVal.decEqList xs ys with
    | isTrue h1, isTrue h2 => isTrue (by rw [h1, h2])
    | isFalse h1, _ => isFalse (by intro e; injection e; contradiction)
    | _, isFalse h2 => isFalse (by intro e; injection e; contradiction)
/-- Decidable equality of property lists of JavaScript values. -/
def JsVal.decEqProps : (a b : List (JStr × JsVal)) → Decidable (a = b)
  | [], [] => isTrue rfl
  | [], _ :: _ => isFalse (by intro e; cases e)
  | _ :: _, [] => isFalse (by intro e; cases e)
  | (k1, x) :: xs, (k2, y) :: ys =>
    if hk : k1 = k2 then
      match JsVal.decEq x y, JsVal.decEqProps xs ys with
      | isTrue h1, isTrue h2 => isTrue (by rw [hk, h1, h2])
      | isFalse h1, _ => isFalse (by intro e; injection e with e1 e2; injection e1; contradiction)
      | _, isFalse h2 => isFalse (by intro e; injection e; contradiction)
    else isFalse (by intro e; injection e with e1 e2; injection e1; contradiction)
end

instance : DecidableEq JsVal := JsVal.decEq

mutual
/-- The JavaScript value a parsed JSON value stands for. -/
def toJs : JVal → JsVal
  | .null => .null
  | .bool b => .bool b
  | .num n => .num n.toDouble
  | .str s => .str s
  | .arr xs => .arr (toJsList xs)
  | .obj kvs =>
    .obj ((objectKeys kvs).map fun k => (k, ((toJsProps kvs).lookup k).getD .null))
/-- The JavaScript values of the elements of an array. -/
def toJsList : List JVal → List JsVal
  | [] => []
  | v :: vs => toJs v :: toJsList vs
/-- The JavaScript values of the properties of an object, each under its
key. -/
def toJsProps : Props → List (JStr × JsVal)
  | [] => []
  | p :: kvs => (p.1, toJs p.2) :: toJsProps kvs
end

mutual
/-- Every number in the value is one that JSON can write: it is finite and
it is not the negative zero. -/
def jsonNumbers : JVal → Bool
  | .num n =>
    match n.toDouble with
    | .finite neg u => !(neg && u == 0)
    | .infinite _ => false
  | .arr xs => jsonNumbersList xs
  | .obj kvs => jsonNumbersProps kvs
  | _ => true
/-- Every number in the elements is one that JSON can write. -/
def jsonNumbersList : List JVal → Bool
  | [] => true
  | v :: vs => jsonNumbers v && jsonNumbersList vs
/-- Every number in the property values is one that JSON can write. -/
def jsonNumbersProps : Props → Bool
  | [] => true
  | p :: kvs => jsonNumbers p.2 && jsonNumbersProps kvs
end

/-! ## Theorems -/

theorem isJsSpace_of_isWs {c : Nat} (h : isWs c = true) : isJsSpace c = true := by
  simp only [isWs, Bool.or_eq_true, beq_iff_eq] at h
  rcases h with ((h | h) | h) | h <;> subst h <;> decide

theorem trim_eq_nil_of_all {s : JStr} (h : ∀ c ∈ s, isJsSpace c = true) : trim s = [] := by
  have : s.dropWhile isJsSpace = [] := by
    rw [List.dropWhile_eq_nil_iff]; exact h
  simp [trim, this]

theorem foldItems_cons_skipped {it : JVal} (h : isSkipped it = true) (rest : List JVal)
    (acc : Target) : foldItems (it :: rest) acc = foldItems rest acc := by
  unfold isSkipped at h
  cases hs : readStatus it with
  | error e => rw [hs] at h; cases h
  | ok st => rw [hs] at h; simp only at h; simp only [foldItems, hs, h, if_true]

theorem foldItems_filter (items : List JVal) (acc : Target) :
    foldItems (items.filter fun it => !isSkipped it) acc = foldItems items acc := by
  induction items generalizing acc with
  | nil => rfl
  | cons it rest ih =>
    cases hk : isSkipped it with
    | true => rw [List.filter_cons_of_neg (by simp [hk]), foldItems_cons_skipped hk, ih]
    | false =>
      rw [List.filter_cons_of_pos (by simp [hk])]
      unfold isSkipped at hk
      cases hs : readStatus it with
      | error e => simp only [foldItems, hs]
      | ok st =>
        rw [hs] at hk; simp only at hk
        simp only [foldItems, hs, hk, ih]

theorem foldItems_error_iff (items : List JVal) (acc : Target) :
    (∃ e, foldItems items acc = .error e) ↔ JVal.null ∈ items := by
  induction items generalizing acc with
  | nil => simp [foldItems]
  | cons it rest ih =>
    cases it with
    | null => simp [foldItems, readStatus]
    | obj kvs =>
      simp only [foldItems, readStatus]
      split <;> simp [ih]
    | _ => simp [foldItems, readStatus, truthyOpt, ih]

theorem foldItems_error_typeError {items : List JVal} {acc : Target} {e : NormalizationError}
    (h : foldItems items acc = .error e) : e = .typeError := by
  induction items generalizing acc with
  | nil => simp [foldItems] at h
  | cons it rest ih =>
    cases it with
    | null => simp [foldItems, readStatus] at h; exact h.symm
    | obj kvs =>
      simp only [foldItems, readStatus] at h
      split at h <;> exact ih h
    | _ => simp only [foldItems, readStatus, truthyOpt] at h; exact ih (by simpa using h)

theorem skipWs_append_of_allWs {w : JStr} (hw : AllWs w) (s : JStr) :
    skipWs (w ++ s) = skipWs s := by
  induction w with
  | nil => rfl
  | cons x w ih =>
    have hx := hw x (List.mem_cons_self _ _)
    have := ih (fun c hc => hw c (List.mem_cons_of_mem _ hc))
    simpa [skipWs, List.dropWhile_cons, hx] using this

theorem skipWs_cons_of_not {x : Nat} (hx : isWs x = false) (s : JStr) :
    skipWs (x :: s) = x :: s := by
  simp [skipWs, List.dropWhile_cons, hx]

theorem skipWs_decomp (s : JStr) :
    ∃ w, AllWs w ∧ s = w ++ skipWs s := by
  refine ⟨s.takeWhile isWs, ?_, ?_⟩
  · intro c hc
    exact List.mem_takeWhile_imp hc
  · exact (List.takeWhile_append_dropWhile isWs s).symm

theorem skipWs_head_not_ws {s : JStr} {x : Nat} {r : JStr} (h : skipWs s = x :: r) :
    isWs x = false := by
  have := List.head_dropWhile_not isWs s (by rw [show s.dropWhile isWs = skipWs s from rfl, h]; simp)
  simpa [show s.dropWhile isWs = skipWs s from rfl, h] using this

theorem allWs_of_skipWs_eq_nil {s : JStr} (h : skipWs s = []) : AllWs s := by
  intro c hc
  exact (List.dropWhile_eq_nil_iff.mp h) c hc

theorem skipWs_of_allWs {w : JStr} (hw : AllWs w) : skipWs w = [] :=
  List.dropWhile_eq_nil_iff.mpr hw

theorem hexVal_ge {a x : Nat} (h : hexVal a = some x) : 32 ≤ a := by
  unfold hexVal at h
  split at h
  · omega
  · split at h
    · omega
    · split at h
      · omega
      · cases h

theorem hex4_ge {a b c d u : Nat} (h : hex4 a b c d = some u) :
    32 ≤ a ∧ 32 ≤ b ∧ 32 ≤ c ∧ 32 ≤ d := by
  unfold hex4 at h
  split at h
  · next x y z w h1 h2 h3 h4 => exact ⟨hexVal_ge h1, hexVal_ge h2, hexVal_ge h3, hexVal_ge h4⟩
  · cases h

theorem escapeVal_ge {e u : Nat} (h : escapeVal e = some u) : 32 ≤ e := by
  unfold escapeVal at h
  repeat' split at h
  all_goals first | omega | cases h

theorem parseString_sound (s : JStr) : ∀ x r, parseString s = some (x, r) →
    ∃ c, s = c ++ r ∧ (∀ r2, parseString (c ++ r2) = some (x, r2)) ∧
      (∀ y ∈ c, 32 ≤ y) ∧ c.getLast? = some 34 := by
  induction s using parseString.induct with
  | case1 => intro x r h; simp [parseString] at h
  | case2 r0 =>
    intro x r h
    rw [parseString.eq_def] at h
    simp only [if_true, Option.some.injEq, Prod.mk.injEq] at h
    obtain ⟨rfl, rfl⟩ := h
    exact ⟨[34], rfl, fun r2 => by rw [List.singleton_append, parseString.eq_def]; simp, by simp, rfl⟩
  | case3 => intro x r h; simp [parseString] at h
  | case4 a b c d r2 hh _ =>
    intro x r h
    rw [parseString.eq_def] at h
    simp [hh] at h
  | case5 a b c d r2 u hh _ ih =>
    intro x r h
    rw [parseString.eq_def] at h
    simp [hh] at h
    obtain ⟨x1, h1, rfl⟩ := h
    obtain ⟨c1, hc1, hl, hge, hlast⟩ := ih x1 r h1
    obtain ⟨ha, hb, hc, hd⟩ := hex4_ge hh
    refine ⟨92 :: 117 :: a :: b :: c :: d :: c1, by simp [hc1], ?_, ?_, ?_⟩
    · intro r3; simp [parseString, hh, hl]
    · intro y hy
      simp only [List.mem_cons] at hy
      rcases hy with rfl | rfl | rfl | rfl | rfl | rfl | hy
      all_goals first | omega | exact hge y hy
    · cases c1 with
      | nil => simp at hlast
      | cons z c1 => simpa [List.getLast?_cons_cons] using hlast
  | case6 r1 hn _ =>
    intro x r h
    rw [parseString.eq_def] at h
    simp at h
  | case7 e r1 he hv _ =>
    intro x r h
    rw [parseString.eq_def] at h
    simp [he, hv] at h
  | case8 e r1 he u hv _ ih =>
    intro x r h
    rw [parseString.eq_def] at h
    simp [he, hv] at h
    obtain ⟨x1, h1, rfl⟩ := h
    obtain ⟨c1, hc1, hl, hge, hlast⟩ := ih x1 r h1
    have hee := escapeVal_ge hv
    refine ⟨92 :: e :: c1, by simp [hc1], ?_, ?_, ?_⟩
    · intro r3; rw [parseString.eq_def]; simp [he, hv, hl]
    · intro y hy
      simp only [List.mem_cons] at hy
      rcases hy with rfl | rfl | hy
      all_goals first | omega | exact hge y hy
    · cases c1 with
      | nil => simp at hlast
      | cons z c1 => simpa [List.getLast?_cons_cons] using hlast
  | case9 c r0 h1 h2 h3 =>
    intro x r h
    rw [parseString.eq_def] at h
    simp [h1, h2, h3] at h
  | case10 c r0 h1 h2 h3 ih =>
    intro x r h
    rw [parseString.eq_def] at h
    simp [h1, h2, h3] at h
    obtain ⟨x1, h4, rfl⟩ := h
    obtain ⟨c1, hc1, hl, hge, hlast⟩ := ih x1 r h4
    refine ⟨c :: c1, by simp [hc1], ?_, ?_, ?_⟩
    · intro r3; rw [parseString.eq_def]; simp [h1, h2, h3, hl]
    · intro y hy
      simp only [List.mem_cons] at hy
      rcases hy with rfl | hy
      all_goals first | omega | exact hge y hy
    · cases c1 with
      | nil => simp at hlast
      | cons z c1 => simpa [List.getLast?_cons_cons] using hlast

theorem parseNumber_sound {s : JStr} {n : JNum} {r : JStr} (h : parseNumber s = some (n, r)) :
    ∃ c, s = c ++ r ∧ NumText c n := by
  unfold parseNumber at h
  cases hd : decodeNumber (s.takeWhile isNumChar) with
  | none => simp [hd] at h
  | some m =>
    simp [hd] at h
    obtain ⟨rfl, rfl⟩ := h
    exact ⟨s.takeWhile isNumChar, (List.takeWhile_append_dropWhile _ _).symm,
      fun x hx => List.mem_takeWhile_imp hx, hd⟩

theorem parseNumber_complete {c : JStr} {n : JNum} (h : NumText c n) {r : JStr} (hr : Follow r) :
    parseNumber (c ++ r) = some (n, r) := by
  have h1 : (c ++ r).takeWhile isNumChar = c := by
    rw [List.takeWhile_append_of_pos h.1]
    cases r with
    | nil => simp
    | cons x t => simp [List.takeWhile_cons, hr x t rfl]
  have h2 : (c ++ r).dropWhile isNumChar = r := by
    rw [List.dropWhile_append_of_pos h.1]
    cases r with
    | nil => simp
    | cons x t => simp [List.dropWhile_cons, hr x t rfl]
  simp [parseNumber, h1, h2, h.2]

theorem NumText.numHead {c : JStr} {n : JNum} (h : NumText c n) :
    ∃ x t, c = x :: t ∧ (x = 45 ∨ isDigit x = true) := by
  obtain ⟨_, hd⟩ := h
  cases c with
  | nil => simp [decodeNumber] at hd
  | cons x t =>
    refine ⟨x, t, rfl, ?_⟩
    by_cases hx : x = 45
    · exact Or.inl hx
    · right
      simp only [decodeNumber, hx, if_false] at hd
      by_contra hdg
      simp [readUnsigned, hdg] at hd

theorem Follow_nil : Follow [] := fun _ _ h => by cases h

theorem Follow_cons {x : Nat} (hx : isNumChar x = false) (t : JStr) : Follow (x :: t) :=
  fun _ _ h => by cases h; exact hx

theorem isNumChar_of_isWs {x : Nat} (h : isWs x = true) : isNumChar x = false := by
  simp only [isWs, Bool.or_eq_true, beq_iff_eq] at h
  rcases h with ((h | h) | h) | h <;> subst h <;> decide

theorem Follow_ws_append {w : JStr} (hw : AllWs w) {r : JStr} (hr : Follow r) : Follow (w ++ r) := by
  cases w with
  | nil => simpa using hr
  | cons x t => exact Follow_cons (isNumChar_of_isWs (hw x (List.mem_cons_self _ _))) _

theorem isValStart_elim {x : Nat} (h : isValStart x = true) :
    isWs x = false ∧ isJsSpace x = false ∧ x ≠ 93 ∧ x ≠ 125 ∧ x ≠ 10 := by
  simp only [isValStart, isDigit, Bool.or_eq_true, beq_iff_eq, Bool.and_eq_true,
    decide_eq_true_eq] at h
  have hx : x = 91 ∨ x = 123 ∨ x = 34 ∨ x = 116 ∨ x = 102 ∨ x = 110 ∨ x = 45 ∨ x = 48 ∨ x = 49 ∨
      x = 50 ∨ x = 51 ∨ x = 52 ∨ x = 53 ∨ x = 54 ∨ x = 55 ∨ x = 56 ∨ x = 57 := by omega
  rcases hx with h | h | h | h | h | h | h | h | h | h | h | h | h | h | h | h | h <;>
    subst h <;> decide

theorem Txt.txtHead {c : JStr} {res : Res} (h : Txt c res) :
    ∃ x t, c = x :: t ∧ isValStart x = true ∧ (∀ m, res = .members m → x = 34) := by
  induction h with
  | null => exact ⟨_, _, rfl, by decide, by intro m h; cases h⟩
  | tru => exact ⟨_, _, rfl, by decide, by intro m h; cases h⟩
  | fls => exact ⟨_, _, rfl, by decide, by intro m h; cases h⟩
  | num c n hn =>
    obtain ⟨x, t, rfl, hx⟩ := hn.numHead
    refine ⟨x, t, rfl, ?_, by intro m h; cases h⟩
    rcases hx with rfl | hx
    · decide
    · simp [isValStart, hx]
  | str c s _ => exact ⟨_, _, rfl, by decide, by intro m h; cases h⟩
  | arrNil w _ => exact ⟨_, _, rfl, by decide, by intro m h; cases h⟩
  | arr w c vs _ _ _ => exact ⟨_, _, rfl, by decide, by intro m h; cases h⟩
  | objNil w _ => exact ⟨_, _, rfl, by decide, by intro m h; cases h⟩
  | obj w c m _ _ _ => exact ⟨_, _, rfl, by decide, by intro m h; cases h⟩
  | elemLast c w v _ _ ih =>
    obtain ⟨x, t, rfl, hx, _⟩ := ih
    exact ⟨x, _, rfl, hx, by intro m h; cases h⟩
  | elemCons c w1 w2 c2 v vs _ _ _ _ ih _ =>
    obtain ⟨x, t, rfl, hx, _⟩ := ih
    exact ⟨x, _, rfl, hx, by intro m h; cases h⟩
  | memLast k ks w1 w2 c w3 v _ _ _ _ _ _ => exact ⟨_, _, rfl, by decide, fun _ _ => rfl⟩
  | memCons k ks w1 w2 c w3 w4 c2 v m _ _ _ _ _ _ _ _ _ => exact ⟨_, _, rfl, by decide, fun _ _ => rfl⟩

theorem skipWs_ws_txt {w : JStr} (hw : AllWs w) {c : JStr} {res : Res} (h : Txt c res)
    (r : JStr) : skipWs (w ++ (c ++ r)) = c ++ r := by
  obtain ⟨x, t, rfl, hx, _⟩ := h.txtHead
  rw [skipWs_append_of_allWs hw]
  exact skipWs_cons_of_not (isValStart_elim hx).1 _

theorem skipWs_ws_cons {w : JStr} (hw : AllWs w) {x : Nat} (hx : isWs x = false) (r : JStr) :
    skipWs (w ++ x :: r) = x :: r := by
  rw [skipWs_append_of_allWs hw]
  exact skipWs_cons_of_not hx _

theorem StrText.strComplete {c s : JStr} (h : StrText c s) (r : JStr) :
    parseString (c ++ r) = some (s, r) := by
  obtain ⟨c0, hc, hl, _, _⟩ := parseString_sound c s [] h
  rw [List.append_nil] at hc
  subst hc
  exact hl r

theorem Txt.txtComplete {c : JStr} {res : Res} (h : Txt c res) :
    ∀ f r, c.length ≤ f →
      match res with
      | .val v => Follow r → parseValue f (c ++ r) = some (v, r)
      | .elems vs => parseElements f (c ++ r) = some (vs, r)
      | .members m => parseMembers f (c ++ r) = some (m, r) := by
  induction h with
  | null =>
    intro f r hf
    obtain ⟨f, rfl⟩ : ∃ g, f = g + 1 := ⟨f - 1, by simp at hf; omega⟩
    intro _
    simp [parseValue, dropLit]
  | tru =>
    intro f r hf
    obtain ⟨f, rfl⟩ : ∃ g, f = g + 1 := ⟨f - 1, by simp at hf; omega⟩
    intro _
    simp [parseValue, dropLit]
  | fls =>
    intro f r hf
    obtain ⟨f, rfl⟩ : ∃ g, f = g + 1 := ⟨f - 1, by simp at hf; omega⟩
    intro _
    simp [parseValue, dropLit]
  | num c n hn =>
    intro f r hf
    obtain ⟨x, t, rfl, hx⟩ := hn.numHead
    obtain ⟨f, rfl⟩ : ∃ g, f = g + 1 := ⟨f - 1, by simp at hf; omega⟩
    intro hr
    have hp := parseNumber_complete hn hr
    have h1 : x ≠ 91 ∧ x ≠ 123 ∧ x ≠ 34 ∧ x ≠ 116 ∧ x ≠ 102 ∧ x ≠ 110 := by
      rcases hx with rfl | hx
      · decide
      · simp only [isDigit, Bool.and_eq_true, decide_eq_true_eq] at hx
        omega
    obtain ⟨a1, a2, a3, a4, a5, a6⟩ := h1
    rw [List.cons_append] at hp ⊢
    simp [parseValue, a1, a2, a3, a4, a5, a6, hp]
  | str c s hs =>
    intro f r hf
    obtain ⟨f, rfl⟩ : ∃ g, f = g + 1 := ⟨f - 1, by simp at hf; omega⟩
    intro _
    simp [parseValue, hs.strComplete r]
  | arrNil w hw =>
    intro f r hf
    obtain ⟨f, rfl⟩ : ∃ g, f = g + 1 := ⟨f - 1, by simp at hf; omega⟩
    intro _
    have : skipWs (w ++ 93 :: r) = 93 :: r := skipWs_ws_cons hw (by decide) r
    simp [parseValue, this]
  | arr w c vs hw hc ih =>
    intro f r hf
    obtain ⟨f, rfl⟩ : ∃ g, f = g + 1 := ⟨f - 1, by simp at hf; omega⟩
    intro _
    have h1 : skipWs (w ++ (c ++ r)) = c ++ r := skipWs_ws_txt hw hc r
    obtain ⟨x, t, rfl, hx, _⟩ := hc.txtHead
    have h2 := ih f r (by simp at hf ⊢; omega)
    simp only at h2
    have hx93 := (isValStart_elim hx).2.2.1
    simp only [List.cons_append] at h1 h2
    simp [parseValue, h1, h2, hx93]
  | objNil w hw =>
    intro f r hf
    obtain ⟨f, rfl⟩ : ∃ g, f = g + 1 := ⟨f - 1, by simp at hf; omega⟩
    intro _
    have : skipWs (w ++ 125 :: r) = 125 :: r := skipWs_ws_cons hw (by decide) r
    simp [parseValue, this]
  | obj w c m hw hc ih =>
    intro f r hf
    obtain ⟨f, rfl⟩ : ∃ g, f = g + 1 := ⟨f - 1, by simp at hf; omega⟩
    intro _
    have h1 : skipWs (w ++ (c ++ r)) = c ++ r := skipWs_ws_txt hw hc r
    obtain ⟨x, t, rfl, hx, _⟩ := hc.txtHead
    have h2 := ih f r (by simp at hf ⊢; omega)
    simp only at h2
    have hx125 := (isValStart_elim hx).2.2.2.1
    simp only [List.cons_append] at h1 h2
    simp [parseValue, h1, h2, hx125]
  | elemLast c w v hc hw ih =>
    intro f r hf
    obtain ⟨x, t, rfl, hx, _⟩ := hc.txtHead
    obtain ⟨f, rfl⟩ : ∃ g, f = g + 1 := ⟨f - 1, by simp at hf; omega⟩
    have h2 := ih f (w ++ 93 :: r) (by simp at hf ⊢; omega)
    simp only at h2
    have h3 := h2 (Follow_ws_append hw (Follow_cons (by decide) r))
    have h4 : skipWs (w ++ 93 :: r) = 93 :: r := skipWs_ws_cons hw (by decide) r
    have e : (x :: t) ++ (w ++ [93]) ++ r = (x :: t) ++ (w ++ 93 :: r) := by simp
    rw [e, parseElements, h3]
    simp [h4]
  | elemCons c w1 w2 c2 v vs hc hw1 hw2 hc2 ih ih2 =>
    intro f r hf
    obtain ⟨x, t, rfl, hx, _⟩ := hc.txtHead
    obtain ⟨f, rfl⟩ : ∃ g, f = g + 1 := ⟨f - 1, by simp at hf; omega⟩
    have h2 := ih f (w1 ++ 44 :: (w2 ++ (c2 ++ r))) (by simp at hf ⊢; omega)
    simp only at h2
    have h3 := h2 (Follow_ws_append hw1 (Follow_cons (by decide) _))
    have h4 : skipWs (w1 ++ 44 :: (w2 ++ (c2 ++ r))) = 44 :: (w2 ++ (c2 ++ r)) :=
      skipWs_ws_cons hw1 (by decide) _
    have h5 : skipWs (w2 ++ (c2 ++ r)) = c2 ++ r := skipWs_ws_txt hw2 hc2 r
    have h6 := ih2 f r (by simp at hf ⊢; omega)
    simp only at h6
    have e : (x :: t) ++ (w1 ++ 44 :: (w2 ++ c2)) ++ r
        = (x :: t) ++ (w1 ++ 44 :: (w2 ++ (c2 ++ r))) := by simp
    rw [e, parseElements, h3]
    simp [h4, h5, h6]
  | memLast k ks w1 w2 c w3 v hk hw1 hw2 hc hw3 ih =>
    intro f r hf
    obtain ⟨f, rfl⟩ : ∃ g, f = g + 1 := ⟨f - 1, by simp at hf; omega⟩
    have e : (34 :: (k ++ (w1 ++ 58 :: (w2 ++ (c ++ (w3 ++ [125])))))) ++ r
        = 34 :: (k ++ (w1 ++ 58 :: (w2 ++ (c ++ (w3 ++ 125 :: r))))) := by simp
    have h1 := hk.strComplete (w1 ++ 58 :: (w2 ++ (c ++ (w3 ++ 125 :: r))))
    have h2 : skipWs (w1 ++ 58 :: (w2 ++ (c ++ (w3 ++ 125 :: r))))
        = 58 :: (w2 ++ (c ++ (w3 ++ 125 :: r))) := skipWs_ws_cons hw1 (by decide) _
    have h3 : skipWs (w2 ++ (c ++ (w3 ++ 125 :: r))) = c ++ (w3 ++ 125 :: r) :=
      skipWs_ws_txt hw2 hc _
    have h4 := ih f (w3 ++ 125 :: r) (by simp at hf ⊢; omega)
    simp only at h4
    have h5 := h4 (Follow_ws_append hw3 (Follow_cons (by decide) r))
    have h6 : skipWs (w3 ++ 125 :: r) = 125 :: r := skipWs_ws_cons hw3 (by decide) r
    rw [e, parseMembers]
    simp [h1, h2, h3, h5, h6]
  | memCons k ks w1 w2 c w3 w4 c2 v m hk hw1 hw2 hc hw3 hw4 hc2 ih ih2 =>
    intro f r hf
    obtain ⟨f, rfl⟩ : ∃ g, f = g + 1 := ⟨f - 1, by simp at hf; omega⟩
    have e : (34 :: (k ++ (w1 ++ 58 :: (w2 ++ (c ++ (w3 ++ 44 :: (w4 ++ c2))))))) ++ r
        = 34 :: (k ++ (w1 ++ 58 :: (w2 ++ (c ++ (w3 ++ 44 :: (w4 ++ (c2 ++ r))))))) := by simp
    have h1 := hk.strComplete (w1 ++ 58 :: (w2 ++ (c ++ (w3 ++ 44 :: (w4 ++ (c2 ++ r))))))
    have h2 : skipWs (w1 ++ 58 :: (w2 ++ (c ++ (w3 ++ 44 :: (w4 ++ (c2 ++ r))))))
        = 58 :: (w2 ++ (c ++ (w3 ++ 44 :: (w4 ++ (c2 ++ r))))) := skipWs_ws_cons hw1 (by decide) _
    have h3 : skipWs (w2 ++ (c ++ (w3 ++ 44 :: (w4 ++ (c2 ++ r)))))
        = c ++ (w3 ++ 44 :: (w4 ++ (c2 ++ r))) := skipWs_ws_txt hw2 hc _
    have h4 := ih f (w3 ++ 44 :: (w4 ++ (c2 ++ r))) (by simp at hf ⊢; omega)
    simp only at h4
    have h5 := h4 (Follow_ws_append hw3 (Follow_cons (by decide) _))
    have h6 : skipWs (w3 ++ 44 :: (w4 ++ (c2 ++ r))) = 44 :: (w4 ++ (c2 ++ r)) :=
      skipWs_ws_cons hw3 (by decide) _
    have h7 : skipWs (w4 ++ (c2 ++ r)) = c2 ++ r := skipWs_ws_txt hw4 hc2 r
    have h8 := ih2 f r (by simp at hf ⊢; omega)
    simp only at h8
    rw [e, parseMembers]
    simp [h1, h2, h3, h5, h6, h7, h8]

theorem dropLit_some {p s r : JStr} (h : dropLit p s = some r) : s = p ++ r := by
  induction p generalizing s with
  | nil => simp [dropLit] at h; simp [h]
  | cons x p ih =>
    cases s with
    | nil => simp [dropLit] at h
    | cons y s =>
      simp only [dropLit] at h
      split at h
      · next hxy => subst hxy; simp [ih h]
      · cases h

theorem skipWs_eq_cons {s : JStr} {x : Nat} {t : JStr} (h : skipWs s = x :: t) :
    ∃ w, AllWs w ∧ s = w ++ x :: t := by
  obtain ⟨w, hw, hs⟩ := skipWs_decomp s
  exact ⟨w, hw, by rw [← h]; exact hs⟩

theorem parse_sound : ∀ f,
    (∀ s v r, parseValue f s = some (v, r) → ∃ c, s = c ++ r ∧ Txt c (.val v)) ∧
    (∀ s vs r, parseElements f s = some (vs, r) → ∃ c, s = c ++ r ∧ Txt c (.elems vs)) ∧
    (∀ s m r, parseMembers f s = some (m, r) → ∃ c, s = c ++ r ∧ Txt c (.members m)) := by
  intro f
  induction f with
  | zero =>
    refine ⟨?_, ?_, ?_⟩ <;> intro s v r h
    · simp [parseValue] at h
    · simp [parseElements] at h
    · simp [parseMembers] at h
  | succ f ih =>
    obtain ⟨ihv, ihe, ihm⟩ := ih
    refine ⟨?_, ?_, ?_⟩
    · intro s v r h
      cases s with
      | nil => simp [parseValue] at h
      | cons c r0 =>
        rw [parseValue] at h
        obtain ⟨w, hw, hr0⟩ := skipWs_decomp r0
        split at h
        · next hc =>
          subst hc
          split at h
          · next h93 =>
            simp only [Option.some.injEq, Prod.mk.injEq] at h
            obtain ⟨rfl, rfl⟩ := h
            cases ht : skipWs r0 with
            | nil => simp [ht] at h93
            | cons y t =>
              simp only [ht, List.head?_cons, Option.some.injEq] at h93
              subst h93
              refine ⟨91 :: (w ++ [93]), ?_, Txt.arrNil w hw⟩
              rw [hr0, ht]; simp
          · cases he : parseElements f (skipWs r0) with
            | none => simp [he] at h
            | some p =>
              obtain ⟨vs, r1⟩ := p
              simp only [he, Option.map_some', Option.some.injEq, Prod.mk.injEq] at h
              obtain ⟨rfl, rfl⟩ := h
              obtain ⟨c1, hc1, ht⟩ := ihe _ _ _ he
              refine ⟨91 :: (w ++ c1), ?_, Txt.arr w c1 vs hw ht⟩
              rw [hr0, hc1]; simp
        · split at h
          · next _ hc =>
            subst hc
            split at h
            · next h125 =>
              simp only [Option.some.injEq, Prod.mk.injEq] at h
              obtain ⟨rfl, rfl⟩ := h
              cases ht : skipWs r0 with
              | nil => simp [ht] at h125
              | cons y t =>
                simp only [ht, List.head?_cons, Option.some.injEq] at h125
                subst h125
                refine ⟨123 :: (w ++ [125]), ?_, Txt.objNil w hw⟩
                rw [hr0, ht]; simp
            · cases he : parseMembers f (skipWs r0) with
              | none => simp [he] at h
              | some p =>
                obtain ⟨m, r1⟩ := p
                simp only [he, Option.map_some', Option.some.injEq, Prod.mk.injEq] at h
                obtain ⟨rfl, rfl⟩ := h
                obtain ⟨c1, hc1, ht⟩ := ihm _ _ _ he
                refine ⟨123 :: (w ++ c1), ?_, Txt.obj w c1 m hw ht⟩
                rw [hr0, hc1]; simp
          · split at h
            · next _ _ hc =>
              subst hc
              cases hs : parseString r0 with
              | none => simp [hs] at h
              | some p =>
                obtain ⟨x, r1⟩ := p
                simp only [hs, Option.map_some', Option.some.injEq, Prod.mk.injEq] at h
                obtain ⟨rfl, rfl⟩ := h
                obtain ⟨c1, hc1, hl, _, _⟩ := parseString_sound _ _ _ hs
                refine ⟨34 :: c1, by rw [hc1]; simp, Txt.str c1 x ?_⟩
                have := hl []
                rwa [List.append_nil] at this
            · split at h
              · next _ _ _ hc =>
                subst hc
                cases hs : dropLit [114, 117, 101] r0 with
                | none => simp [hs] at h
                | some r1 =>
                  simp only [hs, Option.map_some', Option.some.injEq, Prod.mk.injEq] at h
                  obtain ⟨rfl, rfl⟩ := h
                  exact ⟨[116, 114, 117, 101], by rw [dropLit_some hs]; simp, Txt.tru⟩
              · split at h
                · next _ _ _ _ hc =>
                  subst hc
                  cases hs : dropLit [97, 108, 115, 101] r0 with
                  | none => simp [hs] at h
                  | some r1 =>
                    simp only [hs, Option.map_some', Option.some.injEq, Prod.mk.injEq] at h
                    obtain ⟨rfl, rfl⟩ := h
                    exact ⟨[102, 97, 108, 115, 101], by rw [dropLit_some hs]; simp, Txt.fls⟩
                · split at h
                  · next _ _ _ _ _ hc =>
                    subst hc
                    cases hs : dropLit [117, 108, 108] r0 with
                    | none => simp [hs] at h
                    | some r1 =>
                      simp only [hs, Option.map_some', Option.some.injEq, Prod.mk.injEq] at h
                      obtain ⟨rfl, rfl⟩ := h
                      exact ⟨[110, 117, 108, 108], by rw [dropLit_some hs]; simp, Txt.null⟩
                  · cases hs : parseNumber (c :: r0) with
                    | none => simp [hs] at h
                    | some p =>
                      obtain ⟨n, r1⟩ := p
                      simp only [hs, Option.map_some', Option.some.injEq, Prod.mk.injEq] at h
                      obtain ⟨rfl, rfl⟩ := h
                      obtain ⟨c1, hc1, hn⟩ := parseNumber_sound hs
                      exact ⟨c1, hc1, Txt.num c1 n hn⟩
    · intro s vs r h
      rw [parseElements] at h
      cases hv : parseValue f s with
      | none => simp [hv] at h
      | some p =>
        obtain ⟨v, r1⟩ := p
        simp only [hv] at h
        obtain ⟨c1, hc1, ht1⟩ := ihv _ _ _ hv
        cases hk : skipWs r1 with
        | nil => simp [hk] at h
        | cons x r2 =>
          obtain ⟨w1, hw1, hr1⟩ := skipWs_eq_cons hk
          simp only [hk] at h
          split at h
          · next hx =>
            subst hx
            cases he : parseElements f (skipWs r2) with
            | none => simp [he] at h
            | some p =>
              obtain ⟨vs2, r3⟩ := p
              simp only [he, Option.map_some', Option.some.injEq, Prod.mk.injEq] at h
              obtain ⟨rfl, rfl⟩ := h
              obtain ⟨c2, hc2, ht2⟩ := ihe _ _ _ he
              obtain ⟨w2, hw2, hr2⟩ := skipWs_decomp r2
              refine ⟨c1 ++ (w1 ++ 44 :: (w2 ++ c2)), ?_, Txt.elemCons c1 w1 w2 c2 v vs2 ht1 hw1 hw2 ht2⟩
              rw [hc1, hr1, hr2, hc2]; simp
          · split at h
            · next _ hx =>
              subst hx
              simp only [Option.some.injEq, Prod.mk.injEq] at h
              obtain ⟨rfl, rfl⟩ := h
              refine ⟨c1 ++ (w1 ++ [93]), ?_, Txt.elemLast c1 w1 v ht1 hw1⟩
              rw [hc1, hr1]; simp
            · cases h
    · intro s m r h
      cases s with
      | nil => simp [parseMembers] at h
      | cons q r0 =>
        rw [parseMembers] at h
        split at h
        · next hq =>
          subst hq
          cases hs : parseString r0 with
          | none => simp [hs] at h
          | some p =>
            obtain ⟨k, r1⟩ := p
            simp only [hs] at h
            obtain ⟨ck, hck, hl, _, _⟩ := parseString_sound _ _ _ hs
            have hkt : StrText ck k := by
              have := hl []
              rwa [List.append_nil] at this
            cases hk1 : skipWs r1 with
            | nil => simp [hk1] at h
            | cons x r2 =>
              obtain ⟨w1, hw1, hr1⟩ := skipWs_eq_cons hk1
              simp only [hk1] at h
              split at h
              · next hx =>
                subst hx
                obtain ⟨w2, hw2, hr2⟩ := skipWs_decomp r2
                cases hv : parseValue f (skipWs r2) with
                | none => simp [hv] at h
                | some p =>
                  obtain ⟨v, r3⟩ := p
                  simp only [hv] at h
                  obtain ⟨c1, hc1, ht1⟩ := ihv _ _ _ hv
                  cases hk3 : skipWs r3 with
                  | nil => simp [hk3] at h
                  | cons d r4 =>
                    obtain ⟨w3, hw3, hr3⟩ := skipWs_eq_cons hk3
                    simp only [hk3] at h
                    split at h
                    · next hd =>
                      subst hd
                      cases he : parseMembers f (skipWs r4) with
                      | none => simp [he] at h
                      | some p =>
                        obtain ⟨m2, r5⟩ := p
                        simp only [he, Option.map_some', Option.some.injEq, Prod.mk.injEq] at h
                        obtain ⟨rfl, rfl⟩ := h
                        obtain ⟨c2, hc2, ht2⟩ := ihm _ _ _ he
                        obtain ⟨w4, hw4, hr4⟩ := skipWs_decomp r4
                        refine ⟨_, ?_, Txt.memCons ck k w1 w2 c1 w3 w4 c2 v m2 hkt hw1 hw2 ht1 hw3 hw4 ht2⟩
                        rw [hck, hr1, hr2, hc1, hr3, hr4, hc2]; simp
                    · split at h
                      · next _ hd =>
                        subst hd
                        simp only [Option.some.injEq, Prod.mk.injEq] at h
                        obtain ⟨rfl, rfl⟩ := h
                        refine ⟨_, ?_, Txt.memLast ck k w1 w2 c1 w3 v hkt hw1 hw2 ht1 hw3⟩
                        rw [hck, hr1, hr2, hc1, hr3]; simp
                      · cases h
              · cases h
        · cases h

theorem JSONparse_of_txt {w1 c w2 : JStr} {v : JVal} (hw1 : AllWs w1) (hw2 : AllWs w2)
    (hc : Txt c (.val v)) : JSONparse (w1 ++ (c ++ w2)) = some v := by
  unfold JSONparse
  rw [skipWs_ws_txt hw1 hc w2]
  have h := hc.txtComplete ((w1 ++ (c ++ w2)).length + 1) w2 (by simp; omega)
  simp only at h
  have hf : Follow w2 := by
    have := Follow_ws_append hw2 Follow_nil
    rwa [List.append_nil] at this
  rw [h hf]
  simp [skipWs_of_allWs hw2]

theorem txt_of_JSONparse {s : JStr} {v : JVal} (h : JSONparse s = some v) :
    ∃ w1 c w2, s = w1 ++ (c ++ w2) ∧ AllWs w1 ∧ AllWs w2 ∧ Txt c (.val v) := by
  unfold JSONparse at h
  cases hp : parseValue (s.length + 1) (skipWs s) with
  | none => simp [hp] at h
  | some p =>
    obtain ⟨v1, r⟩ := p
    simp only [hp] at h
    split at h
    · next hr =>
      simp only [Option.some.injEq] at h
      subst h
      obtain ⟨c, hc, ht⟩ := (parse_sound _).1 _ _ _ hp
      obtain ⟨w1, hw1, hs⟩ := skipWs_decomp s
      exact ⟨w1, c, r, by rw [← hc]; exact hs, hw1, allWs_of_skipWs_eq_nil hr, ht⟩
    · cases h

theorem isNumChar_not_space {x : Nat} (h : isNumChar x = true) :
    isJsSpace x = false ∧ x ≠ 10 ∧ x ≠ 123 ∧ x ≠ 125 := by
  simp only [isNumChar, isDigit, Bool.or_eq_true, beq_iff_eq, Bool.and_eq_true,
    decide_eq_true_eq] at h
  have hx : x = 43 ∨ x = 45 ∨ x = 46 ∨ x = 69 ∨ x = 101 ∨ x = 48 ∨ x = 49 ∨
      x = 50 ∨ x = 51 ∨ x = 52 ∨ x = 53 ∨ x = 54 ∨ x = 55 ∨ x = 56 ∨ x = 57 := by omega
  rcases hx with h | h | h | h | h | h | h | h | h | h | h | h | h | h | h <;>
    subst h <;> decide

theorem Txt.last {c : JStr} {res : Res} (h : Txt c res) :
    ∃ t y, c = t ++ [y] ∧ isJsSpace y = false := by
  induction h with
  | null => exact ⟨[110, 117, 108], 108, rfl, by decide⟩
  | tru => exact ⟨[116, 114, 117], 101, rfl, by decide⟩
  | fls => exact ⟨[102, 97, 108, 115], 101, rfl, by decide⟩
  | num c n hn =>
    obtain ⟨x, t, rfl, _⟩ := hn.numHead
    rcases List.eq_nil_or_concat' (x :: t) with h | ⟨t2, y, h⟩
    · cases h
    · refine ⟨t2, y, h, ?_⟩
      exact (isNumChar_not_space (hn.1 y (by rw [h]; simp))).1
  | str c s hs =>
    obtain ⟨c0, hc, _, _, hl⟩ := parseString_sound c s [] hs
    rw [List.append_nil] at hc
    subst hc
    obtain ⟨t2, h⟩ := List.getLast?_eq_some_iff.mp hl
    exact ⟨34 :: t2, 34, by rw [h]; rfl, by decide⟩
  | arrNil w _ => exact ⟨91 :: w, 93, rfl, by decide⟩
  | arr w c vs _ _ ih =>
    obtain ⟨t, y, rfl, hs⟩ := ih
    exact ⟨91 :: (w ++ t), y, by simp, hs⟩
  | objNil w _ => exact ⟨123 :: w, 125, rfl, by decide⟩
  | obj w c m _ _ ih =>
    obtain ⟨t, y, rfl, hs⟩ := ih
    exact ⟨123 :: (w ++ t), y, by simp, hs⟩
  | elemLast c w v _ _ _ => exact ⟨c ++ w, 93, by simp, by decide⟩
  | elemCons c w1 w2 c2 v vs _ _ _ _ _ ih =>
    obtain ⟨t, y, rfl, hs⟩ := ih
    exact ⟨c ++ (w1 ++ 44 :: (w2 ++ t)), y, by simp, hs⟩
  | memLast k ks w1 w2 c w3 v _ _ _ _ _ _ =>
    exact ⟨34 :: (k ++ (w1 ++ 58 :: (w2 ++ (c ++ w3)))), 125, by simp, by decide⟩
  | memCons k ks w1 w2 c w3 w4 c2 v m _ _ _ _ _ _ _ _ ih =>
    obtain ⟨t, y, rfl, hs⟩ := ih
    exact ⟨34 :: (k ++ (w1 ++ 58 :: (w2 ++ (c ++ (w3 ++ 44 :: (w4 ++ t)))))), y, by simp, hs⟩

theorem trim_ws_append {w1 c w2 : JStr} (hw1 : ∀ x ∈ w1, isJsSpace x = true)
    (hw2 : ∀ x ∈ w2, isJsSpace x = true) {x : Nat} {t : JStr} (hc : c = x :: t)
    (hx : isJsSpace x = false) {t2 : JStr} {y : Nat} (hy : c = t2 ++ [y])
    (hys : isJsSpace y = false) : trim (w1 ++ (c ++ w2)) = c := by
  unfold trim
  rw [List.dropWhile_append_of_pos hw1]
  have h1 : (c ++ w2).dropWhile isJsSpace = c ++ w2 := by
    rw [hc]; simp [List.dropWhile_cons, hx]
  rw [h1, List.rdropWhile, List.reverse_append,
    List.dropWhile_append_of_pos (fun a ha => hw2 a (List.mem_reverse.mp ha))]
  have h2 : c.reverse.dropWhile isJsSpace = c.reverse := by
    rw [hy]; simp [List.dropWhile_cons, hys]
  rw [h2, List.reverse_reverse]

theorem Txt.trim {c : JStr} {res : Res} (h : Txt c res) {w1 w2 : JStr} (hw1 : AllWs w1)
    (hw2 : AllWs w2) : PlatformAnalysis.trim (w1 ++ (c ++ w2)) = c := by
  obtain ⟨x, t, hc, hx, _⟩ := h.txtHead
  obtain ⟨t2, y, hy, hys⟩ := h.last
  exact trim_ws_append (fun a ha => isJsSpace_of_isWs (hw1 a ha))
    (fun a ha => isJsSpace_of_isWs (hw2 a ha)) hc (isValStart_elim hx).2.1 hy hys

theorem removeNewlines_append (a b : JStr) :
    removeNewlines (a ++ b) = removeNewlines a ++ removeNewlines b := by
  simp [removeNewlines]

theorem removeNewlines_cons_ne {x : Nat} (hx : x ≠ 10) (a : JStr) :
    removeNewlines (x :: a) = x :: removeNewlines a := by
  simp [removeNewlines, List.filter_cons, hx]

theorem removeNewlines_eq_self {a : JStr} (h : ∀ x ∈ a, x ≠ 10) : removeNewlines a = a := by
  unfold removeNewlines
  rw [List.filter_eq_self]
  intro x hx
  simpa using h x hx

theorem AllWs.wsRemoveNewlines {w : JStr} (hw : AllWs w) : AllWs (removeNewlines w) := by
  intro c hc
  exact hw c (List.mem_filter.mp hc).1

theorem NumText.numRemoveNewlines {c : JStr} {n : JNum} (h : NumText c n) : removeNewlines c = c :=
  removeNewlines_eq_self fun x hx => (isNumChar_not_space (h.1 x hx)).2.1

theorem StrText.strRemoveNewlines {c s : JStr} (h : StrText c s) : removeNewlines c = c := by
  obtain ⟨c0, hc, _, hge, _⟩ := parseString_sound c s [] h
  rw [List.append_nil] at hc
  subst hc
  exact removeNewlines_eq_self fun x hx => by have := hge x hx; omega

theorem Txt.txtRemoveNewlines {c : JStr} {res : Res} (h : Txt c res) :
    Txt (removeNewlines c) res := by
  induction h with
  | null => exact Txt.null
  | tru => exact Txt.tru
  | fls => exact Txt.fls
  | num c n hn => rw [hn.numRemoveNewlines]; exact Txt.num c n hn
  | str c s hs =>
    rw [removeNewlines_cons_ne (by decide), hs.strRemoveNewlines]
    exact Txt.str c s hs
  | arrNil w hw =>
    rw [removeNewlines_cons_ne (by decide), removeNewlines_append]
    exact Txt.arrNil _ hw.wsRemoveNewlines
  | arr w c vs hw _ ih =>
    rw [removeNewlines_cons_ne (by decide), removeNewlines_append]
    exact Txt.arr _ _ vs hw.wsRemoveNewlines ih
  | objNil w hw =>
    rw [removeNewlines_cons_ne (by decide), removeNewlines_append]
    exact Txt.objNil _ hw.wsRemoveNewlines
  | obj w c m hw _ ih =>
    rw [removeNewlines_cons_ne (by decide), removeNewlines_append]
    exact Txt.obj _ _ m hw.wsRemoveNewlines ih
  | elemLast c w v _ hw ih =>
    rw [removeNewlines_append, removeNewlines_append]
    exact Txt.elemLast _ _ v ih hw.wsRemoveNewlines
  | elemCons c w1 w2 c2 v vs _ hw1 hw2 _ ih ih2 =>
    rw [removeNewlines_append, removeNewlines_append, removeNewlines_cons_ne (by decide),
      removeNewlines_append]
    exact Txt.elemCons _ _ _ _ v vs ih hw1.wsRemoveNewlines hw2.wsRemoveNewlines ih2
  | memLast k ks w1 w2 c w3 v hk hw1 hw2 _ hw3 ih =>
    rw [removeNewlines_cons_ne (by decide), removeNewlines_append, removeNewlines_append,
      removeNewlines_cons_ne (by decide), removeNewlines_append, removeNewlines_append,
      removeNewlines_append, hk.strRemoveNewlines]
    exact Txt.memLast _ ks _ _ _ _ v hk hw1.wsRemoveNewlines hw2.wsRemoveNewlines ih
      hw3.wsRemoveNewlines
  | memCons k ks w1 w2 c w3 w4 c2 v m hk hw1 hw2 _ hw3 hw4 _ ih ih2 =>
    rw [removeNewlines_cons_ne (by decide), removeNewlines_append, removeNewlines_append,
      removeNewlines_cons_ne (by decide), removeNewlines_append, removeNewlines_append,
      removeNewlines_append, removeNewlines_cons_ne (by decide), removeNewlines_append,
      hk.strRemoveNewlines]
    exact Txt.memCons _ ks _ _ _ _ _ _ v m hk hw1.wsRemoveNewlines hw2.wsRemoveNewlines ih
      hw3.wsRemoveNewlines hw4.wsRemoveNewlines ih2

theorem fixSmashed_head (s : JStr) : (fixSmashed s).head? = s.head? := by
  cases s with
  | nil => rfl
  | cons x t =>
    simp only [fixSmashed]
    split
    · next h => simp [h.1]
    · rfl

theorem fixSmashed_of_not_hasSmash {s : JStr} (h : hasSmash s = false) : fixSmashed s = s := by
  induction s with
  | nil => rfl
  | cons x t ih =>
    simp only [hasSmash, Bool.or_eq_false_iff, Bool.and_eq_false_iff] at h
    obtain ⟨h1, h2⟩ := h
    simp only [fixSmashed]
    rw [if_neg, ih h2]
    rintro ⟨hx, ht⟩
    rcases h1 with h1 | h1
    · simp [hx] at h1
    · simp [ht] at h1

theorem hasSmash_append {a b : JStr} (h : hasSmash (a ++ b) = false) :
    hasSmash a = false ∧ hasSmash b = false := by
  induction a with
  | nil => exact ⟨rfl, by simpa using h⟩
  | cons x t ih =>
    simp only [List.cons_append, hasSmash, Bool.or_eq_false_iff] at h
    obtain ⟨h1, h2⟩ := h
    obtain ⟨i1, i2⟩ := ih h2
    refine ⟨?_, i2⟩
    simp only [hasSmash, Bool.or_eq_false_iff]
    refine ⟨?_, i1⟩
    cases t with
    | nil => simp
    | cons y t => simpa using h1

theorem fixSmashed_cons (x : Nat) (s : JStr) :
    fixSmashed (x :: s) =
      if x = 125 ∧ s.head? = some 123 then 125 :: 44 :: fixSmashed s else x :: fixSmashed s := by
  rw [fixSmashed]

theorem fixSmashed_append (a b : JStr) :
    fixSmashed (a ++ b) =
      if a.getLast? = some 125 ∧ b.head? = some 123 then fixSmashed a ++ 44 :: fixSmashed b
      else fixSmashed a ++ fixSmashed b := by
  induction a with
  | nil => simp [fixSmashed]
  | cons x t ih =>
    cases t with
    | nil =>
      simp only [List.singleton_append, fixSmashed, List.head?_nil, List.getLast?_singleton,
        Option.some.injEq]
      by_cases hx : x = 125
      · by_cases hb : b.head? = some 123
        · simp [hx, hb]
        · simp [hx, hb]
      · simp [hx]
    | cons y t =>
      rw [List.cons_append, fixSmashed_cons x, fixSmashed_cons x (y :: t), ih,
        List.getLast?_cons_cons]
      simp only [List.cons_append, List.head?_cons]
      by_cases h1 : x = 125 ∧ some y = some 123
      · simp only [h1, and_self, if_true]
        split <;> simp
      · simp only [h1, if_false]
        split <;> simp

theorem fixSmashed_append_of_head {a b : JStr} (hb : b.head? ≠ some 123) :
    fixSmashed (a ++ b) = fixSmashed a ++ fixSmashed b := by
  rw [fixSmashed_append, if_neg]
  exact fun h => hb h.2

theorem fixSmashed_append_of_last {a b : JStr} (ha : a.getLast? ≠ some 125) :
    fixSmashed (a ++ b) = fixSmashed a ++ fixSmashed b := by
  rw [fixSmashed_append, if_neg]
  exact fun h => ha h.1

theorem fixSmashed_getLast (s : JStr) : (fixSmashed s).getLast? = s.getLast? := by
  induction s with
  | nil => rfl
  | cons x t ih =>
    cases t with
    | nil => simp [fixSmashed]
    | cons y t =>
      have hne : fixSmashed (y :: t) ≠ [] := by
        intro h
        have := fixSmashed_head (y :: t)
        rw [h] at this
        simp at this
      obtain ⟨z, u, hz⟩ := List.exists_cons_of_ne_nil hne
      rw [fixSmashed]
      split
      · rw [hz, List.getLast?_cons_cons, List.getLast?_cons_cons, List.getLast?_cons_cons, ← hz, ih]
      · rw [hz, List.getLast?_cons_cons, List.getLast?_cons_cons, ← hz, ih]

theorem commaJoin_head {t : JStr} {ts : List JStr} (ht : t ≠ []) :
    (commaJoin (t :: ts)).head? = t.head? := by
  cases ts with
  | nil => rfl
  | cons u ts =>
    obtain ⟨x, r, rfl⟩ := List.exists_cons_of_ne_nil ht
    rfl

theorem flatten_head {t : JStr} {ts : List JStr} (ht : t ≠ []) :
    (t :: ts).flatten.head? = t.head? := by
  obtain ⟨x, r, rfl⟩ := List.exists_cons_of_ne_nil ht
  rfl

theorem fixSmashed_flatten (ts : List JStr)
    (h : ∀ t ∈ ts, t.head? = some 123 ∧ t.getLast? = some 125) :
    fixSmashed ts.flatten = commaJoin (ts.map fixSmashed) := by
  induction ts with
  | nil => rfl
  | cons t ts ih =>
    cases ts with
    | nil => simp [commaJoin]
    | cons u ts =>
      have hu := (h u (by simp)).1
      have hune : u ≠ [] := by intro e; rw [e] at hu; simp at hu
      rw [List.flatten_cons, fixSmashed_append, if_pos ⟨(h t (by simp)).2, by
        rw [flatten_head hune]; exact hu⟩, ih (fun t ht => h t (List.mem_cons_of_mem _ ht))]
      rfl

theorem txt_commaJoin (ps : List (JStr × JVal)) (hne : ps ≠ [])
    (h : ∀ p ∈ ps, Txt p.1 (.val p.2)) :
    Txt (commaJoin (ps.map Prod.fst) ++ [93]) (.elems (ps.map Prod.snd)) := by
  induction ps with
  | nil => exact absurd rfl hne
  | cons p ps ih =>
    cases ps with
    | nil =>
      have := Txt.elemLast p.1 [] p.2 (h p (by simp)) (by intro c hc; cases hc)
      simpa [commaJoin] using this
    | cons q ps =>
      have h2 := ih (by simp) (fun x hx => h x (List.mem_cons_of_mem _ hx))
      have := Txt.elemCons p.1 [] [] _ p.2 _ (h p (by simp)) (by intro c hc; cases hc)
        (by intro c hc; cases hc) h2
      simpa [commaJoin] using this

theorem Txt.arr_of_head {c : JStr} {v : JVal} (h : Txt c (.val v)) (hc : c.head? = some 91) :
    ∃ xs, v = .arr xs := by
  cases h with
  | null => simp at hc
  | tru => simp at hc
  | fls => simp at hc
  | num _ _ hn =>
    obtain ⟨x, t, rfl, hx⟩ := hn.numHead
    simp only [List.head?_cons, Option.some.injEq] at hc
    subst hc
    rcases hx with hx | hx
    · cases hx
    · simp [isDigit] at hx
  | str c s _ => simp at hc
  | arrNil w _ => exact ⟨_, rfl⟩
  | arr w c vs _ _ => exact ⟨_, rfl⟩
  | objNil w _ => simp at hc
  | obj w c m _ _ => simp at hc

theorem Txt.head_of_arr {c : JStr} {xs : List JVal} (h : Txt c (.val (.arr xs))) :
    c.head? = some 91 := by
  cases h with
  | arrNil w _ => rfl
  | arr w c vs _ _ => rfl

theorem Txt.wrap {c : JStr} {v : JVal} (h : Txt c (.val v)) :
    Txt (wrapBrackets c) (.val (asArray v)) := by
  unfold wrapBrackets
  split
  · next hc =>
    obtain ⟨xs, rfl⟩ := h.arr_of_head hc
    exact h
  · next hc =>
    have hv : asArray v = .arr [v] := by
      cases v with
      | arr xs => exact absurd h.head_of_arr hc
      | _ => rfl
    rw [hv]
    have := Txt.arr [] _ [v] (by intro c hc; cases hc)
      (Txt.elemLast c [] v h (by intro c hc; cases hc))
    simpa using this

theorem JSONparse_of_txt_self {c : JStr} {v : JVal} (hc : Txt c (.val v)) :
    JSONparse c = some v := by
  have := @JSONparse_of_txt [] c [] v (by intro c hc; cases hc)
    (by intro c hc; cases hc) hc
  simpa using this

theorem trim_ne_nil_of_parse {raw : JStr} {v : JVal} (h : JSONparse raw = some v) :
    trim raw ≠ [] := by
  obtain ⟨w1, c, w2, rfl, hw1, hw2, hc⟩ := txt_of_JSONparse h
  rw [hc.trim hw1 hw2]
  obtain ⟨x, t, rfl, _⟩ := hc.txtHead
  simp

theorem JSONparse_cleanText {raw : JStr} {v : JVal} (h : JSONparse raw = some v)
    (hs : hasSmash (removeNewlines raw) = false) :
    JSONparse (cleanText raw) = some (asArray v) := by
  obtain ⟨w1, c, w2, rfl, hw1, hw2, hc⟩ := txt_of_JSONparse h
  have hc2 := hc.txtRemoveNewlines
  rw [removeNewlines_append, removeNewlines_append] at hs
  have hs2 := (hasSmash_append (hasSmash_append hs).2).1
  unfold cleanText
  rw [removeNewlines_append, removeNewlines_append,
    hc2.trim hw1.wsRemoveNewlines hw2.wsRemoveNewlines, fixSmashed_of_not_hasSmash hs2]
  exact JSONparse_of_txt_self hc2.wrap

theorem lookup_cons_self (k : JStr) (v : JVal) (o : Props) :
    List.lookup k ((k, v) :: o) = some v := by
  simp [List.lookup]

theorem lookup_cons_ne {k k0 : JStr} (h : k ≠ k0) (v : JVal) (o : Props) :
    List.lookup k ((k0, v) :: o) = List.lookup k o := by
  have : (k == k0) = false := by simpa using h
  simp [List.lookup, this]

theorem lookup_setProp (o : Props) (k k2 : JStr) (v : JVal) :
    (setProp o k2 v).lookup k = if k = k2 then some v else o.lookup k := by
  induction o with
  | nil =>
    simp only [setProp]
    by_cases h : k = k2
    · subst h; simp [lookup_cons_self]
    · simp [h, lookup_cons_ne h]
  | cons p o ih =>
    obtain ⟨k0, v0⟩ := p
    simp only [setProp]
    by_cases h0 : k0 = k2
    · subst h0
      by_cases h : k = k0
      · subst h; simp [lookup_cons_self]
      · simp [h, lookup_cons_ne h]
    · simp only [h0, if_false]
      by_cases h : k = k0
      · subst h; simp [h0, lookup_cons_self]
      · simp [h, ih, lookup_cons_ne h]

theorem keys_setProp (o : Props) (k : JStr) (v : JVal) :
    (setProp o k v).map Prod.fst =
      if k ∈ o.map Prod.fst then o.map Prod.fst else o.map Prod.fst ++ [k] := by
  induction o with
  | nil => simp [setProp]
  | cons p o ih =>
    obtain ⟨k0, v0⟩ := p
    simp only [setProp]
    by_cases h0 : k0 = k
    · subst h0; simp
    · have h1 : ¬ k = k0 := fun e => h0 e.symm
      simp only [h0, if_false, List.map_cons, ih, List.mem_cons, h1, false_or]
      split <;> simp

theorem nodup_setProp {o : Props} (h : (o.map Prod.fst).Nodup) (k : JStr) (v : JVal) :
    ((setProp o k v).map Prod.fst).Nodup := by
  rw [keys_setProp]
  split
  · exact h
  · next hk =>
    rw [List.nodup_append]
    exact ⟨h, List.nodup_singleton k, by simpa using hk⟩

theorem lookup_eq_none_iff_keys {o : Props} {k : JStr} :
    o.lookup k = none ↔ k ∉ o.map Prod.fst := by
  induction o with
  | nil => simp
  | cons p o ih =>
    obtain ⟨k0, v0⟩ := p
    by_cases h : k = k0
    · subst h; simp [lookup_cons_self]
    · simp [lookup_cons_ne h, h, ih]

theorem mem_keys_iff_lookup {o : Props} {k : JStr} :
    k ∈ o.map Prod.fst ↔ ∃ v, o.lookup k = some v := by
  rw [← not_iff_not, ← lookup_eq_none_iff_keys]
  cases o.lookup k <;> simp

theorem empty_props : Target.empty.props = [] := rfl

theorem assignProp_of_ne (t : Target) {k : JStr} (hk : k ≠ protoKey) (v : JVal) :
    assignProp t k v = { t with props := setProp t.props k v } := by
  unfold assignProp
  rw [if_neg (fun h => hk h.1)]

theorem foldl_assignProp_plain (kvs : Props) (hp : protoKey ∉ kvs.map Prod.fst) (t : Target) :
    kvs.foldl (fun t p => assignProp t p.1 p.2) t =
      { t with props := kvs.foldl (fun o p => setProp o p.1 p.2) t.props } := by
  induction kvs generalizing t with
  | nil => rfl
  | cons p kvs ih =>
    simp only [List.map_cons, List.mem_cons, not_or] at hp
    rw [List.foldl_cons, List.foldl_cons, assignProp_of_ne t (fun e => hp.1 e.symm), ih hp.2]

theorem lookup_foldl_setProp_nodup (kvs : Props) (hn : (kvs.map Prod.fst).Nodup) (acc : Props)
    (k : JStr) :
    (kvs.foldl (fun o p => setProp o p.1 p.2) acc).lookup k =
      match kvs.lookup k with
      | some v => some v
      | none => acc.lookup k := by
  induction kvs generalizing acc with
  | nil => simp
  | cons p kvs ih =>
    obtain ⟨k1, v1⟩ := p
    simp only [List.map_cons, List.nodup_cons] at hn
    rw [List.foldl_cons, ih hn.2]
    by_cases h1 : k = k1
    · subst h1
      have : kvs.lookup k = none := lookup_eq_none_iff_keys.mpr hn.1
      simp [this, lookup_cons_self, lookup_setProp]
    · rw [lookup_cons_ne h1, lookup_setProp, if_neg h1]

theorem objectAssign_plain {it : JVal} (hp : PlainObj it) (acc : Target) :
    objectAssign acc it =
      { acc with props := (ownProps it).foldl (fun o p => setProp o p.1 p.2) acc.props } := by
  obtain ⟨kvs, rfl, _, _, hpr⟩ := hp
  exact foldl_assignProp_plain kvs (lookup_eq_none_iff_keys.mp hpr) acc

theorem lookup_objectAssign {it : JVal} (hp : PlainObj it) (acc : Target) (k : JStr) :
    (objectAssign acc it).props.lookup k =
      match valueIn it k with
      | some v => some v
      | none => acc.props.lookup k := by
  rw [objectAssign_plain hp]
  obtain ⟨kvs, rfl, hn, _, _⟩ := hp
  exact lookup_foldl_setProp_nodup kvs hn acc.props k

theorem foldItems_plain (items : List JVal) (hp : ∀ it ∈ items, PlainObj it) (acc : Target) :
    foldItems items acc = .ok (items.foldl objectAssign acc) := by
  induction items generalizing acc with
  | nil => rfl
  | cons it rest ih =>
    obtain ⟨kvs, rfl, _, hst, _⟩ := hp it (by simp)
    simp only [foldItems, readStatus, hst, truthyOpt, List.foldl_cons]
    exact ih (fun x hx => hp x (List.mem_cons_of_mem _ hx)) _

theorem lookup_foldl_objectAssign (items : List JVal) (hp : ∀ it ∈ items, PlainObj it)
    (acc : Target) (k : JStr) (v : JVal) :
    (items.foldl objectAssign acc).props.lookup k = some v ↔
      (∃ pre it post, items = pre ++ it :: post ∧ valueIn it k = some v ∧
        ∀ j ∈ post, valueIn j k = none) ∨
      ((∀ j ∈ items, valueIn j k = none) ∧ acc.props.lookup k = some v) := by
  induction items generalizing acc with
  | nil => simp
  | cons it0 rest ih =>
    rw [List.foldl_cons, ih (fun x hx => hp x (List.mem_cons_of_mem _ hx)),
      lookup_objectAssign (hp it0 (by simp))]
    constructor
    · rintro (⟨pre, it, post, rfl, h1, h2⟩ | ⟨h1, h2⟩)
      · exact Or.inl ⟨it0 :: pre, it, post, rfl, h1, h2⟩
      · cases hv : valueIn it0 k with
        | none =>
          rw [hv] at h2
          right
          refine ⟨?_, h2⟩
          intro j hj
          rcases List.mem_cons.mp hj with rfl | hj
          · exact hv
          · exact h1 j hj
        | some v0 =>
          rw [hv] at h2
          simp only [Option.some.injEq] at h2
          subst h2
          exact Or.inl ⟨[], it0, rest, rfl, hv, h1⟩
    · rintro (⟨pre, it, post, he, h1, h2⟩ | ⟨h1, h2⟩)
      · cases pre with
        | nil =>
          simp only [List.nil_append, List.cons.injEq] at he
          obtain ⟨rfl, rfl⟩ := he
          right
          exact ⟨h2, by rw [h1]⟩
        | cons p pre =>
          simp only [List.cons_append, List.cons.injEq] at he
          obtain ⟨rfl, rfl⟩ := he
          exact Or.inl ⟨pre, it, post, rfl, h1, h2⟩
      · right
        refine ⟨fun j hj => h1 j (List.mem_cons_of_mem _ hj), ?_⟩
        rw [h1 it0 (by simp)]
        exact h2

theorem nodup_mkObject (m : Props) : ((mkObject m).map Prod.fst).Nodup := by
  unfold mkObject
  have : ∀ (acc : Props), (acc.map Prod.fst).Nodup →
      ((m.foldl (fun o p => setProp o p.1 p.2) acc).map Prod.fst).Nodup := by
    induction m with
    | nil => intro acc h; exact h
    | cons p m ih => intro acc h; exact ih _ (nodup_setProp h _ _)
  exact this [] (by simp)

theorem Txt.nodup_obj {c : JStr} {kvs : Props} (h : Txt c (.val (.obj kvs))) :
    (kvs.map Prod.fst).Nodup := by
  cases h with
  | objNil w _ => simp
  | obj w c m _ _ => exact nodup_mkObject m

theorem Txt.elems_sub {c : JStr} {res : Res} (h : Txt c res) :
    ∀ vs, res = .elems vs → ∀ v ∈ vs, ∃ c2, Txt c2 (.val v) := by
  induction h with
  | elemLast c w v hc _ _ =>
    intro vs e x hx
    cases e
    simp only [List.mem_singleton] at hx
    subst hx
    exact ⟨c, hc⟩
  | elemCons c w1 w2 c2 v vs hc _ _ _ _ ih2 =>
    intro vs2 e x hx
    cases e
    rcases List.mem_cons.mp hx with rfl | hx
    · exact ⟨c, hc⟩
    · exact ih2 vs rfl x hx
  | _ => intro vs e; cases e

theorem Txt.arr_sub {c : JStr} {xs : List JVal} (h : Txt c (.val (.arr xs))) :
    ∀ v ∈ xs, ∃ c2, Txt c2 (.val v) := by
  cases h with
  | arrNil w _ => simp
  | arr w c _ _ hc => exact hc.elems_sub _ rfl

theorem lookup_foldl_objectAssign_none (items : List JVal) (hp : ∀ it ∈ items, PlainObj it)
    (acc : Target) (k : JStr) :
    (items.foldl objectAssign acc).props.lookup k = none ↔
      (∀ j ∈ items, valueIn j k = none) ∧ acc.props.lookup k = none := by
  induction items generalizing acc with
  | nil => simp
  | cons it0 rest ih =>
    rw [List.foldl_cons, ih (fun x hx => hp x (List.mem_cons_of_mem _ hx)),
      lookup_objectAssign (hp it0 (by simp))]
    cases hv : valueIn it0 k with
    | none => simp [hv]
    | some v0 => simp [hv]

theorem plain_of_parse {items : List JVal} {c : JStr} (hc : Txt c (.val (.arr items)))
    (hs : ∀ it ∈ items, isSkillObject it = true)
    (hproto : ∀ it ∈ items, valueIn it protoKey = none) : ∀ it ∈ items, PlainObj it := by
  intro it hit
  obtain ⟨c2, hc2⟩ := hc.arr_sub it hit
  have h1 := hs it hit
  have h2 := hproto it hit
  cases it with
  | obj kvs =>
    refine ⟨kvs, rfl, hc2.nodup_obj, ?_, h2⟩
    simpa [isSkillObject] using h1
  | _ => simp [isSkillObject] at h1

theorem normalize_of_parse {raw : JStr} {items : List JVal}
    (hp : JSONparse (cleanText raw) = some (.arr items)) (ht : trim raw ≠ []) :
    normalize raw =
      match foldItems items Target.empty with
      | .error e => .error e
      | .ok t => if t.props.length = 0 then .error .noAnalysisData else .ok t.props := by
  unfold normalize
  rw [if_neg ht, hp]
  rfl

theorem mergesAll_of_plain {raw : JStr} {items : List JVal}
    (hp : JSONparse (cleanText raw) = some (.arr items)) (ht : trim raw ≠ [])
    (hpl : ∀ it ∈ items, PlainObj it) (hne : ∃ it ∈ items, keysOf it ≠ []) :
    MergesAll raw items := by
  have hkey : ∀ k, k ∈ (items.foldl objectAssign Target.empty).props.map Prod.fst ↔
      ∃ it ∈ items, k ∈ keysOf it := by
    intro k
    rw [← not_iff_not, ← lookup_eq_none_iff_keys, lookup_foldl_objectAssign_none items hpl]
    simp only [empty_props, List.lookup_nil, and_true, not_exists, not_and]
    constructor
    · intro h it hit
      have := h it hit
      unfold valueIn at this
      exact lookup_eq_none_iff_keys.mp this
    · intro h it hit
      exact lookup_eq_none_iff_keys.mpr (h it hit)
  refine ⟨(items.foldl objectAssign Target.empty).props, ?_, hkey, ?_⟩
  · rw [normalize_of_parse hp ht, foldItems_plain items hpl]
    simp only
    rw [if_neg]
    obtain ⟨it, hit, hk⟩ := hne
    obtain ⟨k, t, hkt⟩ := List.exists_cons_of_ne_nil hk
    have : k ∈ (items.foldl objectAssign Target.empty).props.map Prod.fst :=
      (hkey k).mpr ⟨it, hit, by rw [hkt]; simp⟩
    intro h0
    rw [List.length_eq_zero] at h0
    rw [h0] at this
    simp at this
  · intro k v
    rw [lookup_foldl_objectAssign items hpl]
    simp [empty_props]

theorem trim_ne_nil_of_mem {s : JStr} {x : Nat} (hx : x ∈ s) (hs : isJsSpace x = false) :
    trim s ≠ [] := by
  intro h
  unfold trim at h
  rw [List.rdropWhile_eq_nil_iff] at h
  have h2 : s.dropWhile isJsSpace = [] := by
    cases hd : s.dropWhile isJsSpace with
    | nil => rfl
    | cons y t =>
      have h3 := List.head_dropWhile_not isJsSpace s (by rw [hd]; simp)
      simp only [hd, List.head_cons] at h3
      have h4 := h y (by rw [hd]; simp)
      rw [h4] at h3
      simp at h3
  rw [List.dropWhile_eq_nil_iff] at h2
  have := h2 x hx
  rw [hs] at this
  cases this

theorem mem_of_mem_removeNewlines {s : JStr} {x : Nat} (h : x ∈ removeNewlines s) : x ∈ s :=
  (List.mem_filter.mp h).1

theorem cleanText_stream (raw : JStr) (ps : List (JStr × JVal)) (hne : ps ≠ [])
    (hraw : removeNewlines raw = (ps.map Prod.fst).flatten)
    (h : ∀ p ∈ ps, p.1.head? = some 123 ∧ p.1.getLast? = some 125 ∧
      Txt (fixSmashed p.1) (.val p.2)) :
    trim raw ≠ [] ∧ JSONparse (cleanText raw) = some (.arr (ps.map Prod.snd)) := by
  obtain ⟨p0, ps0, rfl⟩ := List.exists_cons_of_ne_nil hne
  obtain ⟨hh0, hl0, ht0⟩ := h p0 (by simp)
  obtain ⟨x0, t0, hp0⟩ : ∃ x t, p0.1 = x :: t := by
    cases hp : p0.1 with
    | nil => rw [hp] at hh0; simp at hh0
    | cons x t => exact ⟨x, t, rfl⟩
  have hx0 : x0 = 123 := by rw [hp0] at hh0; simpa using hh0
  subst hx0
  -- the joined text starts with an opening brace and ends with a closing brace
  have hhead : ∃ t, (List.map Prod.fst (p0 :: ps0)).flatten = 123 :: t := by
    simp only [List.map_cons, List.flatten_cons, hp0, List.cons_append]
    exact ⟨_, rfl⟩
  have hlast : ∃ t, (List.map Prod.fst (p0 :: ps0)).flatten = t ++ [125] := by
    have : ∀ (qs : List (JStr × JVal)), qs ≠ [] → (∀ q ∈ qs, q.1.getLast? = some 125) →
        ∃ t, (List.map Prod.fst qs).flatten = t ++ [125] := by
      intro qs
      induction qs with
      | nil => intro hq; exact absurd rfl hq
      | cons q qs ih =>
        intro _ hq
        cases qs with
        | nil =>
          obtain ⟨t, ht⟩ := List.getLast?_eq_some_iff.mp (hq q (by simp))
          exact ⟨t, by simp [ht]⟩
        | cons q2 qs =>
          obtain ⟨t, ht⟩ := ih (by simp) (fun a ha => hq a (List.mem_cons_of_mem _ ha))
          refine ⟨q.1 ++ t, ?_⟩
          rw [List.map_cons, List.flatten_cons, ht]
          simp
    exact this _ hne (fun q hq => (h q hq).2.1)
  obtain ⟨th, hth⟩ := hhead
  obtain ⟨tl, htl⟩ := hlast
  constructor
  · apply @trim_ne_nil_of_mem _ 123 _ (by decide)
    apply mem_of_mem_removeNewlines
    rw [hraw, hth]
    simp
  · unfold cleanText
    have htrim : trim (removeNewlines raw) = removeNewlines raw := by
      have := @trim_ws_append [] (removeNewlines raw) [] (by simp) (by simp) 123 th
        (by rw [hraw]; exact hth) (by decide) tl 125 (by rw [hraw]; exact htl) (by decide)
      simpa using this
    rw [htrim, hraw, fixSmashed_flatten _ (by
      intro t ht
      obtain ⟨p, hp, rfl⟩ := List.mem_map.mp ht
      exact ⟨(h p hp).1, (h p hp).2.1⟩)]
    have hcj : (commaJoin (List.map fixSmashed (List.map Prod.fst (p0 :: ps0)))).head? = some 123 := by
      rw [List.map_cons, List.map_cons, commaJoin_head, fixSmashed_head]
      · exact hh0
      · intro e
        have := fixSmashed_head p0.1
        rw [e, hh0] at this
        simp at this
    have hw : wrapBrackets (commaJoin (List.map fixSmashed (List.map Prod.fst (p0 :: ps0))))
        = 91 :: (commaJoin (List.map fixSmashed (List.map Prod.fst (p0 :: ps0))) ++ [93]) := by
      unfold wrapBrackets
      rw [if_neg]
      rw [hcj]
      simp
    rw [hw]
    have htx := txt_commaJoin ((p0 :: ps0).map fun p => (fixSmashed p.1, p.2)) (by simp) (by
      intro q hq
      obtain ⟨p, hp, rfl⟩ := List.mem_map.mp hq
      exact (h p hp).2.2)
    have e1 : List.map Prod.fst ((p0 :: ps0).map fun p => (fixSmashed p.1, p.2))
        = List.map fixSmashed (List.map Prod.fst (p0 :: ps0)) := by
      simp [List.map_map, Function.comp_def]
    have e2 : List.map Prod.snd ((p0 :: ps0).map fun p => (fixSmashed p.1, p.2))
        = List.map Prod.snd (p0 :: ps0) := by
      simp [List.map_map, Function.comp_def]
    rw [e1, e2] at htx
    have := Txt.arr [] _ _ (by intro c hc; cases hc) htx
    exact JSONparse_of_txt_self (by simpa using this)

theorem fixSmashed_no_brace_append {w : JStr} (hw : ∀ x ∈ w, x ≠ 125) (s : JStr) :
    fixSmashed (w ++ s) = w ++ fixSmashed s := by
  induction w with
  | nil => rfl
  | cons x w ih =>
    rw [List.cons_append, fixSmashed_cons, if_neg (fun h => hw x (by simp) h.1),
      ih (fun y hy => hw y (List.mem_cons_of_mem _ hy))]
    rfl

theorem fixSmashed_no_brace {w : JStr} (hw : ∀ x ∈ w, x ≠ 125) : fixSmashed w = w := by
  have := fixSmashed_no_brace_append hw []
  simpa [fixSmashed] using this

theorem allWs_no_brace {w : JStr} (hw : AllWs w) : ∀ x ∈ w, x ≠ 125 := by
  intro x hx e
  have := hw x hx
  rw [e] at this
  cases this

theorem hexVal_ne_brace {a x : Nat} (h : hexVal a = some x) : a ≠ 125 := by
  unfold hexVal at h
  split at h
  · omega
  · split at h
    · omega
    · split at h
      · omega
      · cases h

theorem hex4_ne_brace {a b c d u : Nat} (h : hex4 a b c d = some u) :
    a ≠ 125 ∧ b ≠ 125 ∧ c ≠ 125 ∧ d ≠ 125 := by
  unfold hex4 at h
  split at h
  · next x y z w h1 h2 h3 h4 =>
    exact ⟨hexVal_ne_brace h1, hexVal_ne_brace h2, hexVal_ne_brace h3, hexVal_ne_brace h4⟩
  · cases h

theorem escapeVal_ne_brace {e u : Nat} (h : escapeVal e = some u) : e ≠ 125 := by
  unfold escapeVal at h
  repeat' split at h
  all_goals first | omega | cases h

theorem strSim_cons (u : Nat) {s s2 : JStr} (h : StrSim s s2) : StrSim (u :: s) (u :: s2) := by
  rcases h with h | ⟨h1, h2⟩
  · exact Or.inl (by rw [h])
  · exact Or.inr ⟨List.mem_cons_of_mem _ h1, List.mem_cons_of_mem _ h2⟩

theorem strText_fixSmashed (c : JStr) : ∀ s, parseString c = some (s, []) →
    ∃ s2, parseString (fixSmashed c) = some (s2, []) ∧ StrSim s s2 := by
  induction c using parseString.induct with
  | case1 => intro s h; simp [parseString] at h
  | case2 r0 =>
    intro s h
    rw [parseString.eq_def] at h
    simp only [if_true, Option.some.injEq, Prod.mk.injEq] at h
    obtain ⟨rfl, rfl⟩ := h
    exact ⟨[], by rw [fixSmashed_no_brace (by simp)]; rw [parseString.eq_def]; simp, Or.inl rfl⟩
  | case3 => intro s h; simp [parseString] at h
  | case4 a b c d r2 hh _ =>
    intro s h
    rw [parseString.eq_def] at h
    simp [hh] at h
  | case5 a b c d r2 u hh _ ih =>
    intro s h
    rw [parseString.eq_def] at h
    simp [hh] at h
    obtain ⟨x1, h1, rfl⟩ := h
    obtain ⟨s2, hs2, hsim⟩ := ih x1 h1
    obtain ⟨ha, hb, hc, hd⟩ := hex4_ne_brace hh
    have e : fixSmashed (92 :: 117 :: a :: b :: c :: d :: r2)
        = 92 :: 117 :: a :: b :: c :: d :: fixSmashed r2 := by
      have := @fixSmashed_no_brace_append [92, 117, a, b, c, d] (by
        intro x hx
        simp only [List.mem_cons, List.mem_singleton, List.not_mem_nil, or_false] at hx
        rcases hx with rfl | rfl | rfl | rfl | rfl | rfl <;> first | assumption | decide) r2
      simpa using this
    refine ⟨u :: s2, ?_, strSim_cons u hsim⟩
    rw [e, parseString.eq_def]
    simp [hh, hs2]
  | case6 r1 hn _ =>
    intro s h
    rw [parseString.eq_def] at h
    simp at h
  | case7 e r1 he hv _ =>
    intro s h
    rw [parseString.eq_def] at h
    simp [he, hv] at h
  | case8 e r1 he u hv _ ih =>
    intro s h
    rw [parseString.eq_def] at h
    simp [he, hv] at h
    obtain ⟨x1, h1, rfl⟩ := h
    obtain ⟨s2, hs2, hsim⟩ := ih x1 h1
    have hee := escapeVal_ne_brace hv
    have e2 : fixSmashed (92 :: e :: r1) = 92 :: e :: fixSmashed r1 := by
      have := @fixSmashed_no_brace_append [92, e] (by
        intro x hx
        simp only [List.mem_cons, List.mem_singleton, List.not_mem_nil, or_false] at hx
        rcases hx with rfl | rfl <;> first | assumption | decide) r1
      simpa using this
    refine ⟨u :: s2, ?_, strSim_cons u hsim⟩
    rw [e2, parseString.eq_def]
    simp [he, hv, hs2]
  | case9 c r0 h1 h2 h3 =>
    intro s h
    rw [parseString.eq_def] at h
    simp [h1, h2, h3] at h
  | case10 c r0 h1 h2 h3 ih =>
    intro s h
    rw [parseString.eq_def] at h
    simp [h1, h2, h3] at h
    obtain ⟨x1, h4, rfl⟩ := h
    obtain ⟨s2, hs2, hsim⟩ := ih x1 h4
    rw [fixSmashed_cons]
    split
    · next hc =>
      obtain ⟨rfl, _⟩ := hc
      refine ⟨125 :: 44 :: s2, ?_, Or.inr ⟨by simp, by simp⟩⟩
      rw [parseString.eq_def]
      simp only [show ¬ (125 = 34) by decide, show ¬ (125 = 92) by decide,
        show ¬ (125 < 32) by decide, if_false]
      rw [parseString.eq_def]
      simp [hs2]
    · refine ⟨c :: s2, ?_, strSim_cons c hsim⟩
      rw [parseString.eq_def]
      simp [h1, h2, h3, hs2]

theorem lookup_foldl_setProp (m : Props) (acc : Props) (k : JStr) :
    (m.foldl (fun o p => setProp o p.1 p.2) acc).lookup k =
      match lastBinding k m with
      | some v => some v
      | none => acc.lookup k := by
  induction m generalizing acc with
  | nil => rfl
  | cons p m ih =>
    rw [List.foldl_cons, ih, lastBinding]
    cases lastBinding k m with
    | some v => rfl
    | none =>
      simp only [lookup_setProp]
      by_cases h : k = p.1
      · subst h; simp
      · have : ¬ p.1 = k := fun e => h e.symm
        simp [h, this]

theorem lookup_mkObject (m : Props) (k : JStr) : (mkObject m).lookup k = lastBinding k m := by
  unfold mkObject
  rw [lookup_foldl_setProp]
  cases lastBinding k m <;> rfl

theorem truthy_of_sim {a b : JVal} (h : Sim a b) : truthy a = truthy b := by
  cases a <;> cases b <;> simp only [Sim] at h <;> try rfl
  · subst h; rfl
  · subst h; rfl
  · rcases h with h | ⟨h1, h2⟩
    · subst h; rfl
    · next s s2 =>
      cases s with
      | nil => simp at h1
      | cons x s =>
        cases s2 with
        | nil => simp at h2
        | cons y s2 => rfl

theorem strSim_status {k k2 : JStr} (h : StrSim k k2) : k = statusKey ↔ k2 = statusKey := by
  rcases h with h | ⟨h1, h2⟩
  · subst h; rfl
  · constructor
    · intro e; subst e; exact absurd h1 (by decide)
    · intro e; subst e; exact absurd h2 (by decide)

theorem lastBinding_sim (m : Props) : ∀ (m2 : Props),
    List.Forall₂ (fun p q => StrSim p.1 q.1 ∧ Sim p.2 q.2) m m2 →
    truthyOpt (lastBinding statusKey m) = truthyOpt (lastBinding statusKey m2) ∧
      ((lastBinding statusKey m).isSome ↔ (lastBinding statusKey m2).isSome) := by
  induction m with
  | nil =>
    intro m2 h
    cases h
    exact ⟨rfl, Iff.rfl⟩
  | cons p m ih =>
    intro m2 h
    cases m2 with
    | nil => cases h
    | cons q m2 =>
      rw [List.forall₂_cons] at h
      obtain ⟨hpq, hrest⟩ := h
      obtain ⟨ih1, ih2⟩ := ih m2 hrest
      simp only [lastBinding]
      cases h1 : lastBinding statusKey m with
      | some v =>
        cases h2 : lastBinding statusKey m2 with
        | some v2 => rw [h1, h2] at ih1; exact ⟨ih1, by simp⟩
        | none => rw [h1, h2] at ih2; simp at ih2
      | none =>
        cases h2 : lastBinding statusKey m2 with
        | some v2 => rw [h1, h2] at ih2; simp at ih2
        | none =>
          have hk := strSim_status hpq.1
          by_cases hp : p.1 = statusKey
          · have hq := hk.mp hp
            simp only [hp, hq, if_true, truthyOpt]
            exact ⟨truthy_of_sim hpq.2, by simp⟩
          · have hq : ¬ q.1 = statusKey := fun e => hp (hk.mpr e)
            simp [hp, hq]

theorem sim_mkObject {m m2 : Props}
    (h : List.Forall₂ (fun p q => StrSim p.1 q.1 ∧ Sim p.2 q.2) m m2) :
    Sim (.obj (mkObject m)) (.obj (mkObject m2)) := by
  simp only [Sim, lookup_mkObject]
  exact (lastBinding_sim m m2 h).1

theorem txt_fixSmashed {c : JStr} {res : Res} (h : Txt c res) :
    ∃ res2, Txt (fixSmashed c) res2 ∧ SimRes res res2 := by
  induction h with
  | null => exact ⟨.val .null, by rw [fixSmashed_no_brace (by decide)]; exact Txt.null, trivial⟩
  | tru => exact ⟨.val (.bool true), by rw [fixSmashed_no_brace (by decide)]; exact Txt.tru, rfl⟩
  | fls => exact ⟨.val (.bool false), by rw [fixSmashed_no_brace (by decide)]; exact Txt.fls, rfl⟩
  | num c n hn =>
    refine ⟨.val (.num n), ?_, rfl⟩
    rw [fixSmashed_no_brace (fun x hx => (isNumChar_not_space (hn.1 x hx)).2.2.2)]
    exact Txt.num c n hn
  | str c s hs =>
    obtain ⟨s2, hs2, hsim⟩ := strText_fixSmashed c s hs
    refine ⟨.val (.str s2), ?_, hsim⟩
    rw [fixSmashed_cons, if_neg (by simp)]
    exact Txt.str _ s2 hs2
  | arrNil w hw =>
    refine ⟨.val (.arr []), ?_, trivial⟩
    rw [fixSmashed_no_brace]
    · exact Txt.arrNil w hw
    · intro x hx
      simp only [List.mem_cons, List.mem_append, List.mem_singleton, List.not_mem_nil,
        or_false] at hx
      rcases hx with rfl | hx | rfl
      · decide
      · exact allWs_no_brace hw x hx
      · decide
  | arr w c vs hw _ ih =>
    obtain ⟨res2, ht, hsim⟩ := ih
    cases res2 with
    | elems vs2 =>
      refine ⟨.val (.arr vs2), ?_, trivial⟩
      rw [fixSmashed_cons, if_neg (by simp), fixSmashed_no_brace_append (allWs_no_brace hw)]
      exact Txt.arr w _ vs2 hw ht
    | _ => simp [SimRes] at hsim
  | objNil w hw =>
    refine ⟨.val (.obj []), ?_, rfl⟩
    rw [fixSmashed_cons, if_neg (by simp), fixSmashed_no_brace_append (allWs_no_brace hw)]
    exact Txt.objNil w hw
  | obj w c m hw _ ih =>
    obtain ⟨res2, ht, hsim⟩ := ih
    cases res2 with
    | members m2 =>
      refine ⟨.val (.obj (mkObject m2)), ?_, sim_mkObject hsim⟩
      rw [fixSmashed_cons, if_neg (by simp), fixSmashed_no_brace_append (allWs_no_brace hw)]
      exact Txt.obj w _ m2 hw ht
    | _ => simp [SimRes] at hsim
  | elemLast c w v _ hw ih =>
    obtain ⟨res2, ht, hsim⟩ := ih
    cases res2 with
    | val v2 =>
      refine ⟨.elems [v2], ?_, List.Forall₂.cons hsim List.Forall₂.nil⟩
      have hX : (w ++ [93]).head? ≠ some 123 := by
        cases w with
        | nil => simp
        | cons x w =>
          intro e
          simp only [List.cons_append, List.head?_cons, Option.some.injEq] at e
          have := hw x (by simp)
          rw [e] at this
          cases this
      rw [fixSmashed_append_of_head hX, fixSmashed_no_brace_append (allWs_no_brace hw),
        @fixSmashed_no_brace [93] (by decide)]
      exact Txt.elemLast (fixSmashed c) w v2 ht hw
    | _ => simp [SimRes] at hsim
  | elemCons c w1 w2 c2 v vs _ hw1 hw2 _ ih ih2 =>
    obtain ⟨res2, ht, hsim⟩ := ih
    obtain ⟨res3, ht3, hsim3⟩ := ih2
    cases res2 with
    | val v2 =>
      cases res3 with
      | elems vs2 =>
        refine ⟨.elems (v2 :: vs2), ?_, List.Forall₂.cons hsim hsim3⟩
        have hX : (w1 ++ 44 :: (w2 ++ c2)).head? ≠ some 123 := by
          cases w1 with
          | nil => simp
          | cons x w =>
            intro e
            simp only [List.cons_append, List.head?_cons, Option.some.injEq] at e
            have := hw1 x (by simp)
            rw [e] at this
            cases this
        rw [fixSmashed_append_of_head hX, fixSmashed_no_brace_append (allWs_no_brace hw1),
          fixSmashed_cons, if_neg (by simp), fixSmashed_no_brace_append (allWs_no_brace hw2)]
        exact Txt.elemCons _ w1 w2 _ v2 vs2 ht hw1 hw2 ht3
      | _ => simp [SimRes] at hsim3
    | _ => simp [SimRes] at hsim
  | memLast k ks w1 w2 c w3 v hk hw1 hw2 _ hw3 ih =>
    obtain ⟨res2, ht, hsim⟩ := ih
    obtain ⟨ks2, hks2, hksim⟩ := strText_fixSmashed k ks hk
    cases res2 with
    | val v2 =>
      refine ⟨.members [(ks2, v2)], ?_, List.Forall₂.cons ⟨hksim, hsim⟩ List.Forall₂.nil⟩
      obtain ⟨_, hkc, _, _, hkl⟩ := parseString_sound k ks [] hk
      rw [List.append_nil] at hkc
      subst hkc
      have hX : (w3 ++ [125]).head? ≠ some 123 := by
        cases w3 with
        | nil => simp
        | cons x w =>
          intro e
          simp only [List.cons_append, List.head?_cons, Option.some.injEq] at e
          have := hw3 x (by simp)
          rw [e] at this
          cases this
      rw [fixSmashed_cons, if_neg (by simp),
        fixSmashed_append_of_last (by rw [hkl]; simp),
        fixSmashed_no_brace_append (allWs_no_brace hw1),
        fixSmashed_cons, if_neg (by simp), fixSmashed_no_brace_append (allWs_no_brace hw2),
        fixSmashed_append_of_head hX, fixSmashed_no_brace_append (allWs_no_brace hw3),
        fixSmashed_cons, if_neg (by simp)]
      exact Txt.memLast _ ks2 w1 w2 _ w3 v2 hks2 hw1 hw2 ht hw3
    | _ => simp [SimRes] at hsim
  | memCons k ks w1 w2 c w3 w4 c2 v m hk hw1 hw2 _ hw3 hw4 _ ih ih2 =>
    obtain ⟨res2, ht, hsim⟩ := ih
    obtain ⟨res3, ht3, hsim3⟩ := ih2
    obtain ⟨ks2, hks2, hksim⟩ := strText_fixSmashed k ks hk
    cases res2 with
    | val v2 =>
      cases res3 with
      | members m2 =>
        refine ⟨.members ((ks2, v2) :: m2), ?_, List.Forall₂.cons ⟨hksim, hsim⟩ hsim3⟩
        obtain ⟨_, hkc, _, _, hkl⟩ := parseString_sound k ks [] hk
        rw [List.append_nil] at hkc
        subst hkc
        have hX : (w3 ++ 44 :: (w4 ++ c2)).head? ≠ some 123 := by
          cases w3 with
          | nil => simp
          | cons x w =>
            intro e
            simp only [List.cons_append, List.head?_cons, Option.some.injEq] at e
            have := hw3 x (by simp)
            rw [e] at this
            cases this
        rw [fixSmashed_cons, if_neg (by simp),
          fixSmashed_append_of_last (by rw [hkl]; simp),
          fixSmashed_no_brace_append (allWs_no_brace hw1),
          fixSmashed_cons, if_neg (by simp), fixSmashed_no_brace_append (allWs_no_brace hw2),
          fixSmashed_append_of_head hX, fixSmashed_no_brace_append (allWs_no_brace hw3),
          fixSmashed_cons, if_neg (by simp), fixSmashed_no_brace_append (allWs_no_brace hw4)]
        exact Txt.memCons _ ks2 w1 w2 _ w3 w4 _ v2 m2 hks2 hw1 hw2 ht hw3 hw4 ht3
      | _ => simp [SimRes] at hsim3
    | _ => simp [SimRes] at hsim

theorem cleanText_stream_forall₂ (raw : JStr) (ts : List JStr) (vs : List JVal) (hne : ts ≠ [])
    (hraw : removeNewlines raw = ts.flatten)
    (h : List.Forall₂ (fun t v => t.head? = some 123 ∧ t.getLast? = some 125 ∧
      Txt (fixSmashed t) (.val v)) ts vs) :
    trim raw ≠ [] ∧ JSONparse (cleanText raw) = some (.arr vs) := by
  have hlen := h.length_eq
  have h1 : (ts.zip vs).map Prod.fst = ts := List.map_fst_zip _ _ (by omega)
  have h2 : (ts.zip vs).map Prod.snd = vs := List.map_snd_zip _ _ (by omega)
  have := cleanText_stream raw (ts.zip vs) (by
      intro e
      rw [e] at h1
      exact hne h1.symm) (by rw [h1]; exact hraw) (by
      intro p hp
      obtain ⟨t, v⟩ := p
      exact List.forall₂_iff_zip.mp h |>.2 hp)
  rwa [h2] at this

theorem removeNewlines_flatten (ts : List JStr) :
    removeNewlines ts.flatten = (ts.map removeNewlines).flatten := by
  induction ts with
  | nil => rfl
  | cons t ts ih => simp [removeNewlines_append, ih]

theorem removeNewlines_head {t : JStr} (h : t.head? = some 123) :
    (removeNewlines t).head? = some 123 := by
  cases t with
  | nil => simp at h
  | cons x t =>
    simp only [List.head?_cons, Option.some.injEq] at h
    subst h
    rw [removeNewlines_cons_ne (by decide)]
    rfl

theorem removeNewlines_getLast {t : JStr} (h : t.getLast? = some 125) :
    (removeNewlines t).getLast? = some 125 := by
  obtain ⟨u, rfl⟩ := List.getLast?_eq_some_iff.mp h
  rw [removeNewlines_append, removeNewlines_cons_ne (by decide)]
  simp [removeNewlines]

theorem txt_of_objectText {t : JStr} {v : JVal} (h : ObjectText t v) : Txt t (.val v) := by
  obtain ⟨hp, hh, hl⟩ := h
  obtain ⟨w1, c, w2, rfl, hw1, hw2, hc⟩ := txt_of_JSONparse hp
  have e1 : w1 = [] := by
    cases w1 with
    | nil => rfl
    | cons x w =>
      simp only [List.cons_append, List.head?_cons, Option.some.injEq] at hh
      have := hw1 x (by simp)
      rw [hh] at this
      cases this
  subst e1
  have e2 : w2 = [] := by
    rcases List.eq_nil_or_concat' w2 with e | ⟨u, y, e⟩
    · exact e
    · subst e
      have hy := hw2 y (by simp)
      rw [List.nil_append, ← List.append_assoc, List.getLast?_concat] at hl
      simp only [Option.some.injEq] at hl
      rw [hl] at hy
      cases hy
  subst e2
  simpa using hc

theorem foldItems_all_skipped (items : List JVal) (h : ∀ it ∈ items, isSkipped it = true)
    (acc : Target) : foldItems items acc = .ok acc := by
  induction items with
  | nil => rfl
  | cons it rest ih =>
    rw [foldItems_cons_skipped (h it (by simp))]
    exact ih (fun x hx => h x (List.mem_cons_of_mem _ hx))

theorem isSkipped_of_sim {a b : JVal} (h : Sim a b) : isSkipped b = isSkipped a := by
  cases a <;> cases b <;> simp only [Sim] at h <;>
    simp only [isSkipped, readStatus, truthyOpt]
  exact h.symm

/-- The values the repaired texts denote. -/
theorem repaired_stream (ps : List (JStr × JVal)) (h : ∀ p ∈ ps, ObjectText p.1 p.2) :
    ∃ vs, List.Forall₂ Sim (ps.map Prod.snd) vs ∧
      List.Forall₂ (fun t v => t.head? = some 123 ∧ t.getLast? = some 125 ∧
        Txt (fixSmashed t) (.val v)) (ps.map fun p => removeNewlines p.1) vs := by
  induction ps with
  | nil => exact ⟨[], List.Forall₂.nil, List.Forall₂.nil⟩
  | cons p ps ih =>
    obtain ⟨vs, h1, h2⟩ := ih (fun q hq => h q (List.mem_cons_of_mem _ hq))
    have hp := h p (by simp)
    obtain ⟨res2, ht, hsim⟩ := txt_fixSmashed (txt_of_objectText hp).txtRemoveNewlines
    cases res2 with
    | val v2 =>
      exact ⟨v2 :: vs, List.Forall₂.cons hsim h1,
        List.Forall₂.cons ⟨removeNewlines_head hp.2.1, removeNewlines_getLast hp.2.2, ht⟩ h2⟩
    | _ => simp [SimRes] at hsim

theorem normalize_stream (ps : List (JStr × JVal)) (hne : ps ≠ [])
    (h : ∀ p ∈ ps, ObjectText p.1 p.2) :
    ∃ vs, List.Forall₂ Sim (ps.map Prod.snd) vs ∧
      normalize (ps.map Prod.fst).flatten =
        match foldItems vs Target.empty with
        | .error e => .error e
        | .ok t => if t.props.length = 0 then .error .noAnalysisData else .ok t.props := by
  obtain ⟨vs, h1, h2⟩ := repaired_stream ps h
  refine ⟨vs, h1, ?_⟩
  have := cleanText_stream_forall₂ (ps.map Prod.fst).flatten (ps.map fun p => removeNewlines p.1)
    vs (by simpa using hne) (by
      rw [removeNewlines_flatten, List.map_map]
      rfl) h2
  exact normalize_of_parse this.2 this.1

theorem parseString_plain {s : JStr} (h : PlainString s) (r : JStr) :
    parseString (s ++ 34 :: r) = some (s, r) := by
  induction s with
  | nil => rw [List.nil_append, parseString.eq_def]; simp
  | cons x s ih =>
    obtain ⟨h1, h2, h3⟩ := h x (by simp)
    rw [List.cons_append, parseString.eq_def]
    simp only [h1, h2, if_false, show ¬ x < 32 by omega]
    rw [ih (fun c hc => h c (List.mem_cons_of_mem _ hc))]
    rfl

theorem strText_plain {s : JStr} (h : PlainString s) : StrText (s ++ [34]) s :=
  parseString_plain h []

theorem plainString_similarityKey : PlainString similarityKey := by
  unfold PlainString; decide

theorem plainString_scoreKey : PlainString scoreKey := by
  unfold PlainString; decide

theorem plainString_statusKey : PlainString statusKey := by
  unfold PlainString; decide

theorem txt_skillText {name lit : JStr} {n : JNum} (hname : PlainString name)
    (hlit : NumText lit n) : Txt (skillText name lit) (.val (.obj [(name, scoreRecord n)])) := by
  have noWs : AllWs [] := by intro c hc; cases hc
  have h1 : Txt _ (.members [(scoreKey, .num n)]) :=
    Txt.memLast _ scoreKey [] [] lit [] (.num n) (strText_plain plainString_scoreKey) noWs noWs
      (Txt.num lit n hlit) noWs
  have h2 := Txt.obj [] _ _ noWs h1
  have h3 : Txt _ (.members [(similarityKey, .obj (mkObject [(scoreKey, .num n)]))]) :=
    Txt.memLast _ similarityKey [] [] _ [] _ (strText_plain plainString_similarityKey) noWs noWs
      h2 noWs
  have h4 := Txt.obj [] _ _ noWs h3
  have h5 : Txt _ (.members [(name, .obj (mkObject [(similarityKey,
      .obj (mkObject [(scoreKey, .num n)]))]))]) :=
    Txt.memLast _ name [] [] _ [] _ (strText_plain hname) noWs noWs h4 noWs
  have h6 := Txt.obj [] _ _ noWs h5
  simpa [skillText, scoreRecord, mkObject, setProp] using h6

theorem txt_statusText {st : JStr} (hst : PlainString st) :
    Txt (statusText st) (.val (.obj [(statusKey, .str st)])) := by
  have noWs : AllWs [] := by intro c hc; cases hc
  have h1 : Txt _ (.members [(statusKey, .str st)]) :=
    Txt.memLast _ statusKey [] [] _ [] _ (strText_plain plainString_statusKey) noWs noWs
      (Txt.str _ st (strText_plain hst)) noWs
  have h2 := Txt.obj [] _ _ noWs h1
  simpa [statusText, mkObject, setProp] using h2

theorem setProp_of_not_mem {acc : Props} {k : JStr} (h : k ∉ acc.map Prod.fst) (v : JVal) :
    setProp acc k v = acc ++ [(k, v)] := by
  induction acc with
  | nil => rfl
  | cons p acc ih =>
    obtain ⟨k0, v0⟩ := p
    simp only [List.map_cons, List.mem_cons, not_or] at h
    simp only [setProp]
    rw [if_neg (fun e => h.1 e.symm), ih h.2]
    rfl

theorem foldl_setProp_append (kvs : Props) (acc : Props)
    (hn : ((acc ++ kvs).map Prod.fst).Nodup) :
    kvs.foldl (fun o p => setProp o p.1 p.2) acc = acc ++ kvs := by
  induction kvs generalizing acc with
  | nil => simp
  | cons p kvs ih =>
    obtain ⟨k, v⟩ := p
    have hk : k ∉ acc.map Prod.fst := by
      rw [List.map_append, List.nodup_append] at hn
      intro hmem
      exact hn.2.2 hmem (by simp)
    rw [List.foldl_cons, setProp_of_not_mem hk, ih]
    · simp
    · simpa using hn

theorem objectAssign_empty_obj {kvs : Props} (hn : (kvs.map Prod.fst).Nodup)
    (hp : kvs.lookup protoKey = none) :
    objectAssign Target.empty (.obj kvs) = { Target.empty with props := kvs } := by
  have h1 := foldl_assignProp_plain kvs (lookup_eq_none_iff_keys.mp hp) Target.empty
  have h2 := foldl_setProp_append kvs [] (by simpa using hn)
  simp only [List.nil_append] at h2
  simp only [objectAssign, ownProps, h1, empty_props, h2]

theorem digitsAux_append (f : Nat) : ∀ (n : Nat) (acc : JStr), n < f →
    digitsAux f n acc = digitsAux f n [] ++ acc := by
  induction f with
  | zero => intro n acc h; omega
  | succ f ih =>
    intro n acc h
    simp only [digitsAux]
    split
    · rfl
    · next h10 =>
      have hlt : n / 10 < f := by omega
      rw [ih (n / 10) _ hlt, ih (n / 10) [48 + n % 10] hlt]
      simp

theorem digitsAux_fuel (f : Nat) : ∀ (g n : Nat), n < f → n < g →
    digitsAux f n [] = digitsAux g n [] := by
  induction f with
  | zero => intro g n h; omega
  | succ f ih =>
    intro g n hf hg
    obtain ⟨g, rfl⟩ : ∃ k, g = k + 1 := ⟨g - 1, by omega⟩
    simp only [digitsAux]
    split
    · rfl
    · next h10 =>
      have h1 : n / 10 < f := by omega
      have h2 : n / 10 < g := by omega
      rw [digitsAux_append f _ _ h1, digitsAux_append g _ _ h2, ih g (n / 10) h1 h2]

theorem natDigits_lt {n : Nat} (h : n < 10) : natDigits n = [48 + n] := by
  simp [natDigits, digitsAux, h]

theorem natDigits_ge {n : Nat} (h : 10 ≤ n) :
    natDigits n = natDigits (n / 10) ++ [48 + n % 10] := by
  unfold natDigits
  rw [digitsAux, if_neg (by omega), digitsAux_append n _ _ (by omega),
    digitsAux_fuel n (n / 10 + 1) (n / 10) (by omega) (by omega)]

theorem natDigits_spec (n : Nat) :
    (∀ c ∈ natDigits n, isDigit c = true) ∧ digitsValue 0 (natDigits n) = n ∧
      ∃ x t, natDigits n = x :: t ∧ (0 < n → x ≠ 48) := by
  induction n using Nat.strong_induction_on with
  | _ n ih =>
    by_cases h : n < 10
    · rw [natDigits_lt h]
      refine ⟨?_, ?_, 48 + n, [], rfl, by omega⟩
      · intro c hc
        simp only [List.mem_singleton] at hc
        subst hc
        simp [isDigit]
        omega
      · simp [digitsValue]
    · rw [natDigits_ge (by omega)]
      obtain ⟨h1, h2, x, t, h3, h4⟩ := ih (n / 10) (by omega)
      refine ⟨?_, ?_, x, t ++ [48 + n % 10], by rw [h3]; rfl, fun _ => h4 (by omega)⟩
      · intro c hc
        rcases List.mem_append.mp hc with hc | hc
        · exact h1 c hc
        · simp only [List.mem_singleton] at hc
          subst hc
          simp [isDigit]
          omega
      · unfold digitsValue at h2 ⊢
        rw [List.foldl_append, h2]
        simp
        omega

theorem readDigits_append (ds : JStr) (hd : ∀ c ∈ ds, isDigit c = true) (r : JStr) (a k : Nat) :
    readDigits (ds ++ r) a k = readDigits r (digitsValue a ds) (k + ds.length) := by
  induction ds generalizing a k with
  | nil => rfl
  | cons c ds ih =>
    rw [List.cons_append, readDigits, if_pos (hd c (by simp)),
      ih (fun x hx => hd x (List.mem_cons_of_mem _ hx))]
    simp only [digitsValue, List.foldl_cons, List.length_cons]
    rw [Nat.add_assoc, Nat.add_comm 1]

theorem readDigits_natDigits (n : Nat) (r : JStr)
    (hr : ∀ x t, r = x :: t → isDigit x = false) (k : Nat) :
    readDigits (natDigits n ++ r) 0 k = (n, k + (natDigits n).length, r) := by
  obtain ⟨h1, h2, _⟩ := natDigits_spec n
  rw [readDigits_append _ h1, h2]
  cases r with
  | nil => rfl
  | cons x t => rw [readDigits, if_neg (by simp [hr x t rfl])]

theorem isNumChar_of_isDigit {c : Nat} (h : isDigit c = true) : isNumChar c = true := by
  simp [isNumChar, h]

theorem hexVal_hexDigit {n : Nat} (h : n < 16) : hexVal (hexDigit n) = some n := by
  have : n = 0 ∨ n = 1 ∨ n = 2 ∨ n = 3 ∨ n = 4 ∨ n = 5 ∨ n = 6 ∨ n = 7 ∨ n = 8 ∨ n = 9 ∨
      n = 10 ∨ n = 11 ∨ n = 12 ∨ n = 13 ∨ n = 14 ∨ n = 15 := by omega
  rcases this with h | h | h | h | h | h | h | h | h | h | h | h | h | h | h | h <;>
    subst h <;> decide

theorem parseString_unicodeEscape {c : Nat} (hc : c < 65536) (r : JStr) :
    parseString (unicodeEscape c ++ r) = (parseString r).map fun p => (c :: p.1, p.2) := by
  have h4 : hex4 (hexDigit (c / 4096 % 16)) (hexDigit (c / 256 % 16)) (hexDigit (c / 16 % 16))
      (hexDigit (c % 16)) = some c := by
    unfold hex4
    rw [hexVal_hexDigit (Nat.mod_lt _ (by decide)), hexVal_hexDigit (Nat.mod_lt _ (by decide)),
      hexVal_hexDigit (Nat.mod_lt _ (by decide)), hexVal_hexDigit (Nat.mod_lt _ (by decide))]
    simp only [Option.some.injEq]
    omega
  simp only [unicodeEscape, List.cons_append, List.nil_append]
  rw [parseString.eq_def]
  simp [h4]

theorem parseString_quoteUnit {c : Nat} (h1 : isLead c = false) (h2 : isTrail c = false)
    (r : JStr) :
    parseString (quoteUnit c ++ r) = (parseString r).map fun p => (c :: p.1, p.2) := by
  unfold quoteUnit
  split
  · next h => subst h; rw [List.cons_append, parseString.eq_def]; simp [escapeVal]
  split
  · next h => subst h; rw [List.cons_append, parseString.eq_def]; simp [escapeVal]
  split
  · next h => subst h; rw [List.cons_append, parseString.eq_def]; simp [escapeVal]
  split
  · next h => subst h; rw [List.cons_append, parseString.eq_def]; simp [escapeVal]
  split
  · next h => subst h; rw [List.cons_append, parseString.eq_def]; simp [escapeVal]
  split
  · next h => subst h; rw [List.cons_append, parseString.eq_def]; simp [escapeVal]
  split
  · next h => subst h; rw [List.cons_append, parseString.eq_def]; simp [escapeVal]
  split
  · next h => exact parseString_unicodeEscape (by omega) r
  · next h34 h92 h32 =>
    rw [List.singleton_append, parseString.eq_def]
    simp [h34, h92, h32]

theorem parseString_raw {c : Nat} (h : 0xD800 ≤ c) (r : JStr) :
    parseString (c :: r) = (parseString r).map fun p => (c :: p.1, p.2) := by
  rw [parseString.eq_def]
  simp [show ¬ c = 34 by omega, show ¬ c = 92 by omega, show ¬ c < 32 by omega]

theorem parseString_quoteOne (c : Nat) (r : JStr) :
    parseString (quoteOne c ++ r) = (parseString r).map fun p => (c :: p.1, p.2) := by
  unfold quoteOne
  split
  · next h =>
    apply parseString_unicodeEscape
    simp only [isLead, isTrail, Bool.or_eq_true, Bool.and_eq_true, decide_eq_true_eq] at h
    omega
  · next h =>
    simp only [Bool.or_eq_true, not_or, Bool.not_eq_true] at h
    exact parseString_quoteUnit h.1 h.2 r

theorem parseString_quoteBody (s : JStr) (r : JStr) :
    parseString (quoteBody s ++ 34 :: r) = some (s, r) := by
  induction s using quoteBody.induct with
  | case1 => rw [quoteBody, List.nil_append, parseString.eq_def]; simp
  | case2 c =>
    rw [quoteBody, parseString_quoteOne, parseString.eq_def]
    simp
  | case3 c d rest h ih =>
    rw [quoteBody, if_pos h]
    simp only [Bool.and_eq_true] at h
    rw [List.cons_append, List.cons_append,
      parseString_raw (by have := h.1; simp [isLead] at this; omega),
      parseString_raw (by have := h.2; simp [isTrail] at this; omega), ih]
    rfl
  | case4 c d rest h ih =>
    rw [quoteBody, if_neg h, List.append_assoc, parseString_quoteOne, ih]
    rfl

theorem strText_quoteBody (s : JStr) : StrText (quoteBody s ++ [34]) s :=
  parseString_quoteBody s []

theorem canonProps_setProp {o : Props} (ho : CanonProps o) (k : JStr) {v : JVal} (hv : Canon v) :
    CanonProps (setProp o k v) := by
  induction o with
  | nil => simp [setProp, CanonProps, hv]
  | cons p o ih =>
    obtain ⟨k0, v0⟩ := p
    simp only [CanonProps] at ho
    simp only [setProp]
    split
    · simp only [CanonProps]; exact ⟨hv, ho.2⟩
    · simp only [CanonProps]; exact ⟨ho.1, ih ho.2⟩

theorem canonProps_mkObject {m : Props} (hm : CanonProps m) : CanonProps (mkObject m) := by
  unfold mkObject
  have : ∀ acc : Props, CanonProps acc →
      CanonProps (m.foldl (fun o p => setProp o p.1 p.2) acc) := by
    induction m with
    | nil => intro acc h; exact h
    | cons p m ih =>
      intro acc h
      simp only [CanonProps] at hm
      exact ih hm.2 _ (canonProps_setProp h p.1 hm.1)
  exact this [] (by simp [CanonProps])

theorem txt_canon {c : JStr} {res : Res} (h : Txt c res) : CanonRes res := by
  induction h with
  | null => simp [CanonRes, Canon]
  | tru => simp [CanonRes, Canon]
  | fls => simp [CanonRes, Canon]
  | num c n _ => simp [CanonRes, Canon]
  | str c s _ => simp [CanonRes, Canon]
  | arrNil w _ => simp [CanonRes, Canon, CanonList]
  | arr w c vs _ _ ih => simpa [CanonRes, Canon] using ih
  | objNil w _ => simp [CanonRes, Canon, CanonProps]
  | obj w c m _ _ ih =>
    simp only [CanonRes, Canon] at ih ⊢
    exact ⟨nodup_mkObject m, canonProps_mkObject ih⟩
  | elemLast c w v _ _ ih => simpa [CanonRes, CanonList] using ih
  | elemCons c w1 w2 c2 v vs _ _ _ _ ih ih2 =>
    simp only [CanonRes, CanonList] at ih ih2 ⊢
    exact ⟨ih, ih2⟩
  | memLast k ks w1 w2 c w3 v _ _ _ _ _ ih => simpa [CanonRes, CanonProps] using ih
  | memCons k ks w1 w2 c w3 w4 c2 v m _ _ _ _ _ _ _ ih ih2 =>
    simp only [CanonRes, CanonProps] at ih ih2 ⊢
    exact ⟨ih, ih2⟩

theorem canonList_iff {vs : List JVal} : CanonList vs ↔ ∀ v ∈ vs, Canon v := by
  induction vs with
  | nil => simp [CanonList]
  | cons v vs ih => simp [CanonList, ih]

theorem canonProps_iff {m : Props} : CanonProps m ↔ ∀ p ∈ m, Canon p.2 := by
  induction m with
  | nil => simp [CanonProps]
  | cons p m ih => simp [CanonProps, ih]

theorem mkObject_of_nodup {m : Props} (hn : (m.map Prod.fst).Nodup) : mkObject m = m := by
  have := foldl_setProp_append m [] (by simpa using hn)
  simpa [mkObject] using this

theorem hexDigit_ne_nl (n : Nat) : hexDigit n ≠ 10 := by
  unfold hexDigit
  split <;> omega

theorem unicodeEscape_no_nl (c : Nat) : ∀ x ∈ unicodeEscape c, x ≠ 10 := by
  intro x hx
  simp only [unicodeEscape, List.mem_cons, List.mem_singleton, List.not_mem_nil,
    or_false] at hx
  rcases hx with rfl | rfl | rfl | rfl | rfl | rfl
  all_goals first | decide | exact hexDigit_ne_nl _

theorem quoteUnit_no_nl (c : Nat) : ∀ x ∈ quoteUnit c, x ≠ 10 := by
  unfold quoteUnit
  split
  · decide
  split
  · decide
  split
  · decide
  split
  · decide
  split
  · decide
  split
  · decide
  split
  · decide
  split
  · exact unicodeEscape_no_nl c
  · next h10 _ _ _ _ _ =>
    intro x hx
    simp only [List.mem_singleton] at hx
    subst hx
    exact h10

theorem quoteOne_no_nl (c : Nat) : ∀ x ∈ quoteOne c, x ≠ 10 := by
  unfold quoteOne
  split
  · exact unicodeEscape_no_nl c
  · exact quoteUnit_no_nl c

theorem quoteBody_no_nl (s : JStr) : ∀ x ∈ quoteBody s, x ≠ 10 := by
  induction s using quoteBody.induct with
  | case1 => intro x hx; simp [quoteBody] at hx
  | case2 c => rw [quoteBody]; exact quoteOne_no_nl c
  | case3 c d rest h ih =>
    rw [quoteBody, if_pos h]
    simp only [Bool.and_eq_true, isLead, isTrail, decide_eq_true_eq] at h
    intro x hx
    simp only [List.mem_cons] at hx
    rcases hx with rfl | rfl | hx
    · omega
    · omega
    · exact ih x hx
  | case4 c d rest h ih =>
    rw [quoteBody, if_neg h]
    intro x hx
    rcases List.mem_append.mp hx with hx | hx
    · exact quoteOne_no_nl c x hx
    · exact ih x hx

theorem head_of_JSONparse_bracket {s : JStr} {v : JVal} (h : JSONparse s = some v)
    (hs : s.head? = some 91) : ∃ items, v = .arr items := by
  obtain ⟨w1, c, w2, rfl, hw1, _, hc⟩ := txt_of_JSONparse h
  cases w1 with
  | nil =>
    obtain ⟨x, t, rfl, _⟩ := hc.txtHead
    exact hc.arr_of_head (by simpa using hs)
  | cons x w =>
    simp only [List.cons_append, List.head?_cons, Option.some.injEq] at hs
    have := hw1 x (by simp)
    rw [hs] at this
    cases this

theorem wrapBrackets_head (s : JStr) : (wrapBrackets s).head? = some 91 := by
  unfold wrapBrackets
  split
  · assumption
  · rfl

theorem JSONparse_cleanText_arr {raw : JStr} {v : JVal} (h : JSONparse (cleanText raw) = some v) :
    ∃ items, v = .arr items :=
  head_of_JSONparse_bracket h (wrapBrackets_head _)

theorem forall₂_sim_skipped {as bs : List JVal} (h : List.Forall₂ Sim as bs)
    (ha : ∀ a ∈ as, isSkipped a = true) : ∀ b ∈ bs, isSkipped b = true := by
  induction h with
  | nil => intro b hb; cases hb
  | cons hab _ ih =>
    intro b hb
    rcases List.mem_cons.mp hb with rfl | hb
    · rw [isSkipped_of_sim hab]
      exact ha _ (by simp)
    · exact ih (fun a h2 => ha a (List.mem_cons_of_mem _ h2)) b hb

theorem removeNewlines_replicate (k : Nat) : removeNewlines (List.replicate k 10) = [] := by
  induction k with
  | zero => rfl
  | succ k ih => simp [List.replicate_succ, removeNewlines] at ih ⊢

theorem skillText_split (name lit : JStr) :
    skillText name lit = ([123, 34] ++ (name ++ ([34, 58, 123, 34] ++ (similarityKey ++
      ([34, 58, 123, 34] ++ (scoreKey ++ ([34, 58] ++ lit))))))) ++ [125, 125, 125] := by
  simp [skillText]

theorem skillText_body_chars {name lit : JStr} {n : JNum}
    (hname : ∀ c ∈ name, c ≠ 125 ∧ 32 ≤ c) (hlit : NumText lit n) :
    ∀ x ∈ [123, 34] ++ (name ++ ([34, 58, 123, 34] ++ (similarityKey ++
      ([34, 58, 123, 34] ++ (scoreKey ++ ([34, 58] ++ lit)))))), x ≠ 125 ∧ x ≠ 10 := by
  intro x hx
  have hk1 : ∀ y ∈ similarityKey, y ≠ 125 ∧ y ≠ 10 := by decide
  have hk2 : ∀ y ∈ scoreKey, y ≠ 125 ∧ y ≠ 10 := by decide
  simp only [List.mem_append, List.mem_cons, List.mem_singleton, List.not_mem_nil,
    or_false] at hx
  rcases hx with (rfl | rfl) | hx | (rfl | rfl | rfl | rfl) | hx | (rfl | rfl | rfl | rfl) |
    hx | (rfl | rfl) | hx
  all_goals first
    | decide
    | exact hk1 x hx
    | exact hk2 x hx
    | exact ⟨(isNumChar_not_space (hlit.1 x hx)).2.2.2, (isNumChar_not_space (hlit.1 x hx)).2.1⟩
    | exact ⟨(hname x hx).1, by have := (hname x hx).2; omega⟩

theorem fixSmashed_skillText {name lit : JStr} {n : JNum}
    (hname : ∀ c ∈ name, c ≠ 125 ∧ 32 ≤ c) (hlit : NumText lit n) :
    fixSmashed (skillText name lit) = skillText name lit := by
  rw [skillText_split,
    fixSmashed_no_brace_append (fun x hx => (skillText_body_chars hname hlit x hx).1)]
  rfl

theorem removeNewlines_skillText {name lit : JStr} {n : JNum}
    (hname : ∀ c ∈ name, c ≠ 125 ∧ 32 ≤ c) (hlit : NumText lit n) :
    removeNewlines (skillText name lit) = skillText name lit := by
  apply removeNewlines_eq_self
  intro x hx
  rw [skillText_split, List.mem_append] at hx
  rcases hx with hx | hx
  · exact (skillText_body_chars hname hlit x hx).2
  · simp only [List.mem_cons, List.mem_singleton, List.not_mem_nil, or_false] at hx
    rcases hx with rfl | rfl | rfl <;> decide

theorem removeNewlines_statusText {st : JStr} (hst : PlainString st) :
    removeNewlines (statusText st) = statusText st := by
  apply removeNewlines_eq_self
  intro x hx
  have hk : ∀ y ∈ statusKey, y ≠ 10 := by decide
  simp only [statusText, List.mem_append, List.mem_cons, List.mem_singleton, List.not_mem_nil,
    or_false] at hx
  rcases hx with (rfl | rfl) | hx | (rfl | rfl | rfl) | hx | (rfl | rfl)
  all_goals first
    | decide
    | exact hk x hx
    | exact fun e => by have h3 := (hst x hx).2.2; omega

theorem cleanText_stream_plain (ps : List (JStr × JVal)) (hne : ps ≠ [])
    (h : ∀ p ∈ ps, ObjectText p.1 p.2 ∧ hasSmash (removeNewlines p.1) = false) :
    JSONparse (cleanText (ps.map Prod.fst).flatten) = some (.arr (ps.map Prod.snd)) := by
  have := cleanText_stream (ps.map Prod.fst).flatten
    (ps.map fun p => (removeNewlines p.1, p.2)) (by simpa using hne)
    (by rw [removeNewlines_flatten, List.map_map, List.map_map]; rfl)
    (by
      intro q hq
      obtain ⟨p, hp, rfl⟩ := List.mem_map.mp hq
      obtain ⟨ho, hs⟩ := h p hp
      refine ⟨removeNewlines_head ho.2.1, removeNewlines_getLast ho.2.2, ?_⟩
      simp only
      rw [fixSmashed_of_not_hasSmash hs]
      exact (txt_of_objectText ho).txtRemoveNewlines)
  rw [List.map_map] at this
  exact this.2

theorem goodMap_assignProp {acc : Target} (h : GoodMap acc.props) (k : JStr) {v : JVal}
    (hv : Canon v) (hs : k = statusKey → truthy v = false) :
    GoodMap (assignProp acc k v).props := by
  unfold assignProp
  split
  · exact h
  · obtain ⟨h1, h2, h4⟩ := h
    refine ⟨nodup_setProp h1 k v, canonProps_setProp h2 k hv, ?_⟩
    simp only [lookup_setProp]
    split
    · next e => exact hs e.symm
    · exact h4

theorem goodMap_foldl (ps : Props)
    (hps : ∀ p ∈ ps, Canon p.2 ∧ (p.1 = statusKey → truthy p.2 = false))
    (acc : Target) (h : GoodMap acc.props) :
    GoodMap (ps.foldl (fun t p => assignProp t p.1 p.2) acc).props := by
  induction ps generalizing acc with
  | nil => exact h
  | cons p ps ih =>
    rw [List.foldl_cons]
    exact ih (fun q hq => hps q (List.mem_cons_of_mem _ hq)) _
      (goodMap_assignProp h p.1 (hps p (by simp)).1 (hps p (by simp)).2)

theorem lookup_of_mem_nodup {kvs : Props} (hn : (kvs.map Prod.fst).Nodup) {k : JStr} {v : JVal}
    (hm : (k, v) ∈ kvs) : kvs.lookup k = some v := by
  induction kvs with
  | nil => cases hm
  | cons p kvs ih =>
    obtain ⟨k0, v0⟩ := p
    simp only [List.map_cons, List.nodup_cons] at hn
    rcases List.mem_cons.mp hm with e | hm2
    · injection e with e1 e2
      subst e1 e2
      exact lookup_cons_self _ _ _
    · have hne : k ≠ k0 := by
        intro e
        subst e
        exact hn.1 (List.mem_map.mpr ⟨(k, v), hm2, rfl⟩)
      rw [lookup_cons_ne hne]
      exact ih hn.2 hm2

theorem indexKey_ne_statusKey (i : Nat) : indexKey i ≠ statusKey := by
  obtain ⟨hd, _, x, t, hx, _⟩ := natDigits_spec i
  intro e
  unfold indexKey at e
  rw [hx] at e
  have hxd : isDigit x = true := hd x (by rw [hx]; simp)
  injection e with e1 _
  subst e1
  simp [isDigit] at hxd

theorem mem_enumFrom_snd {α : Type} (xs : List α) (n : Nat) :
    ∀ p ∈ List.enumFrom n xs, p.2 ∈ xs := by
  induction xs generalizing n with
  | nil => intro p hp; cases hp
  | cons x xs ih =>
    intro p hp
    rw [List.enumFrom_cons] at hp
    rcases List.mem_cons.mp hp with rfl | hp
    · simp
    · exact List.mem_cons_of_mem _ (ih (n + 1) p hp)

theorem ownProps_good {item : JVal} (hc : Canon item) (hs : isSkipped item = false) :
    ∀ p ∈ ownProps item, Canon p.2 ∧ (p.1 = statusKey → truthy p.2 = false) := by
  intro p hp
  cases item with
  | obj kvs =>
    simp only [ownProps] at hp
    simp only [Canon] at hc
    refine ⟨canonProps_iff.mp hc.2 p hp, ?_⟩
    intro e
    have hl := lookup_of_mem_nodup hc.1 (show (p.1, p.2) ∈ kvs from hp)
    rw [e] at hl
    simpa [isSkipped, readStatus, hl, truthyOpt] using hs
  | arr xs =>
    simp only [ownProps, List.mem_map] at hp
    obtain ⟨q, hq, rfl⟩ := hp
    simp only [Canon] at hc
    exact ⟨canonList_iff.mp hc q.2 (mem_enumFrom_snd xs 0 q hq),
      fun e => absurd e (indexKey_ne_statusKey _)⟩
  | str s =>
    simp only [ownProps, List.mem_map] at hp
    obtain ⟨q, hq, rfl⟩ := hp
    exact ⟨by simp [Canon], fun e => absurd e (indexKey_ne_statusKey _)⟩
  | null => simp [ownProps] at hp
  | bool b => simp [ownProps] at hp
  | num n => simp [ownProps] at hp

theorem goodMap_foldItems (items : List JVal) (hc : ∀ it ∈ items, Canon it) (acc M : Target)
    (hacc : GoodMap acc.props) (h : foldItems items acc = .ok M) : GoodMap M.props := by
  induction items generalizing acc with
  | nil =>
    simp only [foldItems] at h
    injection h with h
    subst h
    exact hacc
  | cons it rest ih =>
    have hrest : ∀ x ∈ rest, Canon x := fun x hx => hc x (List.mem_cons_of_mem _ hx)
    cases hk : isSkipped it with
    | true =>
      rw [foldItems_cons_skipped hk] at h
      exact ih hrest acc hacc h
    | false =>
      rw [foldItems] at h
      cases hr : readStatus it with
      | error e => rw [hr] at h; cases h
      | ok st =>
        rw [hr] at h
        have hst : truthyOpt st = false := by simpa [isSkipped, hr] using hk
        simp only [hst] at h
        exact ih hrest _ (goodMap_foldl _ (ownProps_good (hc it (by simp)) hk) acc hacc)
          (by simpa using h)

theorem goodMap_nil : GoodMap Target.empty.props := by
  refine ⟨by simp [empty_props], by simp [empty_props, CanonProps], rfl⟩

theorem goodMap_of_normalize {raw : JStr} {M : Props} (h : normalize raw = .ok M) :
    GoodMap M ∧ M ≠ [] := by
  unfold normalize at h
  split at h
  · cases h
  · cases hp : JSONparse (cleanText raw) with
    | none => rw [hp] at h; cases h
    | some v =>
      rw [hp] at h
      obtain ⟨items, rfl⟩ := JSONparse_cleanText_arr hp
      obtain ⟨_, c, _, _, _, _, hc⟩ := txt_of_JSONparse hp
      have hcan := txt_canon hc
      simp only [CanonRes, Canon] at hcan
      simp only [collect] at h
      cases hf : foldItems items Target.empty with
      | error e => rw [hf] at h; cases h
      | ok M2 =>
        rw [hf] at h
        simp only at h
        split at h
        · cases h
        · next hl =>
          injection h with h
          subst h
          refine ⟨goodMap_foldItems items (canonList_iff.mp hcan) Target.empty _ goodMap_nil hf,
            ?_⟩
          intro e
          rw [e] at hl
          exact hl rfl

theorem lookup_assignProp_ne {k k2 : JStr} (h : k ≠ k2) (t : Target) (v : JVal) :
    (assignProp t k2 v).props.lookup k = t.props.lookup k := by
  unfold assignProp
  split
  · rfl
  · simp only
    rw [lookup_setProp, if_neg h]

theorem lookup_assignProp_self {k : JStr} (hk : k ≠ protoKey) (t : Target) (v : JVal) :
    (assignProp t k v).props.lookup k = some v := by
  rw [assignProp_of_ne t hk]
  simp only
  rw [lookup_setProp, if_pos rfl]

theorem lookup_foldl_assignProp_none (kvs : Props) (k : JStr) (h : kvs.lookup k = none)
    (t : Target) :
    (kvs.foldl (fun t p => assignProp t p.1 p.2) t).props.lookup k = t.props.lookup k := by
  induction kvs generalizing t with
  | nil => rfl
  | cons p kvs ih =>
    obtain ⟨k1, v1⟩ := p
    have hk : k ≠ k1 := by
      intro e
      subst e
      rw [lookup_cons_self] at h
      cases h
    rw [lookup_cons_ne hk] at h
    rw [List.foldl_cons, ih h, lookup_assignProp_ne hk]

theorem lookup_foldl_assignProp (kvs : Props) (hn : (kvs.map Prod.fst).Nodup) (k : JStr)
    (hk : k ≠ protoKey) (t : Target) :
    (kvs.foldl (fun t p => assignProp t p.1 p.2) t).props.lookup k =
      match kvs.lookup k with
      | some v => some v
      | none => t.props.lookup k := by
  induction kvs generalizing t with
  | nil => rfl
  | cons p kvs ih =>
    obtain ⟨k1, v1⟩ := p
    simp only [List.map_cons, List.nodup_cons] at hn
    rw [List.foldl_cons, ih hn.2]
    by_cases h1 : k = k1
    · subst h1
      have : kvs.lookup k = none := lookup_eq_none_iff_keys.mpr hn.1
      simp [this, lookup_cons_self, lookup_assignProp_self hk]
    · rw [lookup_cons_ne h1, lookup_assignProp_ne h1]

theorem isJsObject_elim {it : JVal} (h : isJsObject it = true) :
    ∃ kvs, it = .obj kvs ∧ (kvs.map Prod.fst).Nodup := by
  cases it with
  | obj kvs => exact ⟨kvs, rfl, by simpa [isJsObject] using h⟩
  | _ => simp [isJsObject] at h

theorem lookup_objectAssign_obj {it : JVal} (ho : isJsObject it = true) (acc : Target)
    {k : JStr} (hk : k ≠ protoKey) :
    (objectAssign acc it).props.lookup k =
      match valueIn it k with
      | some v => some v
      | none => acc.props.lookup k := by
  obtain ⟨kvs, rfl, hn⟩ := isJsObject_elim ho
  exact lookup_foldl_assignProp kvs hn k hk acc

theorem lookup_objectAssign_none (it : JVal) (acc : Target) {k : JStr}
    (h : valueIn it k = none) : (objectAssign acc it).props.lookup k = acc.props.lookup k :=
  lookup_foldl_assignProp_none (ownProps it) k h acc

theorem foldItems_cons_merged {it : JVal} (ho : isJsObject it = true)
    (h : isSkipped it = false) (rest : List JVal) (acc : Target) :
    foldItems (it :: rest) acc = foldItems rest (objectAssign acc it) := by
  obtain ⟨kvs, rfl, _⟩ := isJsObject_elim ho
  simp only [isSkipped, readStatus] at h
  simp only [foldItems, readStatus, h]
  rfl

theorem foldItems_objects (items : List JVal) (ho : ∀ it ∈ items, isJsObject it = true)
    (acc : Target) : ∃ T, foldItems items acc = .ok T := by
  cases h : foldItems items acc with
  | ok T => exact ⟨T, rfl⟩
  | error e =>
    have := (foldItems_error_iff items acc).mp ⟨e, h⟩
    have := ho _ this
    simp [isJsObject] at this

theorem lookup_foldItems (items : List JVal) (ho : ∀ it ∈ items, isJsObject it = true)
    {k : JStr} (hk : k ≠ protoKey) (v : JVal) : ∀ (acc T : Target),
    foldItems items acc = .ok T →
    (T.props.lookup k = some v ↔
      (∃ pre it post, items = pre ++ it :: post ∧ isSkipped it = false ∧
        valueIn it k = some v ∧ ∀ j ∈ post, isSkipped j = false → valueIn j k = none) ∨
      ((∀ j ∈ items, isSkipped j = false → valueIn j k = none) ∧
        acc.props.lookup k = some v)) := by
  induction items with
  | nil =>
    intro acc T h
    simp only [foldItems, Except.ok.injEq] at h
    subst h
    simp
  | cons it0 rest ih =>
    intro acc T h
    have ho2 : ∀ it ∈ rest, isJsObject it = true := fun x hx => ho x (List.mem_cons_of_mem _ hx)
    cases hsk : isSkipped it0 with
    | true =>
      rw [foldItems_cons_skipped hsk] at h
      rw [ih ho2 acc T h]
      constructor
      · rintro (⟨pre, it, post, rfl, h1, h2, h3⟩ | ⟨h1, h2⟩)
        · exact Or.inl ⟨it0 :: pre, it, post, rfl, h1, h2, h3⟩
        · right
          refine ⟨?_, h2⟩
          intro j hj hjs
          rcases List.mem_cons.mp hj with rfl | hj
          · rw [hsk] at hjs; cases hjs
          · exact h1 j hj hjs
      · rintro (⟨pre, it, post, he, h1, h2, h3⟩ | ⟨h1, h2⟩)
        · cases pre with
          | nil =>
            simp only [List.nil_append, List.cons.injEq] at he
            obtain ⟨rfl, rfl⟩ := he
            rw [hsk] at h1; cases h1
          | cons p pre =>
            simp only [List.cons_append, List.cons.injEq] at he
            obtain ⟨rfl, rfl⟩ := he
            exact Or.inl ⟨pre, it, post, rfl, h1, h2, h3⟩
        · exact Or.inr ⟨fun j hj => h1 j (List.mem_cons_of_mem _ hj), h2⟩
    | false =>
      rw [foldItems_cons_merged (ho it0 (by simp)) hsk] at h
      rw [ih ho2 _ T h, lookup_objectAssign_obj (ho it0 (by simp)) acc hk]
      constructor
      · rintro (⟨pre, it, post, rfl, h1, h2, h3⟩ | ⟨h1, h2⟩)
        · exact Or.inl ⟨it0 :: pre, it, post, rfl, h1, h2, h3⟩
        · cases hv : valueIn it0 k with
          | none =>
            rw [hv] at h2
            right
            refine ⟨?_, h2⟩
            intro j hj hjs
            rcases List.mem_cons.mp hj with rfl | hj
            · exact hv
            · exact h1 j hj hjs
          | some v0 =>
            rw [hv] at h2
            simp only [Option.some.injEq] at h2
            subst h2
            exact Or.inl ⟨[], it0, rest, rfl, hsk, hv, h1⟩
      · rintro (⟨pre, it, post, he, h1, h2, h3⟩ | ⟨h1, h2⟩)
        · cases pre with
          | nil =>
            simp only [List.nil_append, List.cons.injEq] at he
            obtain ⟨rfl, rfl⟩ := he
            right
            exact ⟨h3, by rw [h2]⟩
          | cons p pre =>
            simp only [List.cons_append, List.cons.injEq] at he
            obtain ⟨rfl, rfl⟩ := he
            exact Or.inl ⟨pre, it, post, rfl, h1, h2, h3⟩
        · right
          refine ⟨fun j hj => h1 j (List.mem_cons_of_mem _ hj), ?_⟩
          rw [h1 it0 (by simp) hsk]
          exact h2

theorem lookup_foldItems_none (items : List JVal) (ho : ∀ it ∈ items, isJsObject it = true)
    {k : JStr} (hk : k ≠ protoKey) : ∀ (acc T : Target),
    foldItems items acc = .ok T →
    (T.props.lookup k = none ↔
      (∀ j ∈ items, isSkipped j = false → valueIn j k = none) ∧ acc.props.lookup k = none) := by
  induction items with
  | nil =>
    intro acc T h
    simp only [foldItems, Except.ok.injEq] at h
    subst h
    simp
  | cons it0 rest ih =>
    intro acc T h
    have ho2 : ∀ it ∈ rest, isJsObject it = true := fun x hx => ho x (List.mem_cons_of_mem _ hx)
    cases hsk : isSkipped it0 with
    | true =>
      rw [foldItems_cons_skipped hsk] at h
      rw [ih ho2 acc T h]
      simp [hsk]
    | false =>
      rw [foldItems_cons_merged (ho it0 (by simp)) hsk] at h
      rw [ih ho2 _ T h, lookup_objectAssign_obj (ho it0 (by simp)) acc hk]
      cases hv : valueIn it0 k with
      | none => simp [hv, hsk]
      | some v0 => simp [hv, hsk]

theorem lookup_foldItems_absent (items : List JVal) (ho : ∀ it ∈ items, isJsObject it = true)
    (k : JStr) : ∀ (acc T : Target), foldItems items acc = .ok T →
    (∀ j ∈ items, isSkipped j = false → valueIn j k = none) →
    T.props.lookup k = acc.props.lookup k := by
  induction items with
  | nil =>
    intro acc T h _
    simp only [foldItems, Except.ok.injEq] at h
    subst h
    rfl
  | cons it0 rest ih =>
    intro acc T h hall
    have ho2 : ∀ it ∈ rest, isJsObject it = true := fun x hx => ho x (List.mem_cons_of_mem _ hx)
    have hall2 : ∀ j ∈ rest, isSkipped j = false → valueIn j k = none :=
      fun j hj => hall j (List.mem_cons_of_mem _ hj)
    cases hsk : isSkipped it0 with
    | true =>
      rw [foldItems_cons_skipped hsk] at h
      exact ih ho2 acc T h hall2
    | false =>
      rw [foldItems_cons_merged (ho it0 (by simp)) hsk] at h
      rw [ih ho2 _ T h hall2, lookup_objectAssign_none it0 acc (hall it0 (by simp) hsk)]

theorem fixSmashed_eq_replaceSmashed (s : JStr) : fixSmashed s = replaceSmashed s := by
  induction s using replaceSmashed.induct with
  | case1 => rfl
  | case2 c => simp [fixSmashed, replaceSmashed]
  | case3 c d rest h ih =>
    obtain ⟨rfl, rfl⟩ := h
    rw [replaceSmashed, if_pos ⟨rfl, rfl⟩, fixSmashed_cons, if_pos ⟨rfl, rfl⟩, fixSmashed_cons,
      if_neg (fun e => absurd e.1 (by decide)), ih]
  | case4 c d rest h ih =>
    rw [replaceSmashed, if_neg h, fixSmashed_cons, if_neg (by simpa using h), ih]

theorem insertCommas_cons (c : Nat) (rest : JStr) :
    insertCommas (c :: rest) =
      (if c = 125 ∧ rest.head? = some 123 then [125, 44] else [c]) ++ insertCommas rest := by
  cases rest with
  | nil => simp [insertCommas]
  | cons d r => simp [insertCommas]

theorem fixSmashed_eq_insertCommas (s : JStr) : fixSmashed s = insertCommas s := by
  induction s with
  | nil => rfl
  | cons c rest ih =>
    rw [fixSmashed_cons, insertCommas_cons, ← ih]
    split <;> rfl

theorem hasSmash_iff_infix (s : JStr) : hasSmash s = true ↔ [125, 123] <:+: s := by
  induction s with
  | nil => simp [hasSmash]
  | cons c rest ih =>
    rw [List.infix_cons_iff, ← ih]
    simp only [hasSmash, Bool.or_eq_true, Bool.and_eq_true, beq_iff_eq]
    apply or_congr_left
    cases rest with
    | nil => simp [List.prefix_cons_iff]
    | cons d r =>
      simp only [List.head?_cons, Option.some.injEq]
      constructor
      · rintro ⟨rfl, rfl⟩
        exact ⟨r, rfl⟩
      · rintro ⟨t, ht⟩
        simp only [List.cons_append, List.nil_append, List.cons.injEq] at ht
        exact ⟨ht.1.symm, ht.2.1.symm⟩

theorem hasSmash_fixSmashed (s : JStr) : hasSmash (fixSmashed s) = false := by
  induction s with
  | nil => rfl
  | cons c rest ih =>
    rw [fixSmashed_cons]
    split
    · simp [hasSmash, ih]
    · next h =>
      simp only [hasSmash, fixSmashed_head, ih, Bool.or_false, Bool.and_eq_false_iff]
      by_cases hc : c = 125
      · right
        have : ¬ rest.head? = some 123 := fun e => h ⟨hc, e⟩
        simpa using this
      · left
        simpa using hc

theorem natDigits_of_arrayIndex {k : JStr} {n : Nat} (h : arrayIndex k = some n) :
    natDigits n = k := by
  unfold arrayIndex at h
  split at h
  · next hc =>
    injection h with h
    rw [← h]
    exact hc.1.symm
  · cases h

theorem map_filterMap_arrayIndex (ks : List JStr) :
    (ks.filterMap arrayIndex).map natDigits = ks.filter fun k => (arrayIndex k).isSome := by
  induction ks with
  | nil => rfl
  | cons k ks ih =>
    cases h : arrayIndex k with
    | none => rw [List.filterMap_cons_none h, List.filter_cons_of_neg (by simp [h]), ih]
    | some n =>
      rw [List.filterMap_cons_some h, List.filter_cons_of_pos (by simp [h]), List.map_cons, ih,
        natDigits_of_arrayIndex h]

theorem objectKeys_perm (o : Props) : (objectKeys o).Perm (o.map Prod.fst) := by
  unfold objectKeys
  have h1 : ((((o.map Prod.fst).filterMap arrayIndex).insertionSort (· ≤ ·)).map natDigits).Perm
      ((o.map Prod.fst).filter fun k => (arrayIndex k).isSome) := by
    rw [← map_filterMap_arrayIndex]
    exact (List.perm_insertionSort _ _).map _
  have h2 : ((o.map Prod.fst).filter fun k => (arrayIndex k).isNone) =
      (o.map Prod.fst).filter fun k => !(arrayIndex k).isSome := by
    congr 1
    funext k
    cases arrayIndex k <;> rfl
  rw [h2]
  exact (h1.append_right _).trans (List.filter_append_perm _ _)

theorem mem_objectKeys {o : Props} {k : JStr} : k ∈ objectKeys o ↔ k ∈ o.map Prod.fst :=
  (objectKeys_perm o).mem_iff

theorem length_objectKeys (o : Props) : (objectKeys o).length = o.length := by
  rw [(objectKeys_perm o).length_eq, List.length_map]

theorem getScoreLevel_skilled (x : ℚ) : getScoreLevel x = .skilled ↔ x * 100 > 50 := by
  unfold getScoreLevel
  simp only
  split
  · simp [*]
  · split <;> simp [*]

theorem getScoreLevel_moderate (x : ℚ) :
    getScoreLevel x = .moderate ↔ 40 ≤ x * 100 ∧ x * 100 ≤ 50 := by
  unfold getScoreLevel
  simp only
  split
  · next h => simp; intro _; exact h
  · next h =>
    split
    · next h2 => simp; exact ⟨h2, not_lt.mp h⟩
    · next h2 => simp; intro h3; exact absurd h3 h2

theorem getScoreLevel_beginner (x : ℚ) : getScoreLevel x = .beginner ↔ x * 100 < 40 := by
  unfold getScoreLevel
  simp only
  split
  · next h => simp; linarith
  · next h =>
    split
    · next h2 => simp; exact h2
    · next h2 => simp; exact not_le.mp h2

theorem countWhere_levels (r : Props) (ks : List JStr)
    (h : ∀ s ∈ ks, (score r s).isSome = true) :
    ∃ a b : Nat, countWhere r (fun x => x * 100 > 50) ks = some a ∧
      countWhere r (fun x => x * 100 ≥ 40 && x * 100 ≤ 50) ks = some b ∧
      a = (ks.filter fun s => cardLevel r s = some .skilled).length ∧
      b = (ks.filter fun s => cardLevel r s = some .moderate).length ∧
      a + b + (ks.filter fun s => cardLevel r s = some .beginner).length = ks.length := by
  induction ks with
  | nil => exact ⟨0, 0, rfl, rfl, rfl, rfl, rfl⟩
  | cons s ks ih =>
    obtain ⟨a, b, ha, hb, ea, eb, hsum⟩ := ih (fun x hx => h x (List.mem_cons_of_mem _ hx))
    have hs := h s (by simp)
    obtain ⟨x, hx⟩ := Option.isSome_iff_exists.mp hs
    have hl : cardLevel r s = some (getScoreLevel x) := by simp [cardLevel, hx]
    simp only [countWhere, hx, ha, hb, List.filter_cons, hl, Option.some.injEq]
    rcases hlev : getScoreLevel x with _ | _ | _
    · have h1 := (getScoreLevel_skilled x).mp hlev
      have h2 : ¬ (x * 100 ≤ 50) := not_le.mpr h1
      refine ⟨a + 1, b, by simp [h1], by simp [h2], by simp [ea], by simp [eb], ?_⟩
      simp
      omega
    · have h1 := (getScoreLevel_moderate x).mp hlev
      have h2 : ¬ (x * 100 > 50) := not_lt.mpr h1.2
      refine ⟨a, b + 1, by simp [h2], by simp [h1], by simp [ea], by simp [eb], ?_⟩
      simp
      omega
    · have h1 := (getScoreLevel_beginner x).mp hlev
      have h2 : ¬ (x * 100 > 50) := by intro h3; linarith
      have h3 : ¬ (40 ≤ x * 100) := not_le.mpr h1
      refine ⟨a, b, by simp [h2], by simp [h3], by simp [ea], by simp [eb], ?_⟩
      simp
      omega

theorem reduceHigher_max (r : Props) (rest : List JStr) : ∀ (a : JStr),
    (∀ s ∈ a :: rest, (score r s).isSome = true) →
    ∃ t q, reduceHigher r a rest = some t ∧ t ∈ a :: rest ∧ score r t = some q ∧
      ∀ s ∈ a :: rest, ∀ x, score r s = some x → x ≤ q := by
  induction rest with
  | nil =>
    intro a h
    obtain ⟨q, hq⟩ := Option.isSome_iff_exists.mp (h a (by simp))
    refine ⟨a, q, rfl, by simp, hq, ?_⟩
    intro s hs x hx
    simp only [List.mem_singleton] at hs
    subst hs
    rw [hq] at hx
    injection hx with hx
    exact le_of_eq hx.symm
  | cons b rest ih =>
    intro a h
    obtain ⟨x, hx⟩ := Option.isSome_iff_exists.mp (h a (by simp))
    obtain ⟨y, hy⟩ := Option.isSome_iff_exists.mp (h b (by simp))
    have hrest : ∀ s ∈ rest, (score r s).isSome = true := fun s hs => h s (by simp [hs])
    simp only [reduceHigher, higher, hx, hy]
    by_cases hgt : x > y
    · simp only [hgt, if_true]
      obtain ⟨t, q, ht, hmem, hq, hmax⟩ := ih a (by
        intro s hs
        rcases List.mem_cons.mp hs with rfl | hs
        · exact h _ (by simp)
        · exact hrest s hs)
      refine ⟨t, q, ht, ?_, hq, ?_⟩
      · rcases List.mem_cons.mp hmem with rfl | hm
        · simp
        · simp [hm]
      · intro s hs z hz
        rcases List.mem_cons.mp hs with rfl | hs
        · exact hmax _ (by simp) z hz
        · rcases List.mem_cons.mp hs with rfl | hs
          · rw [hy] at hz
            injection hz with hz
            subst hz
            exact le_trans (le_of_lt hgt) (hmax a (by simp) x hx)
          · exact hmax s (by simp [hs]) z hz
    · simp only [hgt, if_false]
      obtain ⟨t, q, ht, hmem, hq, hmax⟩ := ih b (by
        intro s hs
        rcases List.mem_cons.mp hs with rfl | hs
        · exact h _ (by simp)
        · exact hrest s hs)
      refine ⟨t, q, ht, ?_, hq, ?_⟩
      · rcases List.mem_cons.mp hmem with rfl | hm
        · simp
        · simp [hm]
      · intro s hs z hz
        rcases List.mem_cons.mp hs with rfl | hs
        · rw [hx] at hz
          injection hz with hz
          subst hz
          exact le_trans (not_lt.mp hgt) (hmax b (by simp) y hy)
        · exact hmax s hs z hz

theorem isSkipped_of_no_status {it : JVal} (h : hasStatusKey it = false) :
    isSkipped it = false := by
  cases it with
  | null => rfl
  | obj kvs =>
    simp only [hasStatusKey] at h
    cases hl : kvs.lookup statusKey with
    | none => simp [isSkipped, readStatus, hl, truthyOpt]
    | some v => rw [hl] at h; cases h
  | _ => rfl

theorem fold_merges_unskipped (items : List JVal)
    (ho : ∀ it ∈ items, isJsObject it = true) :
    ∃ T, foldItems items Target.empty = .ok T ∧
      (∀ k, k ≠ protoKey →
        (k ∈ T.props.map Prod.fst ↔ ∃ it ∈ items, isSkipped it = false ∧ k ∈ keysOf it)) ∧
      (∀ k v, k ≠ protoKey →
        (T.props.lookup k = some v ↔
          ∃ pre it post, items = pre ++ it :: post ∧ isSkipped it = false ∧
            valueIn it k = some v ∧ ∀ j ∈ post, isSkipped j = false → valueIn j k = none)) ∧
      ((∀ it ∈ items, isSkipped it = false → valueIn it protoKey = none) →
        T.props.lookup protoKey = none) := by
  obtain ⟨T, hT⟩ := foldItems_objects items ho Target.empty
  refine ⟨T, hT, ?_, ?_, ?_⟩
  · intro k hk
    rw [← not_iff_not, ← lookup_eq_none_iff_keys, lookup_foldItems_none items ho hk _ T hT]
    simp only [empty_props, List.lookup_nil, and_true, not_exists, not_and]
    constructor
    · intro h it hit hs
      have := h it hit hs
      unfold valueIn at this
      exact lookup_eq_none_iff_keys.mp this
    · intro h it hit hs
      exact lookup_eq_none_iff_keys.mpr (h it hit hs)
  · intro k v hk
    rw [lookup_foldItems items ho hk v _ T hT]
    simp [empty_props]
  · intro h
    rw [lookup_foldItems_absent items ho protoKey _ T hT h]
    rfl

theorem normalize_truthy_status_only (ps : List (JStr × JVal)) (hne : ps ≠ [])
    (h : ∀ p ∈ ps, ObjectText p.1 p.2 ∧ ∃ sv, p.2 = .obj [(statusKey, sv)] ∧ truthy sv = true) :
    normalize (ps.map Prod.fst).flatten = .error .noAnalysisData := by
  obtain ⟨vs, hsim, hn⟩ := normalize_stream ps hne (fun p hp => (h p hp).1)
  have hsk : ∀ b ∈ vs, isSkipped b = true := by
    apply forall₂_sim_skipped hsim
    intro a ha
    obtain ⟨p, hp, rfl⟩ := List.mem_map.mp ha
    obtain ⟨_, sv, hv, ht⟩ := h p hp
    rw [hv]
    simp [isSkipped, readStatus, lookup_cons_self, truthyOpt, ht]
  rw [hn, foldItems_all_skipped vs hsk]
  rfl

theorem two_pow_pos (k : Nat) : 0 < 2 ^ k := pow_pos (by decide) k

theorem ten_pow_pos (k : Nat) : 0 < 10 ^ k := pow_pos (by decide) k

theorem log2Search_spec (m : Nat) : ∀ (e n : Nat), 2 ^ e ≤ n → n < 2 ^ (e + 2 ^ (m + 1)) →
    2 ^ log2Search m e n ≤ n ∧ n < 2 ^ (log2Search m e n + 1) := by
  induction m with
  | zero =>
    intro e n h1 h2
    simp only [log2Search]
    split
    · next h => exact ⟨h, by simpa [Nat.add_assoc] using h2⟩
    · next h => exact ⟨h1, Nat.lt_of_not_le h⟩
  | succ m ih =>
    intro e n h1 h2
    rw [log2Search]
    split
    · next h =>
      apply ih _ n h
      have : e + 2 ^ (m + 1) + 2 ^ (m + 1) = e + 2 ^ (m + 1 + 1) := by
        rw [Nat.pow_succ 2 (m + 1)]; omega
      rw [this]
      exact h2
    · next h => exact ih e n h1 (Nat.lt_of_not_le h)

theorem floorLog2_spec {n : Nat} (h1 : 0 < n) (h2 : n < 2 ^ 4096) :
    2 ^ floorLog2 n ≤ n ∧ n < 2 ^ (floorLog2 n + 1) := by
  apply log2Search_spec 11 0 n
  · simpa using h1
  · simpa using h2

theorem floorLog2_unique {n e : Nat} (h1 : 2 ^ e ≤ n) (h2 : n < 2 ^ (e + 1))
    (h3 : n < 2 ^ 4096) : floorLog2 n = e := by
  have hn : 0 < n := Nat.lt_of_lt_of_le (two_pow_pos e) h1
  obtain ⟨a, b⟩ := floorLog2_spec hn h3
  have c1 : floorLog2 n < e + 1 :=
    (Nat.pow_lt_pow_iff_right (by decide : 1 < 2)).mp (Nat.lt_of_le_of_lt a h2)
  have c2 : e < floorLog2 n + 1 :=
    (Nat.pow_lt_pow_iff_right (by decide : 1 < 2)).mp (Nat.lt_of_le_of_lt h1 b)
  omega

theorem lt_4096_of_lt {n : Nat} (h : n < 2 ^ 2100) : n < 2 ^ 4096 :=
  Nat.lt_trans h (Nat.pow_lt_pow_right (by decide) (by decide))

theorem lastPlace_of_lt {F : Nat} (h : F < 2 ^ 53) : lastPlace F = 0 := by
  unfold lastPlace
  rw [if_pos h]

theorem lastPlace_spec {F : Nat} (h1 : 2 ^ 53 ≤ F) (h2 : F < 2 ^ 2100) :
    1 ≤ lastPlace F ∧ 2 ^ (52 + lastPlace F) ≤ F ∧ F < 2 ^ (53 + lastPlace F) := by
  have hpos : 0 < F := Nat.lt_of_lt_of_le (two_pow_pos 53) h1
  obtain ⟨a, b⟩ := floorLog2_spec hpos (lt_4096_of_lt h2)
  have hL : 53 ≤ floorLog2 F := by
    have : 2 ^ 53 < 2 ^ (floorLog2 F + 1) := Nat.lt_of_le_of_lt h1 b
    have := (Nat.pow_lt_pow_iff_right (by decide : 1 < 2)).mp this
    omega
  unfold lastPlace
  rw [if_neg (Nat.not_lt.mpr h1)]
  have e1 : 52 + (floorLog2 F - 52) = floorLog2 F := by omega
  have e2 : 53 + (floorLog2 F - 52) = floorLog2 F + 1 := by omega
  rw [e1, e2]
  exact ⟨by omega, a, b⟩

theorem lastPlace_unique {F j : Nat} (hj : 1 ≤ j) (h1 : 2 ^ (52 + j) ≤ F)
    (h2 : F < 2 ^ (53 + j)) (h3 : F < 2 ^ 2100) : lastPlace F = j := by
  have hF : 2 ^ 53 ≤ F :=
    Nat.le_trans (Nat.pow_le_pow_right (by decide) (by omega)) h1
  unfold lastPlace
  rw [if_neg (Nat.not_lt.mpr hF), floorLog2_unique h1
    (by rw [show 52 + j + 1 = 53 + j by omega]; exact h2) (lt_4096_of_lt h3)]
  omega

theorem roundUnits_of_lt {A b : Nat} (h : A / b < 2 ^ 2100) :
    roundUnits A b =
      (if 2 * (A % (b * 2 ^ lastPlace (A / b))) > b * 2 ^ lastPlace (A / b) ∨
          (2 * (A % (b * 2 ^ lastPlace (A / b))) = b * 2 ^ lastPlace (A / b) ∧
            A / (b * 2 ^ lastPlace (A / b)) % 2 = 1)
        then A / (b * 2 ^ lastPlace (A / b)) + 1 else A / (b * 2 ^ lastPlace (A / b))) *
        2 ^ lastPlace (A / b) := by
  unfold roundUnits
  rw [if_neg (Nat.not_le.mpr h)]

theorem roundUnits_small {A b : Nat} (h : A / b < 2 ^ 53) :
    roundUnits A b =
      if 2 * (A % b) > b ∨ (2 * (A % b) = b ∧ A / b % 2 = 1) then A / b + 1 else A / b := by
  rw [roundUnits_of_lt (Nat.lt_trans h (Nat.pow_lt_pow_right (by decide) (by decide))),
    lastPlace_of_lt h]
  simp only [Nat.pow_zero, Nat.mul_one]

theorem roundUnits_zero (b : Nat) : roundUnits 0 b = 0 := by
  have h : 0 / b < 2 ^ 53 := by
    rw [Nat.zero_div]
    exact two_pow_pos 53
  rw [roundUnits_small h]
  simp

theorem roundUnits_ne_zero_of_ge {A b : Nat} (hb : 0 < b) (h : b ≤ A) : roundUnits A b ≠ 0 := by
  have hF : 0 < A / b := Nat.div_pos h hb
  by_cases hs : 2 ^ 2100 ≤ A / b
  · unfold roundUnits
    rw [if_pos hs]
    exact Nat.pos_iff_ne_zero.mp (two_pow_pos 2100)
  · have hlt : A / b < 2 ^ 2100 := Nat.lt_of_not_le hs
    rw [roundUnits_of_lt hlt]
    apply Nat.pos_iff_ne_zero.mp
    apply Nat.mul_pos _ (two_pow_pos _)
    have hf : 0 < A / (b * 2 ^ lastPlace (A / b)) := by
      rw [← Nat.div_div_eq_div_mul]
      apply Nat.div_pos _ (two_pow_pos _)
      by_cases h53 : A / b < 2 ^ 53
      · rw [lastPlace_of_lt h53]
        exact hF
      · obtain ⟨_, h2, _⟩ := lastPlace_spec (Nat.le_of_not_lt h53) hlt
        exact Nat.le_trans (Nat.pow_le_pow_right (by decide) (by omega)) h2
    split <;> omega

theorem roundUnits_eq_zero {A b : Nat} (hb : 0 < b) : roundUnits A b = 0 ↔ 2 * A ≤ b := by
  by_cases hA : A < b
  · have h0 : A / b = 0 := (Nat.div_eq_zero_iff hb).mpr hA
    have h53 : A / b < 2 ^ 53 := by rw [h0]; exact two_pow_pos 53
    rw [roundUnits_small h53, h0, Nat.mod_eq_of_lt hA]
    simp only [Nat.zero_mod, Nat.zero_ne_one, and_false, or_false, Nat.zero_add]
    split <;> omega
  · have := roundUnits_ne_zero_of_ge hb (Nat.le_of_not_lt hA)
    constructor
    · intro h; exact absurd h this
    · intro h; omega

theorem decimalToUnits_eq_zero (n : JNum) :
    decimalToUnits n.mant n.exp = 0 ↔ n.isZero = true := by
  unfold decimalToUnits JNum.isZero
  rw [roundUnits_eq_zero (ten_pow_pos _)]
  by_cases he : 0 ≤ n.exp
  · have h1 : (-n.exp).toNat = 0 := by omega
    rw [if_pos he, h1]
    simp only [Nat.pow_zero, beq_iff_eq]
    constructor
    · intro h
      have h2 : 0 < 10 ^ n.exp.toNat * 2 ^ 1074 :=
        Nat.mul_pos (ten_pow_pos _) (two_pow_pos _)
      by_contra hm
      have h3 : 1 ≤ n.mant := Nat.pos_of_ne_zero hm
      have h4 : 1 * (10 ^ n.exp.toNat * 2 ^ 1074) ≤ n.mant * (10 ^ n.exp.toNat * 2 ^ 1074) :=
        Nat.mul_le_mul_right _ h3
      rw [Nat.mul_assoc] at h
      omega
    · intro h
      rw [h]
      simp
  · have h1 : n.exp.toNat = 0 := by omega
    have h2 : (-n.exp).toNat = n.exp.natAbs := by omega
    rw [if_neg he, h1, h2]
    simp only [Nat.pow_zero, Nat.mul_one, decide_eq_true_eq]
    have : 2 * (n.mant * 2 ^ 1074) = n.mant * 2 ^ 1075 := by
      rw [Nat.pow_succ 2 1074]
      ring
    rw [this]

theorem isDouble_roundUnits {A b : Nat} (h : roundUnits A b < 2 ^ 2098) :
    IsDouble (roundUnits A b) := by
  by_cases hs : 2 ^ 2100 ≤ A / b
  · exfalso
    unfold roundUnits at h
    rw [if_pos hs] at h
    exact absurd h (Nat.not_lt.mpr (Nat.pow_le_pow_right (by decide) (by decide)))
  · have hlt : A / b < 2 ^ 2100 := Nat.lt_of_not_le hs
    by_cases h53 : A / b < 2 ^ 53
    · rw [roundUnits_small h53]
      by_cases hlast : A / b + 1 = 2 ^ 53
      · split
        · right
          refine ⟨2 ^ 52, 1, le_refl 1, le_refl _, by decide, ?_⟩
          rw [hlast]
          rfl
        · exact Or.inl h53
      · left
        split <;> omega
    · have h53 : 2 ^ 53 ≤ A / b := Nat.le_of_not_lt h53
      obtain ⟨hj, h1, h2⟩ := lastPlace_spec h53 hlt
      rw [roundUnits_of_lt hlt]
      have hf : A / (b * 2 ^ lastPlace (A / b)) = A / b / 2 ^ lastPlace (A / b) :=
        (Nat.div_div_eq_div_mul _ _ _).symm
      have hf1 : 2 ^ 52 ≤ A / (b * 2 ^ lastPlace (A / b)) := by
        rw [hf, Nat.le_div_iff_mul_le (two_pow_pos _), ← Nat.pow_add]
        exact h1
      have hf2 : A / (b * 2 ^ lastPlace (A / b)) < 2 ^ 53 := by
        rw [hf, Nat.div_lt_iff_lt_mul (two_pow_pos _), ← Nat.pow_add]
        exact h2
      right
      by_cases hlast : A / (b * 2 ^ lastPlace (A / b)) + 1 = 2 ^ 53
      · split
        · refine ⟨2 ^ 52, lastPlace (A / b) + 1, by omega, le_refl _, by decide, ?_⟩
          rw [hlast, Nat.pow_succ]
          ring
        · exact ⟨_, _, hj, hf1, hf2, rfl⟩
      · split
        · exact ⟨_, _, hj, by omega, by omega, rfl⟩
        · exact ⟨_, _, hj, hf1, hf2, rfl⟩

theorem roundUnits_fixed {u : Nat} (hu : IsDouble u) (h : u < 2 ^ 2100) {c : Nat} (hc : 0 < c) :
    roundUnits (u * c) c = u := by
  have hF : u * c / c = u := Nat.mul_div_cancel u hc
  rcases hu with h53 | ⟨g, j, hj, hg1, hg2, rfl⟩
  · rw [roundUnits_small (by rw [hF]; exact h53), hF, Nat.mul_mod_left]
    rw [if_neg]
    omega
  · have hl : lastPlace (g * 2 ^ j) = j := by
      apply lastPlace_unique hj _ _ h
      · rw [Nat.pow_add]
        exact Nat.mul_le_mul_right _ hg1
      · rw [Nat.pow_add]
        exact Nat.mul_lt_mul_of_pos_right hg2 (two_pow_pos j)
    rw [roundUnits_of_lt (by rw [hF]; exact h), hF, hl]
    have e1 : g * 2 ^ j * c = g * (c * 2 ^ j) := by ring
    have hpos : 0 < c * 2 ^ j := Nat.mul_pos hc (two_pow_pos j)
    rw [e1, Nat.mul_mod_left, Nat.mul_div_cancel g hpos, if_neg]
    omega

theorem pickDecimal_valid {u : Nat} {lo hi sp : Nat × Int} {b : Bool}
    (h : pickDecimal u lo hi b = some sp) : decimalToUnits sp.1 sp.2 = u := by
  unfold pickDecimal at h
  by_cases h1 : decimalToUnits lo.1 lo.2 = u
  · rw [if_pos h1] at h
    by_cases h2 : decimalToUnits hi.1 hi.2 = u ∧ b = false
    · rw [if_pos h2] at h
      rw [← Option.some.inj h]
      exact h2.1
    · rw [if_neg h2] at h
      rw [← Option.some.inj h]
      exact h1
  · rw [if_neg h1] at h
    by_cases h2 : decimalToUnits hi.1 hi.2 = u
    · rw [if_pos h2] at h
      rw [← Option.some.inj h]
      exact h2
    · rw [if_neg h2] at h
      exact Option.noConfusion h

theorem candidate_valid {u k : Nat} {sp : Nat × Int} (h : candidate u k = some sp) :
    decimalToUnits sp.1 sp.2 = u :=
  pickDecimal_valid h

theorem shortestDecimal_valid {u : Nat} (hu : IsDouble u) (h : u < 2 ^ 2100) :
    decimalToUnits (shortestDecimal u).1 (shortestDecimal u).2 = u := by
  unfold shortestDecimal
  cases hf : (List.range 17).findSome? fun i => candidate u (i + 1) with
  | some sp =>
    obtain ⟨i, _, hi⟩ := List.exists_of_findSome?_eq_some hf
    exact candidate_valid hi
  | none =>
    simp only [Option.getD_none]
    unfold decimalToUnits
    have e1 : u * 5 ^ 1074 * 10 ^ (-1074 : Int).toNat * 2 ^ 1074 = u * 10 ^ 1074 := by
      have : (-1074 : Int).toNat = 0 := by decide
      rw [this, Nat.pow_zero, Nat.mul_one, Nat.mul_assoc, ← Nat.mul_pow]
    have e2 : (-(-1074 : Int)).toNat = 1074 := by decide
    rw [e1, e2]
    exact roundUnits_fixed hu h (ten_pow_pos 1074)

theorem shortestDecimal_pos {u : Nat} (hu : IsDouble u) (h : u < 2 ^ 2100) (h0 : 0 < u) :
    0 < (shortestDecimal u).1 := by
  have hv := shortestDecimal_valid hu h
  by_contra hz
  have hz : (shortestDecimal u).1 = 0 := by omega
  rw [hz] at hv
  unfold decimalToUnits at hv
  rw [Nat.zero_mul, Nat.zero_mul, roundUnits_zero] at hv
  omega

theorem toDouble_finite {n : JNum} {neg : Bool} {u : Nat} (h : n.toDouble = .finite neg u) :
    neg = n.neg ∧ u = decimalToUnits n.mant n.exp ∧ IsDouble u ∧ u < 2 ^ 2098 := by
  unfold JNum.toDouble at h
  split at h
  · next hlt =>
    injection h with h1 h2
    subst h1 h2
    exact ⟨rfl, rfl, isDouble_roundUnits hlt, hlt⟩
  · cases h

theorem digitsValue_append (a : Nat) (x y : JStr) :
    digitsValue a (x ++ y) = digitsValue (digitsValue a x) y := by
  unfold digitsValue
  rw [List.foldl_append]

theorem digitsValue_zeros (a z : Nat) : digitsValue a (List.replicate z 48) = a * 10 ^ z := by
  induction z generalizing a with
  | zero => simp [digitsValue]
  | succ z ih =>
    rw [List.replicate_succ]
    have : digitsValue a (48 :: List.replicate z 48) = digitsValue (a * 10) (List.replicate z 48) := by
      simp [digitsValue]
    rw [this, ih, Nat.pow_succ]
    ring

theorem readDigits_stop {c : Nat} (hc : isDigit c = false) (cs : JStr) (a k : Nat) :
    readDigits (c :: cs) a k = (a, k, c :: cs) := by
  rw [readDigits, if_neg (by simp [hc])]

theorem readDigits_all (ds : JStr) (hd : ∀ c ∈ ds, isDigit c = true) (a k : Nat) :
    readDigits ds a k = (digitsValue a ds, k + ds.length, []) := by
  have := readDigits_append ds hd [] a k
  rw [List.append_nil] at this
  rw [this]
  rfl

theorem readDigits_then (ds : JStr) (hd : ∀ c ∈ ds, isDigit c = true) {c : Nat}
    (hc : isDigit c = false) (r : JStr) (a k : Nat) :
    readDigits (ds ++ c :: r) a k = (digitsValue a ds, k + ds.length, c :: r) := by
  rw [readDigits_append ds hd, readDigits_stop hc]

theorem natDigits_digits (n : Nat) : ∀ c ∈ natDigits n, isDigit c = true := (natDigits_spec n).1

theorem natDigits_value (n : Nat) : digitsValue 0 (natDigits n) = n := (natDigits_spec n).2.1

theorem natDigits_length_pos (n : Nat) : 0 < (natDigits n).length := by
  obtain ⟨_, _, x, t, h, _⟩ := natDigits_spec n
  rw [h]
  simp

theorem readExponent_exponentText (e : Int) : readExponent (exponentText e) = some (e, []) := by
  unfold exponentText
  have hd := natDigits_digits e.natAbs
  have hl := natDigits_length_pos e.natAbs
  have hr := readDigits_all (natDigits e.natAbs) hd 0 0
  rw [natDigits_value] at hr
  by_cases he : e < 0
  · rw [if_pos he]
    simp only [readExponent, true_or, if_true, hr]
    have : -(e.natAbs : Int) = e := by omega
    rw [this]
    split
    · omega
    · rfl
  · rw [if_neg he]
    simp only [readExponent, true_or, if_true, hr]
    have : (e.natAbs : Int) = e := by omega
    rw [this, if_neg (by decide), if_neg (by omega)]

theorem readExponent_nil : readExponent [] = some (0, []) := rfl

theorem readFraction_nil (ip : Nat) : readFraction ip [] = some (ip, 0, []) := rfl

theorem readFraction_other (ip : Nat) {c : Nat} (hc : c ≠ 46) (r : JStr) :
    readFraction ip (c :: r) = some (ip, 0, c :: r) := by
  simp only [readFraction, hc, if_false]

theorem readFraction_dot_all (ip : Nat) (fds : JStr) (hd : ∀ c ∈ fds, isDigit c = true)
    (hl : 0 < fds.length) :
    readFraction ip (46 :: fds) = some (digitsValue ip fds, fds.length, []) := by
  simp only [readFraction, if_true, readDigits_all fds hd ip 0, Nat.zero_add]
  rw [if_neg (by omega)]

theorem readFraction_dot_then (ip : Nat) (fds : JStr) (hd : ∀ c ∈ fds, isDigit c = true)
    (hl : 0 < fds.length) {c : Nat} (hc : isDigit c = false) (r : JStr) :
    readFraction ip (46 :: (fds ++ c :: r)) = some (digitsValue ip fds, fds.length, c :: r) := by
  simp only [readFraction, if_true, readDigits_then fds hd hc r ip 0, Nat.zero_add]
  rw [if_neg (by omega)]

theorem readUnsigned_int (neg : Bool) (x : Nat) (t : JStr) (hd : ∀ c ∈ x :: t, isDigit c = true)
    (hx : x ≠ 48) (rest : JStr) (hr : ∀ c r, rest = c :: r → isDigit c = false) :
    readUnsigned neg (x :: t ++ rest) =
      match readFraction (digitsValue 0 (x :: t)) rest with
      | none => none
      | some (m, fl, r1) =>
        match readExponent r1 with
        | none => none
        | some (e, r2) => some (⟨neg, m, e - fl⟩, r2) := by
  have h1 : readDigits (x :: t ++ rest) 0 0 = (digitsValue 0 (x :: t), 0 + (x :: t).length, rest) := by
    rw [readDigits_append (x :: t) hd]
    cases rest with
    | nil => rfl
    | cons c r => rw [readDigits_stop (hr c r rfl)]
  have hx1 : isDigit x = true := hd x (by simp)
  rw [List.cons_append] at h1 ⊢
  simp only [readUnsigned, hx1, if_true, hx, if_false, h1]

theorem readUnsigned_zero (neg : Bool) (rest : JStr) :
    readUnsigned neg (48 :: rest) =
      match readFraction 0 rest with
      | none => none
      | some (m, fl, r1) =>
        match readExponent r1 with
        | none => none
        | some (e, r2) => some (⟨neg, m, e - fl⟩, r2) := by
  simp only [readUnsigned, if_true]
  all_goals rfl

theorem isDigit_zero : isDigit 48 = true := by decide

theorem zeros_digits (z : Nat) : ∀ c ∈ List.replicate z 48, isDigit c = true := by
  intro c hc
  rw [List.eq_of_mem_replicate hc]
  exact isDigit_zero

theorem exponentText_cons (e : Int) :
    exponentText e = 101 :: ((if e < 0 then 45 else 43) :: natDigits e.natAbs) := rfl

theorem decimalToUnits_congr (s : Nat) {p q : Int} (h : p = q) :
    decimalToUnits s p = decimalToUnits s q := by rw [h]

theorem readUnsigned_formatDecimal (neg : Bool) {s : Nat} (hs : 0 < s) (p : Int) :
    ∃ m e, readUnsigned neg (formatDecimal s p) = some (⟨neg, m, e⟩, []) ∧
      decimalToUnits m e = decimalToUnits s p := by
  obtain ⟨hd, hv, x, t, hxt, hx⟩ := natDigits_spec s
  have hx := hx hs
  have hk : (natDigits s).length = t.length + 1 := by rw [hxt]; rfl
  have h101 : isDigit 101 = false := by decide
  have h46 : isDigit 46 = false := by decide
  unfold formatDecimal
  simp only
  by_cases c1 : ((natDigits s).length : Int) ≤ p + (natDigits s).length ∧
      p + (natDigits s).length ≤ 21
  · rw [if_pos c1]
    have hp : 0 ≤ p := by omega
    have hz : (p + (natDigits s).length - (natDigits s).length).toNat = p.toNat := by omega
    rw [hz]
    refine ⟨s * 10 ^ p.toNat, 0, ?_, ?_⟩
    · have hd2 : ∀ c ∈ x :: (t ++ List.replicate p.toNat 48), isDigit c = true := by
        intro c hc
        rw [← List.cons_append, ← hxt] at hc
        rcases List.mem_append.mp hc with hc | hc
        · exact hd c hc
        · exact zeros_digits _ c hc
      have := readUnsigned_int neg x (t ++ List.replicate p.toNat 48) hd2 hx []
        (fun c r e => by cases e)
      rw [List.append_nil] at this
      rw [hxt, List.cons_append, this, readFraction_nil]
      simp only [readExponent_nil]
      rw [← List.cons_append, ← hxt, digitsValue_append, hv, digitsValue_zeros]
      rfl
    · unfold decimalToUnits
      have e1 : (0 : Int).toNat = 0 := rfl
      have e2 : (-(0 : Int)).toNat = 0 := rfl
      have e3 : (-p).toNat = 0 := by omega
      rw [e1, e2, e3, Nat.pow_zero, Nat.mul_one]
  · rw [if_neg c1]
    by_cases c2 : 0 < p + (natDigits s).length ∧ p + (natDigits s).length ≤ 21
    · rw [if_pos c2]
      have hn : (p + (natDigits s).length).toNat < (natDigits s).length := by omega
      have hn0 : 0 < (p + (natDigits s).length).toNat := by omega
      generalize hq : (p + (natDigits s).length).toNat = q at hn hn0
      have htd := List.take_append_drop q (natDigits s)
      have hdt : ∀ c ∈ (natDigits s).take q, isDigit c = true :=
        fun c hc => hd c (List.mem_of_mem_take hc)
      have hdd : ∀ c ∈ (natDigits s).drop q, isDigit c = true :=
        fun c hc => hd c (List.mem_of_mem_drop hc)
      have hld : ((natDigits s).drop q).length = (natDigits s).length - q := List.length_drop _ _
      cases htk : (natDigits s).take q with
      | nil =>
        have := List.length_take q (natDigits s)
        rw [htk] at this
        simp only [List.length_nil] at this
        omega
      | cons y tk =>
        rw [htk] at hdt htd
        have hy : y = x := by
          rw [hxt] at htd
          simp only [List.cons_append, List.cons.injEq] at htd
          exact htd.1
        subst hy
        refine ⟨s, p, ?_, rfl⟩
        rw [readUnsigned_int neg y tk hdt hx (46 :: (natDigits s).drop q)
          (fun c r e => by injection e with e1 _; rw [← e1]; exact h46),
          readFraction_dot_all _ _ hdd (by omega)]
        simp only [readExponent_nil]
        rw [← digitsValue_append, htd, hv]
        congr 3
        omega
    · rw [if_neg c2]
      by_cases c3 : -6 < p + (natDigits s).length ∧ p + (natDigits s).length ≤ 0
      · rw [if_pos c3]
        refine ⟨s, p, ?_, rfl⟩
        have hdz : ∀ c ∈ List.replicate (-(p + (natDigits s).length)).toNat 48 ++ natDigits s,
            isDigit c = true := by
          intro c hc
          rcases List.mem_append.mp hc with hc | hc
          · exact zeros_digits _ c hc
          · exact hd c hc
        rw [readUnsigned_zero, readFraction_dot_all _ _ hdz
          (by rw [List.length_append]; have := natDigits_length_pos s; omega)]
        simp only [readExponent_nil]
        rw [digitsValue_append, digitsValue_zeros, Nat.zero_mul, hv]
        congr 3
        rw [List.length_append, List.length_replicate]
        omega
      · rw [if_neg c3]
        by_cases c4 : (natDigits s).length = 1
        · rw [if_pos c4]
          refine ⟨s, p, ?_, rfl⟩
          have ht : t = [] := by
            rw [hk] at c4
            exact List.length_eq_zero.mp (by omega)
          subst ht
          rw [hxt] at hd hv
          rw [hxt, readUnsigned_int neg x [] hd hx (exponentText _)
            (fun c r e => by rw [exponentText_cons] at e; injection e with e1 _; rw [← e1]; exact h101),
            hv, exponentText_cons, readFraction_other _ (by decide), ← exponentText_cons]
          simp only [readExponent_exponentText]
          congr 3
          simp
        · rw [if_neg c4]
          refine ⟨s, p, ?_, rfl⟩
          have ht : 0 < t.length := by omega
          have htake : (natDigits s).take 1 = [x] := by rw [hxt]; rfl
          have hdrop : (natDigits s).drop 1 = t := by rw [hxt]; rfl
          have hdx : ∀ c ∈ [x], isDigit c = true := by
            intro c hc
            apply hd
            rw [hxt]
            simp only [List.mem_singleton] at hc
            rw [hc]
            exact List.mem_cons_self _ _
          have hdt : ∀ c ∈ t, isDigit c = true := by
            intro c hc
            apply hd
            rw [hxt]
            exact List.mem_cons_of_mem _ hc
          rw [htake, hdrop, readUnsigned_int neg x [] hdx hx
            (46 :: (t ++ exponentText (p + (natDigits s).length - 1)))
            (fun c r e => by injection e with e1 _; rw [← e1]; exact h46),
            exponentText_cons,
            readFraction_dot_then _ t hdt ht h101, ← exponentText_cons]
          simp only [readExponent_exponentText]
          rw [← digitsValue_append]
          have : [x] ++ t = natDigits s := by rw [hxt]; rfl
          rw [this, hv]
          congr 3
          omega

theorem isNumChar_exponentText (e : Int) : ∀ c ∈ exponentText e, isNumChar c = true := by
  intro c hc
  rw [exponentText_cons] at hc
  rcases List.mem_cons.mp hc with rfl | hc
  · decide
  · rcases List.mem_cons.mp hc with rfl | hc
    · split <;> decide
    · exact isNumChar_of_isDigit (natDigits_digits _ c hc)

theorem formatDecimal_chars (s : Nat) (p : Int) :
    ∀ c ∈ formatDecimal s p, isNumChar c = true := by
  have hd : ∀ c ∈ natDigits s, isNumChar c = true :=
    fun c hc => isNumChar_of_isDigit (natDigits_digits s c hc)
  have h46 : isNumChar 46 = true := by decide
  have h48 : isNumChar 48 = true := by decide
  intro c hc
  unfold formatDecimal at hc
  simp only at hc
  split at hc
  · rcases List.mem_append.mp hc with hc | hc
    · exact hd c hc
    · rw [List.eq_of_mem_replicate hc]; exact h48
  · split at hc
    · rcases List.mem_append.mp hc with hc | hc
      · exact hd c (List.mem_of_mem_take hc)
      · rcases List.mem_cons.mp hc with rfl | hc
        · exact h46
        · exact hd c (List.mem_of_mem_drop hc)
    · split at hc
      · rcases List.mem_cons.mp hc with rfl | hc
        · exact h48
        · rcases List.mem_cons.mp hc with rfl | hc
          · exact h46
          · rcases List.mem_append.mp hc with hc | hc
            · rw [List.eq_of_mem_replicate hc]; exact h48
            · exact hd c hc
      · split at hc
        · rcases List.mem_append.mp hc with hc | hc
          · exact hd c hc
          · exact isNumChar_exponentText _ c hc
        · rcases List.mem_append.mp hc with hc | hc
          · exact hd c (List.mem_of_mem_take hc)
          · rcases List.mem_cons.mp hc with rfl | hc
            · exact h46
            · rcases List.mem_append.mp hc with hc | hc
              · exact hd c (List.mem_of_mem_drop hc)
              · exact isNumChar_exponentText _ c hc

theorem readUnsigned_head {neg : Bool} {tok : JStr} {r : JNum × JStr}
    (h : readUnsigned neg tok = some r) : ∃ x t, tok = x :: t ∧ isDigit x = true := by
  cases tok with
  | nil => simp [readUnsigned] at h
  | cons x t =>
    refine ⟨x, t, rfl, ?_⟩
    by_contra hx
    simp [readUnsigned, hx] at h

theorem numText_formatDecimal (neg : Bool) {s : Nat} (hs : 0 < s) (p : Int) :
    ∃ m e, NumText ((if neg then [45] else []) ++ formatDecimal s p) ⟨neg, m, e⟩ ∧
      decimalToUnits m e = decimalToUnits s p := by
  cases neg with
  | true =>
    obtain ⟨m, e, h1, h2⟩ := readUnsigned_formatDecimal true hs p
    refine ⟨m, e, ⟨?_, ?_⟩, h2⟩
    · intro c hc
      rcases List.mem_append.mp hc with hc | hc
      · simp only [if_true, List.mem_singleton] at hc
        rw [hc]
        decide
      · exact formatDecimal_chars s p c hc
    · simp only [if_true, List.singleton_append, decodeNumber, h1]
  | false =>
    obtain ⟨m, e, h1, h2⟩ := readUnsigned_formatDecimal false hs p
    obtain ⟨x, t, hxt, hx⟩ := readUnsigned_head h1
    refine ⟨m, e, ⟨?_, ?_⟩, h2⟩
    · intro c hc
      simp only [Bool.false_eq_true, if_false, List.nil_append] at hc
      exact formatDecimal_chars s p c hc
    · simp only [Bool.false_eq_true, if_false, List.nil_append]
      rw [hxt] at h1 ⊢
      have h45 : x ≠ 45 := by
        intro e45
        rw [e45] at hx
        exact absurd hx (by decide)
      simp only [decodeNumber, h45, if_false, h1]

theorem toDouble_zero : JNum.toDouble ⟨false, 0, 0⟩ = .finite false 0 := by
  have h : decimalToUnits 0 0 = 0 := by
    unfold decimalToUnits
    rw [Nat.zero_mul, Nat.zero_mul, roundUnits_zero]
  unfold JNum.toDouble
  simp only [h]
  rw [if_pos (two_pow_pos 2098)]

theorem txt_serializeNumber (n : JNum) (h : jsonNumbers (.num n) = true) :
    ∃ n2, Txt (serializeNumber n.toDouble) (.val (.num n2)) ∧ n2.toDouble = n.toDouble := by
  rw [jsonNumbers] at h
  cases hd : n.toDouble with
  | infinite neg => rw [hd] at h; cases h
  | finite neg u =>
    rw [hd] at h
    simp only [Bool.not_eq_true', Bool.and_eq_false_iff, beq_eq_false_iff_ne] at h
    obtain ⟨_, _, hu, hlt⟩ := toDouble_finite hd
    by_cases h0 : u = 0
    · subst h0
      have hneg : neg = false := by
        rcases h with h | h
        · exact h
        · exact absurd rfl h
      subst hneg
      refine ⟨⟨false, 0, 0⟩, ?_, toDouble_zero⟩
      simp only [serializeNumber, if_true]
      exact Txt.num _ _ ⟨by decide, by decide⟩
    · have hlt2 : u < 2 ^ 2100 :=
        Nat.lt_trans hlt (Nat.pow_lt_pow_right (by decide) (by decide))
      have hpos := shortestDecimal_pos hu hlt2 (Nat.pos_of_ne_zero h0)
      have hval := shortestDecimal_valid hu hlt2
      obtain ⟨m, e, hnt, hme⟩ := numText_formatDecimal neg hpos (shortestDecimal u).2
      refine ⟨⟨neg, m, e⟩, ?_, ?_⟩
      · simp only [serializeNumber, h0, if_false]
        exact Txt.num _ _ hnt
      · unfold JNum.toDouble
        simp only
        rw [hme, hval, if_pos hlt]

theorem stringifyList_eq (vs : List JVal) : stringifyList vs = vs.map stringify := by
  induction vs with
  | nil => rfl
  | cons v vs ih => rw [stringifyList, ih]; rfl

theorem stringifyProps_eq (kvs : Props) :
    stringifyProps kvs = kvs.map fun p => (p.1, stringify p.2) := by
  induction kvs with
  | nil => rfl
  | cons p kvs ih => rw [stringifyProps, ih]; rfl

theorem toJsList_eq (vs : List JVal) : toJsList vs = vs.map toJs := by
  induction vs with
  | nil => rfl
  | cons v vs ih => rw [toJsList, ih]; rfl

theorem toJsProps_eq (kvs : Props) : toJsProps kvs = kvs.map fun p => (p.1, toJs p.2) := by
  induction kvs with
  | nil => rfl
  | cons p kvs ih => rw [toJsProps, ih]; rfl

theorem lookup_map_snd {α β : Type} (f : α → β) (kvs : List (JStr × α)) (k : JStr) :
    (kvs.map fun p => (p.1, f p.2)).lookup k = (kvs.lookup k).map f := by
  induction kvs with
  | nil => rfl
  | cons p kvs ih =>
    obtain ⟨k0, v0⟩ := p
    simp only [List.map_cons, List.lookup_cons]
    cases k == k0 with
    | true => rfl
    | false => exact ih

theorem txt_members (ms : List (JStr × JStr × JVal)) (hne : ms ≠ [])
    (h : ∀ e ∈ ms, Txt e.2.1 (.val e.2.2)) :
    Txt (commaJoin (ms.map fun e => 34 :: (quoteBody e.1 ++ 34 :: 58 :: e.2.1)) ++ [125])
      (.members (ms.map fun e => (e.1, e.2.2))) := by
  induction ms with
  | nil => exact absurd rfl hne
  | cons e ms ih =>
    cases ms with
    | nil =>
      have := Txt.memLast _ e.1 [] [] e.2.1 [] e.2.2 (strText_quoteBody e.1)
        (by intro c hc; cases hc) (by intro c hc; cases hc) (h e (by simp))
        (by intro c hc; cases hc)
      simpa [commaJoin] using this
    | cons e2 ms =>
      have h2 := ih (by simp) (fun x hx => h x (List.mem_cons_of_mem _ hx))
      have := Txt.memCons _ e.1 [] [] e.2.1 [] [] _ e.2.2 _ (strText_quoteBody e.1)
        (by intro c hc; cases hc) (by intro c hc; cases hc) (h e (by simp))
        (by intro c hc; cases hc) (by intro c hc; cases hc) h2
      simpa [commaJoin] using this

theorem arrayIndex_natDigits {k : JStr} {i : Nat} (h : arrayIndex k = some i) :
    arrayIndex (natDigits i) = some i := by
  rw [natDigits_of_arrayIndex h]
  exact h

theorem filterMap_eq_self {α : Type} (f : α → Option α) (l : List α)
    (h : ∀ x ∈ l, f x = some x) : l.filterMap f = l := by
  induction l with
  | nil => rfl
  | cons x l ih =>
    rw [List.filterMap_cons_some (h x (by simp)), ih (fun y hy => h y (List.mem_cons_of_mem _ hy))]

theorem filterMap_eq_nil_of {α β : Type} (f : α → Option β) (l : List α)
    (h : ∀ x ∈ l, f x = none) : l.filterMap f = [] := by
  induction l with
  | nil => rfl
  | cons x l ih =>
    rw [List.filterMap_cons_none (h x (by simp)), ih (fun y hy => h y (List.mem_cons_of_mem _ hy))]

theorem objectKeys_idem (o o2 : Props) (h : o2.map Prod.fst = objectKeys o) :
    objectKeys o2 = objectKeys o := by
  have hI : ∀ i ∈ ((o.map Prod.fst).filterMap arrayIndex).insertionSort (· ≤ ·),
      arrayIndex (natDigits i) = some i := by
    intro i hi
    have hi2 := (List.perm_insertionSort (· ≤ ·) _).mem_iff.mp hi
    obtain ⟨k, _, hk⟩ := List.mem_filterMap.mp hi2
    exact arrayIndex_natDigits hk
  have hB : ∀ k ∈ (o.map Prod.fst).filter (fun k => (arrayIndex k).isNone),
      arrayIndex k = none := by
    intro k hk
    have := (List.mem_filter.mp hk).2
    exact Option.isNone_iff_eq_none.mp this
  have h1 : (o2.map Prod.fst).filterMap arrayIndex =
      ((o.map Prod.fst).filterMap arrayIndex).insertionSort (· ≤ ·) := by
    rw [h, objectKeys, List.filterMap_append, List.filterMap_map,
      filterMap_eq_nil_of _ _ hB, List.append_nil]
    exact filterMap_eq_self _ _ hI
  have h2 : (o2.map Prod.fst).filter (fun k => (arrayIndex k).isNone) =
      (o.map Prod.fst).filter (fun k => (arrayIndex k).isNone) := by
    rw [h, objectKeys, List.filter_append]
    have e1 : (List.map natDigits (((o.map Prod.fst).filterMap arrayIndex).insertionSort
        (· ≤ ·))).filter (fun k => (arrayIndex k).isNone) = [] := by
      rw [List.filter_eq_nil_iff]
      intro k hk
      obtain ⟨i, hi, rfl⟩ := List.mem_map.mp hk
      rw [hI i hi]
      simp
    rw [e1, List.nil_append, List.filter_filter]
    simp
  have h3 : (((o.map Prod.fst).filterMap arrayIndex).insertionSort (· ≤ ·)).insertionSort
      (· ≤ ·) = ((o.map Prod.fst).filterMap arrayIndex).insertionSort (· ≤ ·) :=
    List.Sorted.insertionSort_eq (List.sorted_insertionSort (· ≤ ·) _)
  conv_lhs => rw [objectKeys, h1, h2, h3]
  rfl

theorem nodup_objectKeys {o : Props} (h : (o.map Prod.fst).Nodup) : (objectKeys o).Nodup :=
  (objectKeys_perm o).nodup_iff.mpr h

theorem lookup_map_key {β : Type} (f : JStr → β) (ks : List JStr) {k : JStr} (hk : k ∈ ks) :
    (ks.map fun k => (k, f k)).lookup k = some (f k) := by
  induction ks with
  | nil => cases hk
  | cons k0 ks ih =>
    simp only [List.map_cons, List.lookup_cons]
    by_cases h : k = k0
    · subst h
      simp
    · have : (k == k0) = false := by simpa using h
      rw [this]
      rcases List.mem_cons.mp hk with h1 | h1
      · exact absurd h1 h
      · exact ih h1

theorem forall₂_lookup (R : JVal → JVal → Prop) {kvs kvs2 : Props}
    (h : List.Forall₂ (fun (p q : JStr × JVal) => q.1 = p.1 ∧ R p.2 q.2) kvs kvs2) (k : JStr)
    {v : JVal} (hv : kvs.lookup k = some v) : ∃ v2, kvs2.lookup k = some v2 ∧ R v v2 := by
  induction h with
  | nil => cases hv
  | @cons p q l1 l2 hpq _ ih =>
    obtain ⟨k0, v0⟩ := p
    obtain ⟨k1, v1⟩ := q
    simp only at hpq
    obtain ⟨rfl, hr⟩ := hpq
    by_cases hk : k = k1
    · subst hk
      rw [lookup_cons_self] at hv ⊢
      injection hv with hv
      subst hv
      exact ⟨v1, rfl, hr⟩
    · rw [lookup_cons_ne hk] at hv ⊢
      exact ih hv

theorem forall₂_texts {vs vs2 : List JVal}
    (h : List.Forall₂ (fun v v2 => Txt (stringify v) (.val v2) ∧ toJs v2 = toJs v) vs vs2) :
    (∃ ps : List (JStr × JVal), ps.map Prod.fst = vs.map stringify ∧ ps.map Prod.snd = vs2 ∧
      ∀ p ∈ ps, Txt p.1 (.val p.2)) ∧ vs2.map toJs = vs.map toJs := by
  induction h with
  | nil => exact ⟨⟨[], rfl, rfl, by intro p hp; cases hp⟩, rfl⟩
  | @cons a b l1 l2 hab _ ih =>
    obtain ⟨⟨ps, h1, h2, h3⟩, h4⟩ := ih
    refine ⟨⟨(stringify a, b) :: ps, by simp [h1], by simp [h2], ?_⟩, by simp [hab.2, h4]⟩
    intro p hp
    rcases List.mem_cons.mp hp with rfl | hp
    · exact hab.1
    · exact h3 p hp

theorem txt_array {vs vs2 : List JVal}
    (h : List.Forall₂ (fun v v2 => Txt (stringify v) (.val v2) ∧ toJs v2 = toJs v) vs vs2) :
    Txt (stringify (.arr vs)) (.val (.arr vs2)) ∧ toJs (.arr vs2) = toJs (.arr vs) := by
  obtain ⟨⟨ps, h1, h2, h3⟩, h4⟩ := forall₂_texts h
  constructor
  · rw [stringify, stringifyList_eq, ← h1, ← h2]
    cases ps with
    | nil =>
      have := Txt.arrNil [] (by intro c hc; cases hc)
      simpa [commaJoin] using this
    | cons p ps =>
      have := Txt.arr [] _ _ (by intro c hc; cases hc) (txt_commaJoin (p :: ps) (by simp) h3)
      simpa using this
  · rw [toJs, toJs, toJsList_eq, toJsList_eq, h4]

theorem mem_keys_of_lookup {o : Props} {k : JStr} (h : k ∈ o.map Prod.fst) :
    ∃ v, o.lookup k = some v := mem_keys_iff_lookup.mp h

theorem txt_object {kvs kvs2 : Props} (hn : (kvs.map Prod.fst).Nodup)
    (h : List.Forall₂ (fun (p q : JStr × JVal) => q.1 = p.1 ∧
      (Txt (stringify p.2) (.val q.2) ∧ toJs q.2 = toJs p.2)) kvs kvs2) :
    ∃ O2, Txt (stringify (.obj kvs)) (.val (.obj O2)) ∧ toJs (.obj O2) = toJs (.obj kvs) := by
  refine ⟨(objectKeys kvs).map fun k => (k, (kvs2.lookup k).getD .null), ?_, ?_⟩
  · rw [stringify]
    have hkeys : ((objectKeys kvs).map fun k => (k, (kvs2.lookup k).getD JVal.null)).map Prod.fst
        = objectKeys kvs := by
      rw [List.map_map]
      exact List.map_id' (objectKeys kvs)
    cases hks : objectKeys kvs with
    | nil =>
      have := Txt.objNil [] (by intro c hc; cases hc)
      simpa [commaJoin] using this
    | cons k0 ks =>
      rw [← hks]
      have hm := txt_members
        ((objectKeys kvs).map fun k =>
          (k, ((stringifyProps kvs).lookup k).getD [], (kvs2.lookup k).getD JVal.null))
        (by rw [hks]; simp)
        (by
          intro e he
          obtain ⟨k, hk, rfl⟩ := List.mem_map.mp he
          obtain ⟨v, hv⟩ := mem_keys_of_lookup (mem_objectKeys.mp hk)
          obtain ⟨v2, hv2, ht, _⟩ := forall₂_lookup
            (fun v v2 => Txt (stringify v) (.val v2) ∧ toJs v2 = toJs v) h k hv
          simp only
          rw [stringifyProps_eq, lookup_map_snd, hv, hv2]
          exact ht)
      have := Txt.obj [] _ _ (by intro c hc; cases hc) hm
      rw [List.map_map, List.map_map] at this
      have hnd : (List.map Prod.fst (List.map ((fun e : JStr × JStr × JVal => (e.1, e.2.2)) ∘
          fun k => (k, ((stringifyProps kvs).lookup k).getD [], (kvs2.lookup k).getD JVal.null))
          (objectKeys kvs))).Nodup := by
        rw [List.map_map]
        have : (Prod.fst ∘ (fun e : JStr × JStr × JVal => (e.1, e.2.2)) ∘
          fun k => (k, ((stringifyProps kvs).lookup k).getD [], (kvs2.lookup k).getD JVal.null))
          = id := by
          funext k
          rfl
        rw [this, List.map_id]
        exact nodup_objectKeys hn
      rw [mkObject_of_nodup hnd] at this
      simpa using this
  · rw [toJs, toJs]
    have hkeys : ((objectKeys kvs).map fun k => (k, (kvs2.lookup k).getD JVal.null)).map Prod.fst
        = objectKeys kvs := by
      rw [List.map_map]
      exact List.map_id' (objectKeys kvs)
    rw [objectKeys_idem kvs _ hkeys]
    congr 1
    apply List.map_congr_left
    intro k hk
    obtain ⟨v, hv⟩ := mem_keys_of_lookup (mem_objectKeys.mp hk)
    obtain ⟨v2, hv2, _, hj⟩ := forall₂_lookup
      (fun v v2 => Txt (stringify v) (.val v2) ∧ toJs v2 = toJs v) h k hv
    rw [toJsProps_eq, toJsProps_eq, lookup_map_snd, lookup_map_snd, lookup_map_key _ _ hk, hv2,
      hv]
    simp [hj]

mutual
theorem stringify_parses : ∀ (v : JVal), Canon v → jsonNumbers v = true →
    ∃ v2, Txt (stringify v) (.val v2) ∧ toJs v2 = toJs v
  | .null, _, _ => ⟨.null, by rw [stringify]; exact Txt.null, rfl⟩
  | .bool true, _, _ => ⟨.bool true, by rw [stringify]; exact Txt.tru, rfl⟩
  | .bool false, _, _ => ⟨.bool false, by rw [stringify]; exact Txt.fls, rfl⟩
  | .num n, _, hj => by
    obtain ⟨n2, h1, h2⟩ := txt_serializeNumber n hj
    refine ⟨.num n2, by rw [stringify]; exact h1, ?_⟩
    rw [toJs, toJs, h2]
  | .str s, _, _ => ⟨.str s, by rw [stringify]; exact Txt.str _ s (strText_quoteBody s), rfl⟩
  | .arr vs, hc, hj => by
    rw [Canon] at hc
    rw [jsonNumbers] at hj
    obtain ⟨vs2, h⟩ := stringifyList_parses vs hc hj
    exact ⟨.arr vs2, txt_array h⟩
  | .obj kvs, hc, hj => by
    rw [Canon] at hc
    rw [jsonNumbers] at hj
    obtain ⟨kvs2, h⟩ := stringifyProps_parses kvs hc.2 hj
    obtain ⟨O2, h1, h2⟩ := txt_object hc.1 h
    exact ⟨.obj O2, h1, h2⟩
theorem stringifyList_parses : ∀ (vs : List JVal), CanonList vs → jsonNumbersList vs = true →
    ∃ vs2, List.Forall₂ (fun v v2 => Txt (stringify v) (.val v2) ∧ toJs v2 = toJs v) vs vs2
  | [], _, _ => ⟨[], List.Forall₂.nil⟩
  | v :: vs, hc, hj => by
    rw [CanonList] at hc
    rw [jsonNumbersList, Bool.and_eq_true] at hj
    obtain ⟨v2, h1⟩ := stringify_parses v hc.1 hj.1
    obtain ⟨vs2, h2⟩ := stringifyList_parses vs hc.2 hj.2
    exact ⟨v2 :: vs2, List.Forall₂.cons h1 h2⟩
theorem stringifyProps_parses : ∀ (kvs : Props), CanonProps kvs → jsonNumbersProps kvs = true →
    ∃ kvs2, List.Forall₂ (fun (p q : JStr × JVal) => q.1 = p.1 ∧
      (Txt (stringify p.2) (.val q.2) ∧ toJs q.2 = toJs p.2)) kvs kvs2
  | [], _, _ => ⟨[], List.Forall₂.nil⟩
  | p :: kvs, hc, hj => by
    rw [CanonProps] at hc
    rw [jsonNumbersProps, Bool.and_eq_true] at hj
    obtain ⟨v2, h1⟩ := stringify_parses p.2 hc.1 hj.1
    obtain ⟨kvs2, h2⟩ := stringifyProps_parses kvs hc.2 hj.2
    exact ⟨(p.1, v2) :: kvs2, List.Forall₂.cons ⟨rfl, h1⟩ h2⟩
end

theorem serializeNumber_no_nl (d : Dbl) : ∀ x ∈ serializeNumber d, x ≠ 10 := by
  intro x hx
  cases d with
  | infinite neg =>
    simp only [serializeNumber, List.mem_cons, List.mem_singleton, List.not_mem_nil,
      or_false] at hx
    omega
  | finite neg u =>
    simp only [serializeNumber] at hx
    split at hx
    · simp only [List.mem_singleton] at hx
      omega
    · rcases List.mem_append.mp hx with hx | hx
      · split at hx
        · simp only [List.mem_singleton] at hx
          omega
        · cases hx
      · exact (isNumChar_not_space (formatDecimal_chars _ _ x hx)).2.1

theorem mem_commaJoin {ts : List JStr} {x : Nat} (h : x ∈ commaJoin ts) :
    x = 44 ∨ ∃ t ∈ ts, x ∈ t := by
  induction ts with
  | nil => cases h
  | cons t ts ih =>
    cases ts with
    | nil =>
      simp only [commaJoin] at h
      exact Or.inr ⟨t, by simp, h⟩
    | cons u ts =>
      simp only [commaJoin, List.mem_append, List.mem_cons] at h
      rcases h with h | h | h
      · exact Or.inr ⟨t, by simp, h⟩
      · exact Or.inl h
      · rcases ih (by simpa [commaJoin] using h) with h1 | ⟨t2, ht2, hx⟩
        · exact Or.inl h1
        · exact Or.inr ⟨t2, List.mem_cons_of_mem _ ht2, hx⟩

theorem mem_of_lookup {β : Type} {l : List (JStr × β)} {k : JStr} {v : β}
    (h : l.lookup k = some v) : (k, v) ∈ l := by
  induction l with
  | nil => cases h
  | cons p l ih =>
    obtain ⟨k0, v0⟩ := p
    simp only [List.lookup_cons] at h
    cases hk : k == k0 with
    | true =>
      rw [hk] at h
      simp only [Option.some.injEq] at h
      have : k = k0 := by simpa using hk
      rw [this, h]
      exact List.mem_cons_self _ _
    | false =>
      rw [hk] at h
      exact List.mem_cons_of_mem _ (ih h)

mutual
theorem stringify_no_nl : ∀ (v : JVal), ∀ x ∈ stringify v, x ≠ 10
  | .null => by rw [stringify]; decide
  | .bool true => by rw [stringify]; decide
  | .bool false => by rw [stringify]; decide
  | .num n => by rw [stringify]; exact serializeNumber_no_nl _
  | .str s => by
    rw [stringify]
    intro x hx
    simp only [List.mem_cons, List.mem_append, List.mem_singleton, List.not_mem_nil,
      or_false] at hx
    rcases hx with rfl | hx | rfl
    · decide
    · exact quoteBody_no_nl s x hx
    · decide
  | .arr vs => by
    rw [stringify]
    intro x hx
    simp only [List.mem_cons, List.mem_append, List.mem_singleton, List.not_mem_nil,
      or_false] at hx
    rcases hx with rfl | hx | rfl
    · decide
    · rcases mem_commaJoin hx with rfl | ⟨t, ht, hxt⟩
      · decide
      · exact stringifyList_no_nl vs t ht x hxt
    · decide
  | .obj kvs => by
    rw [stringify]
    intro x hx
    simp only [List.mem_cons, List.mem_append, List.mem_singleton, List.not_mem_nil,
      or_false] at hx
    rcases hx with rfl | hx | rfl
    · decide
    · rcases mem_commaJoin hx with rfl | ⟨t, ht, hxt⟩
      · decide
      · obtain ⟨k, _, rfl⟩ := List.mem_map.mp ht
        simp only [List.mem_cons, List.mem_append] at hxt
        rcases hxt with rfl | hxt | rfl | rfl | hxt
        · decide
        · exact quoteBody_no_nl k x hxt
        · decide
        · decide
        · cases hl : (stringifyProps kvs).lookup k with
          | none => rw [hl] at hxt; cases hxt
          | some t =>
            rw [hl] at hxt
            exact stringifyProps_no_nl kvs (k, t) (mem_of_lookup hl) x hxt
    · decide
theorem stringifyList_no_nl : ∀ (vs : List JVal), ∀ t ∈ stringifyList vs, ∀ x ∈ t, x ≠ 10
  | [] => by rw [stringifyList]; intro t ht; cases ht
  | v :: vs => by
    rw [stringifyList]
    intro t ht
    rcases List.mem_cons.mp ht with rfl | ht
    · exact stringify_no_nl v
    · exact stringifyList_no_nl vs t ht
theorem stringifyProps_no_nl : ∀ (kvs : Props), ∀ e ∈ stringifyProps kvs, ∀ x ∈ e.2, x ≠ 10
  | [] => by rw [stringifyProps]; intro t ht; cases ht
  | p :: kvs => by
    rw [stringifyProps]
    intro e he
    rcases List.mem_cons.mp he with rfl | he
    · exact stringify_no_nl p.2
    · exact stringifyProps_no_nl kvs e he
end

theorem isZero_iff_toDouble (n : JNum) :
    n.isZero = true ↔ n.toDouble = .finite n.neg 0 := by
  rw [← decimalToUnits_eq_zero]
  unfold JNum.toDouble
  constructor
  · intro h
    rw [h, if_pos (two_pow_pos 2098)]
  · intro h
    by_cases hlt : decimalToUnits n.mant n.exp < 2 ^ 2098
    · rw [if_pos hlt] at h
      exact (Dbl.finite.inj h).2
    · rw [if_neg hlt] at h
      exact Dbl.noConfusion h

theorem toDouble_neg {n : JNum} {neg : Bool} {u : Nat} (h : n.toDouble = .finite neg u) :
    neg = n.neg := (toDouble_finite h).1

theorem isZero_of_toDouble {n m : JNum} (h : n.toDouble = m.toDouble) : n.isZero = m.isZero := by
  have h1 := isZero_iff_toDouble n
  have h2 := isZero_iff_toDouble m
  cases hn : n.isZero with
  | true =>
    have e1 := h1.mp hn
    rw [h] at e1
    rw [toDouble_neg e1] at e1
    exact (h2.mpr e1).symm
  | false =>
    cases hm : m.isZero with
    | false => rfl
    | true =>
      have e1 := h2.mp hm
      rw [← h] at e1
      rw [toDouble_neg e1] at e1
      rw [h1.mpr e1] at hn
      exact hn.symm

theorem truthy_of_toJs : ∀ {a b : JVal}, toJs a = toJs b → truthy a = truthy b
  | .null, .null, _ => rfl
  | .bool x, .bool y, h => by
    rw [toJs, toJs] at h
    rw [JsVal.bool.inj h]
  | .num n, .num m, h => by
    rw [toJs, toJs] at h
    simp only [truthy]
    rw [isZero_of_toDouble (JsVal.num.inj h)]
  | .str x, .str y, h => by
    rw [toJs, toJs] at h
    rw [JsVal.str.inj h]
  | .arr _, .arr _, _ => rfl
  | .obj _, .obj _, _ => rfl
  | .arr _, .obj _, _ => rfl
  | .obj _, .arr _, _ => rfl
  | .null, .bool _, h => by rw [toJs, toJs] at h; exact JsVal.noConfusion h
  | .null, .num _, h => by rw [toJs, toJs] at h; exact JsVal.noConfusion h
  | .null, .str _, h => by rw [toJs, toJs] at h; exact JsVal.noConfusion h
  | .null, .arr _, h => by rw [toJs, toJs] at h; exact JsVal.noConfusion h
  | .null, .obj _, h => by rw [toJs, toJs] at h; exact JsVal.noConfusion h
  | .bool _, .null, h => by rw [toJs, toJs] at h; exact JsVal.noConfusion h
  | .bool _, .num _, h => by rw [toJs, toJs] at h; exact JsVal.noConfusion h
  | .bool _, .str _, h => by rw [toJs, toJs] at h; exact JsVal.noConfusion h
  | .bool _, .arr _, h => by rw [toJs, toJs] at h; exact JsVal.noConfusion h
  | .bool _, .obj _, h => by rw [toJs, toJs] at h; exact JsVal.noConfusion h
  | .num _, .null, h => by rw [toJs, toJs] at h; exact JsVal.noConfusion h
  | .num _, .bool _, h => by rw [toJs, toJs] at h; exact JsVal.noConfusion h
  | .num _, .str _, h => by rw [toJs, toJs] at h; exact JsVal.noConfusion h
  | .num _, .arr _, h => by rw [toJs, toJs] at h; exact JsVal.noConfusion h
  | .num _, .obj _, h => by rw [toJs, toJs] at h; exact JsVal.noConfusion h
  | .str _, .null, h => by rw [toJs, toJs] at h; exact JsVal.noConfusion h
  | .str _, .bool _, h => by rw [toJs, toJs] at h; exact JsVal.noConfusion h
  | .str _, .num _, h => by rw [toJs, toJs] at h; exact JsVal.noConfusion h
  | .str _, .arr _, h => by rw [toJs, toJs] at h; exact JsVal.noConfusion h
  | .str _, .obj _, h => by rw [toJs, toJs] at h; exact JsVal.noConfusion h
  | .arr _, .null, h => by rw [toJs, toJs] at h; exact JsVal.noConfusion h
  | .arr _, .bool _, h => by rw [toJs, toJs] at h; exact JsVal.noConfusion h
  | .arr _, .num _, h => by rw [toJs, toJs] at h; exact JsVal.noConfusion h
  | .arr _, .str _, h => by rw [toJs, toJs] at h; exact JsVal.noConfusion h
  | .obj _, .null, h => by rw [toJs, toJs] at h; exact JsVal.noConfusion h
  | .obj _, .bool _, h => by rw [toJs, toJs] at h; exact JsVal.noConfusion h
  | .obj _, .num _, h => by rw [toJs, toJs] at h; exact JsVal.noConfusion h
  | .obj _, .str _, h => by rw [toJs, toJs] at h; exact JsVal.noConfusion h

theorem toJs_arr_inv : ∀ {v : JVal} {l : List JsVal}, toJs v = .arr l →
    ∃ xs, v = .arr xs ∧ xs.map toJs = l
  | .arr xs, l, h => by
    rw [toJs] at h
    exact ⟨xs, rfl, by rw [← toJsList_eq]; exact JsVal.arr.inj h⟩
  | .null, _, h => by rw [toJs] at h; exact JsVal.noConfusion h
  | .bool _, _, h => by rw [toJs] at h; exact JsVal.noConfusion h
  | .num _, _, h => by rw [toJs] at h; exact JsVal.noConfusion h
  | .str _, _, h => by rw [toJs] at h; exact JsVal.noConfusion h
  | .obj _, _, h => by rw [toJs] at h; exact JsVal.noConfusion h

theorem toJs_obj_inv : ∀ {v : JVal} {l : List (JStr × JsVal)}, toJs v = .obj l →
    ∃ kvs, v = .obj kvs
  | .obj kvs, _, _ => ⟨kvs, rfl⟩
  | .null, _, h => by rw [toJs] at h; exact JsVal.noConfusion h
  | .bool _, _, h => by rw [toJs] at h; exact JsVal.noConfusion h
  | .num _, _, h => by rw [toJs] at h; exact JsVal.noConfusion h
  | .str _, _, h => by rw [toJs] at h; exact JsVal.noConfusion h
  | .arr _, _, h => by rw [toJs] at h; exact JsVal.noConfusion h

theorem toJs_obj_keys {M M2 : Props} (h : toJs (.obj M2) = toJs (.obj M)) :
    objectKeys M2 = objectKeys M ∧
      ∀ k ∈ objectKeys M, ((M2.lookup k).map toJs).getD .null = ((M.lookup k).map toJs).getD .null := by
  rw [toJs, toJs] at h
  injection h with h
  have hk := congrArg (List.map Prod.fst) h
  rw [List.map_map, List.map_map] at hk
  have e1 : ∀ (P : Props), (Prod.fst ∘ fun k => (k, ((toJsProps P).lookup k).getD JsVal.null)) = id := by
    intro P
    funext k
    rfl
  rw [e1, e1, List.map_id, List.map_id] at hk
  refine ⟨hk, ?_⟩
  rw [hk] at h
  intro k hk2
  have := List.map_inj_left.mp h k hk2
  simp only [Prod.mk.injEq, true_and] at this
  rw [toJsProps_eq, toJsProps_eq, lookup_map_snd, lookup_map_snd] at this
  exact this

theorem toJs_single_obj {v2 : JVal} {M : Props} (h : toJs v2 = toJs (.arr [.obj M])) :
    ∃ M2, v2 = .arr [.obj M2] ∧ toJs (.obj M2) = toJs (.obj M) := by
  have e : toJs (.arr [.obj M]) = .arr [toJs (.obj M)] := by
    rw [toJs, toJsList, toJsList]
  rw [e] at h
  obtain ⟨xs, rfl, hxs⟩ := toJs_arr_inv h
  cases xs with
  | nil => cases hxs
  | cons x xs =>
    cases xs with
    | cons y ys => simp at hxs
    | nil =>
      simp only [List.map_cons, List.map_nil, List.cons.injEq, and_true] at hxs
      have hx := hxs
      rw [toJs] at hx
      obtain ⟨M2, rfl⟩ := toJs_obj_inv hx
      exact ⟨M2, rfl, hxs⟩

theorem reparsed_facts {M M2 : Props} (h : toJs (.obj M2) = toJs (.obj M))
    (h3 : M.lookup protoKey = none) (h4 : truthyOpt (M.lookup statusKey) = false)
    (hne : M ≠ []) :
    M2.lookup protoKey = none ∧ truthyOpt (M2.lookup statusKey) = false ∧ M2 ≠ [] := by
  obtain ⟨hk, hv⟩ := toJs_obj_keys h
  have hmem : ∀ k, k ∈ M2.map Prod.fst ↔ k ∈ M.map Prod.fst := by
    intro k
    rw [← mem_objectKeys, ← mem_objectKeys, hk]
  refine ⟨?_, ?_, ?_⟩
  · rw [lookup_eq_none_iff_keys, hmem, ← lookup_eq_none_iff_keys]
    exact h3
  · cases hs : M.lookup statusKey with
    | none =>
      have : M2.lookup statusKey = none := by
        rw [lookup_eq_none_iff_keys, hmem, ← lookup_eq_none_iff_keys]
        exact hs
      rw [this]
      rfl
    | some v =>
      have hin : statusKey ∈ M.map Prod.fst := mem_keys_iff_lookup.mpr ⟨v, hs⟩
      obtain ⟨w, hw⟩ := mem_keys_iff_lookup.mp ((hmem statusKey).mpr hin)
      have := hv statusKey (mem_objectKeys.mpr hin)
      rw [hw, hs] at this
      simp only [Option.map_some', Option.getD_some] at this
      rw [hs] at h4
      rw [hw]
      simp only [truthyOpt] at h4 ⊢
      rw [truthy_of_toJs this]
      exact h4
  · intro e
    have h1 := length_objectKeys M2
    have h2 := length_objectKeys M
    rw [hk, h2, e] at h1
    exact hne (List.length_eq_zero.mp h1)

/-! ### Seventeen digits suffice -/

theorem roundUnits_at {A b j g T : Nat} (hb : 0 < b) (hF : A / b < 2 ^ 2100)
    (hj : lastPlace (A / b) = j) (hT : T = g * (b * 2 ^ j))
    (h1 : 2 * T < 2 * A + b * 2 ^ j) (h2 : 2 * A < 2 * T + b * 2 ^ j) :
    roundUnits A b = g * 2 ^ j := by
  rw [roundUnits_of_lt hF, hj]
  have hB : 0 < b * 2 ^ j := Nat.mul_pos hb (two_pow_pos j)
  have hdm := Nat.div_add_mod A (b * 2 ^ j)
  have hr := Nat.mod_lt A hB
  generalize b * 2 ^ j = B at *
  generalize A / B = f at *
  generalize A % B = r at *
  have hfg : f = g ∨ f + 1 = g := by
    by_cases c1 : g + 1 ≤ f
    · exfalso
      have := Nat.mul_le_mul_right B c1
      rw [Nat.add_mul, Nat.one_mul, ← hT, Nat.mul_comm f B] at this
      omega
    · by_cases c2 : f + 2 ≤ g
      · exfalso
        have := Nat.mul_le_mul_right B c2
        rw [Nat.add_mul, ← hT, Nat.mul_comm f B] at this
        omega
      · omega
  rcases hfg with h | h
  · subst h
    have e : B * f = T := by rw [hT, Nat.mul_comm]
    rw [if_neg]
    omega
  · subst h
    have e : B * f + B = T := by rw [hT, Nat.add_mul, Nat.one_mul, Nat.mul_comm]
    rw [if_pos]
    left
    omega

theorem div_lt_of_lt_mul {A b c : Nat} (h : A < c * b) : A / b < c := by
  rw [Nat.mul_comm] at h
  exact Nat.div_lt_of_lt_mul h

theorem le_div_of_mul_le {A b c : Nat} (hb : 0 < b) (h : c * b ≤ A) : c ≤ A / b :=
  (Nat.le_div_iff_mul_le hb).mpr h

/-- A quotient within one part in `2 * 10^16` of a double rounds to that
double. -/
theorem roundUnits_near {u A b : Nat} (hu : IsDouble u) (h0 : 0 < u) (hlt : u < 2 ^ 2098)
    (hb : 0 < b) (H1 : 20000000000000000 * A ≤ 20000000000000001 * (u * b))
    (H2 : 19999999999999999 * (u * b) ≤ 20000000000000000 * A) : roundUnits A b = u := by
  have hA2 : A < 2 * u * b := by
    have : 0 < u * b := Nat.mul_pos h0 hb
    rw [Nat.mul_assoc]
    omega
  have hF : A / b < 2 ^ 2100 := by
    have h3 : A / b < 2 * u := div_lt_of_lt_mul hA2
    have h4 : 2 * u < 2 ^ 2100 := by
      have : 2 ^ 2100 = 4 * 2 ^ 2098 := by
        rw [show 2100 = 2098 + 2 by rfl, Nat.pow_add]
        ring
      omega
    omega
  rcases hu with h53 | ⟨g, j, hj, hg1, hg2, rfl⟩
  · have hT : u * b + b ≤ 2 ^ 53 * b := by
      have := Nat.mul_le_mul_right b (show u + 1 ≤ 2 ^ 53 by omega)
      rw [Nat.add_mul, Nat.one_mul] at this
      exact this
    have hk : (2 : Nat) ^ 53 = 9007199254740992 := by decide
    rw [hk] at hT
    have hlp : lastPlace (A / b) = 0 := by
      apply lastPlace_of_lt
      have : A < 2 ^ 53 * b := by rw [hk]; omega
      exact div_lt_of_lt_mul this
    have := @roundUnits_at A b 0 u (u * b) hb hF hlp (by simp) (by simp; omega) (by simp; omega)
    simpa using this
  · have hk52 : (2 : Nat) ^ 52 = 4503599627370496 := by decide
    have hk53 : (2 : Nat) ^ 53 = 9007199254740992 := by decide
    have hB : 0 < b * 2 ^ j := Nat.mul_pos hb (two_pow_pos j)
    have hT : g * 2 ^ j * b = g * (b * 2 ^ j) := by ring
    rw [hT] at H1 H2
    have hTlo : 2 ^ 52 * (b * 2 ^ j) ≤ g * (b * 2 ^ j) := Nat.mul_le_mul_right _ hg1
    have hThi : g * (b * 2 ^ j) + b * 2 ^ j ≤ 2 ^ 53 * (b * 2 ^ j) := by
      have := Nat.mul_le_mul_right (b * 2 ^ j) (show g + 1 ≤ 2 ^ 53 by omega)
      rw [Nat.add_mul, Nat.one_mul] at this
      exact this
    rw [hk52] at hTlo
    rw [hk53] at hThi
    have e52 : ∀ m, 2 ^ (52 + m) * b = 4503599627370496 * (b * 2 ^ m) := by
      intro m
      rw [Nat.pow_add, hk52]; ring
    have e53 : ∀ m, 2 ^ (53 + m) * b = 9007199254740992 * (b * 2 ^ m) := by
      intro m
      rw [Nat.pow_add, hk53]; ring
    by_cases hcase : 4503599627370496 * (b * 2 ^ j) ≤ A
    · have hlp : lastPlace (A / b) = j := by
        apply lastPlace_unique hj _ _ hF
        · apply le_div_of_mul_le hb
          rw [e52]
          exact hcase
        · apply div_lt_of_lt_mul
          rw [e53]
          omega
      exact @roundUnits_at A b j g (g * (b * 2 ^ j)) hb hF hlp rfl (by omega) (by omega)
    · have hg : g = 2 ^ 52 := by
        have h3 : g * (b * 2 ^ j) < (4503599627370496 + 1) * (b * 2 ^ j) := by
          rw [Nat.add_mul, Nat.one_mul]
          omega
        have := Nat.lt_of_mul_lt_mul_right h3
        omega
      subst hg
      obtain ⟨i, rfl⟩ : ∃ i, j = i + 1 := ⟨j - 1, by omega⟩
      have hB2 : b * 2 ^ (i + 1) = 2 * (b * 2 ^ i) := by rw [Nat.pow_succ]; ring
      rw [hB2] at H1 H2 hcase
      rw [hk52] at H1 H2
      have hlp : lastPlace (A / b) = i := by
        by_cases hi : i = 0
        · subst hi
          apply lastPlace_of_lt
          apply div_lt_of_lt_mul
          rw [hk53]
          simp only [Nat.pow_zero, Nat.mul_one] at hcase
          omega
        · apply lastPlace_unique (by omega) _ _ hF
          · apply le_div_of_mul_le hb
            rw [e52]
            omega
          · apply div_lt_of_lt_mul
            rw [e53]
            omega
      have := @roundUnits_at A b i (2 ^ 53) (9007199254740992 * (b * 2 ^ i)) hb hF hlp
        (by rw [hk53]) (by omega) (by omega)
      rw [this]
      simp only [hk52, hk53, Nat.pow_succ]
      ring

/-- The number of decimal digits of a positive number. -/
theorem natDigits_length_spec (n : Nat) (h : 0 < n) :
    10 ^ ((natDigits n).length - 1) ≤ n ∧ n < 10 ^ (natDigits n).length := by
  induction n using Nat.strong_induction_on with
  | _ n ih =>
    by_cases h10 : n < 10
    · rw [natDigits_lt h10]
      simp only [List.length_singleton, Nat.sub_self, Nat.pow_zero, Nat.pow_one]
      omega
    · rw [natDigits_ge (by omega), List.length_append, List.length_singleton, Nat.add_sub_cancel]
      obtain ⟨a, b⟩ := ih (n / 10) (by omega) (by omega)
      have hl := natDigits_length_pos (n / 10)
      obtain ⟨m, hm⟩ : ∃ m, (natDigits (n / 10)).length = m + 1 := ⟨_, (Nat.succ_pred_eq_of_pos hl).symm⟩
      rw [hm] at a b ⊢
      simp only [Nat.add_sub_cancel] at a
      rw [Nat.pow_succ] at b ⊢
      rw [Nat.pow_succ]
      omega

/-- Rounding depends on the quotient only. -/
theorem roundUnits_scale (A b : Nat) {c : Nat} (hc : 0 < c) :
    roundUnits (A * c) (b * c) = roundUnits A b := by
  have hF : A * c / (b * c) = A / b := Nat.mul_div_mul_right A b hc
  unfold roundUnits
  rw [hF]
  by_cases hs : 2 ^ 2100 ≤ A / b
  · rw [if_pos hs, if_pos hs]
  · rw [if_neg hs, if_neg hs]
    simp only
    have e1 : b * c * 2 ^ lastPlace (A / b) = b * 2 ^ lastPlace (A / b) * c := by ring
    rw [e1, Nat.mul_div_mul_right _ _ hc, Nat.mul_mod_mul_right]
    have c1 : (2 * (A % (b * 2 ^ lastPlace (A / b)) * c) > b * 2 ^ lastPlace (A / b) * c) ↔
        (2 * (A % (b * 2 ^ lastPlace (A / b))) > b * 2 ^ lastPlace (A / b)) := by
      rw [← Nat.mul_assoc]
      exact Nat.mul_lt_mul_right hc
    have c2 : (2 * (A % (b * 2 ^ lastPlace (A / b)) * c) = b * 2 ^ lastPlace (A / b) * c) ↔
        (2 * (A % (b * 2 ^ lastPlace (A / b))) = b * 2 ^ lastPlace (A / b)) := by
      rw [← Nat.mul_assoc]
      exact Nat.mul_left_inj (Nat.pos_iff_ne_zero.mp hc)
    simp only [c1, c2]

/-- A candidate is chosen as soon as one of the two neighbours reads back. -/
theorem pickDecimal_isSome {u : Nat} {lo hi : Nat × Int} (b : Bool)
    (h : decimalToUnits lo.1 lo.2 = u ∨ decimalToUnits hi.1 hi.2 = u) :
    ∃ sp, pickDecimal u lo hi b = some sp := by
  unfold pickDecimal
  by_cases h1 : decimalToUnits lo.1 lo.2 = u
  · rw [if_pos h1]
    split
    · exact ⟨_, rfl⟩
    · exact ⟨_, rfl⟩
  · rw [if_neg h1]
    rcases h with h | h
    · exact absurd h h1
    · rw [if_pos h]
      exact ⟨_, rfl⟩

/-- The rounded-up quotient used by `decimalExponent` below one. -/
theorem ceilDiv_bounds {T u : Nat} (h0 : 0 < u) (hT : u < T) :
    T ≤ u * ((T + u - 1) / u) ∧ u * ((T + u - 1) / u - 1) < T ∧ 0 < (T + u - 1) / u - 1 := by
  have e := Nat.div_add_mod (T + u - 1) u
  have r := Nat.mod_lt (T + u - 1) h0
  have h1 : T ≤ u * ((T + u - 1) / u) := by omega
  have h2 : u * ((T + u - 1) / u - 1) < T := by
    rw [Nat.mul_sub, Nat.mul_one]
    omega
  refine ⟨h1, h2, ?_⟩
  by_contra hc
  have hc1 : (T + u - 1) / u ≤ 1 := by omega
  have := Nat.mul_le_mul_left u hc1
  omega

/-- With seventeen digits the scaled magnitude lies between `10^16` and
`10^17`. -/
theorem seventeen_bounds {u : Nat} (h0 : 0 < u) (p : Int) (hp : p = decimalExponent u - 16) :
    10 ^ 16 * (2 ^ 1074 * 10 ^ p.toNat) ≤ u * 10 ^ (-p).toNat ∧
      u * 10 ^ (-p).toNat < 10 ^ 17 * (2 ^ 1074 * 10 ^ p.toNat) := by
  unfold decimalExponent at hp
  have hT : 0 < 2 ^ 1074 := two_pow_pos 1074
  generalize 2 ^ 1074 = T at hp hT ⊢
  by_cases hu : T ≤ u
  · rw [if_pos hu] at hp
    have hq : 0 < u / T := Nat.div_pos hu hT
    obtain ⟨a, b⟩ := natDigits_length_spec (u / T) hq
    obtain ⟨m, hm⟩ : ∃ m, (natDigits (u / T)).length = m + 1 :=
      ⟨_, (Nat.succ_pred_eq_of_pos (natDigits_length_pos _)).symm⟩
    rw [hm] at a b hp
    simp only [Nat.add_sub_cancel] at a
    have e := Nat.div_add_mod u T
    have r := Nat.mod_lt u hT
    have h1 : 10 ^ m * T ≤ u := by
      have := Nat.mul_le_mul_right T a
      rw [Nat.mul_comm (u / T) T] at this
      omega
    have h2 : u < 10 ^ (m + 1) * T := by
      have := Nat.mul_le_mul_right T (show u / T + 1 ≤ 10 ^ (m + 1) from b)
      rw [Nat.add_mul, Nat.mul_comm (u / T) T] at this
      omega
    by_cases hm16 : 16 ≤ m
    · obtain ⟨d, rfl⟩ : ∃ d, m = 16 + d := ⟨m - 16, by omega⟩
      have p1 : p.toNat = d := by omega
      have p2 : (-p).toNat = 0 := by omega
      rw [p1, p2, Nat.pow_zero, Nat.mul_one]
      constructor
      · calc 10 ^ 16 * (T * 10 ^ d) = 10 ^ (16 + d) * T := by ring
          _ ≤ u := h1
      · calc u < 10 ^ (16 + d + 1) * T := h2
          _ = 10 ^ 17 * (T * 10 ^ d) := by ring
    · obtain ⟨d, hd⟩ : ∃ d, m + d = 16 := ⟨16 - m, by omega⟩
      have p1 : p.toNat = 0 := by omega
      have p2 : (-p).toNat = d := by omega
      rw [p1, p2, Nat.pow_zero, Nat.mul_one]
      have hd0 : 0 < 10 ^ d := ten_pow_pos d
      constructor
      · calc 10 ^ 16 * T = 10 ^ (m + d) * T := by rw [hd]
          _ = 10 ^ m * T * 10 ^ d := by ring
          _ ≤ u * 10 ^ d := Nat.mul_le_mul_right _ h1
      · calc u * 10 ^ d < 10 ^ (m + 1) * T * 10 ^ d := Nat.mul_lt_mul_of_pos_right h2 hd0
          _ = 10 ^ (m + d + 1) * T := by ring
          _ = 10 ^ 17 * T := by rw [hd]
  · rw [if_neg hu] at hp
    obtain ⟨c1, c2, c3⟩ := ceilDiv_bounds h0 (show u < T by omega)
    generalize (T + u - 1) / u = c at hp c1 c2 c3
    obtain ⟨a, b⟩ := natDigits_length_spec (c - 1) c3
    obtain ⟨m, hm⟩ : ∃ m, (natDigits (c - 1)).length = m + 1 :=
      ⟨_, (Nat.succ_pred_eq_of_pos (natDigits_length_pos _)).symm⟩
    rw [hm] at a b hp
    simp only [Nat.add_sub_cancel] at a
    have p1 : p.toNat = 0 := by omega
    have p2 : (-p).toNat = m + 17 := by omega
    rw [p1, p2, Nat.pow_zero, Nat.mul_one]
    constructor
    · calc 10 ^ 16 * T ≤ 10 ^ 16 * (u * c) := Nat.mul_le_mul_left _ c1
        _ ≤ 10 ^ 16 * (u * 10 ^ (m + 1)) :=
          Nat.mul_le_mul_left _ (Nat.mul_le_mul_left _ (by omega))
        _ = u * 10 ^ (m + 17) := by ring
    · calc u * 10 ^ (m + 17) = u * 10 ^ m * 10 ^ 17 := by ring
        _ ≤ u * (c - 1) * 10 ^ 17 := Nat.mul_le_mul_right _ (Nat.mul_le_mul_left _ a)
        _ < T * 10 ^ 17 := Nat.mul_lt_mul_of_pos_right c2 (ten_pow_pos 17)
        _ = 10 ^ 17 * T := Nat.mul_comm _ _

/-- The seventeen-digit decimal nearest to a double reads back as that
double. -/
theorem nearest_decimal {u : Nat} (hu : IsDouble u) (h0 : 0 < u) (hlt : u < 2 ^ 2098) (p : Int)
    (hlo : 10 ^ 16 * (2 ^ 1074 * 10 ^ p.toNat) ≤ u * 10 ^ (-p).toNat) :
    (2 * (u * 10 ^ (-p).toNat % (2 ^ 1074 * 10 ^ p.toNat)) ≤ 2 ^ 1074 * 10 ^ p.toNat →
        decimalToUnits (u * 10 ^ (-p).toNat / (2 ^ 1074 * 10 ^ p.toNat)) p = u) ∧
      (2 ^ 1074 * 10 ^ p.toNat ≤ 2 * (u * 10 ^ (-p).toNat % (2 ^ 1074 * 10 ^ p.toNat)) →
        decimalToUnits (u * 10 ^ (-p).toNat / (2 ^ 1074 * 10 ^ p.toNat) + 1) p = u) := by
  have hb : 0 < 10 ^ (-p).toNat := ten_pow_pos _
  have e := Nat.div_add_mod (u * 10 ^ (-p).toNat) (2 ^ 1074 * 10 ^ p.toNat)
  have hr := Nat.mod_lt (u * 10 ^ (-p).toNat)
    (show 0 < 2 ^ 1074 * 10 ^ p.toNat from Nat.mul_pos (two_pow_pos 1074) (ten_pow_pos _))
  have k16 : (10 : Nat) ^ 16 = 10000000000000000 := by norm_num
  rw [k16] at hlo
  constructor
  · intro h
    unfold decimalToUnits
    have eA : u * 10 ^ (-p).toNat / (2 ^ 1074 * 10 ^ p.toNat) * 10 ^ p.toNat * 2 ^ 1074 =
        2 ^ 1074 * 10 ^ p.toNat * (u * 10 ^ (-p).toNat / (2 ^ 1074 * 10 ^ p.toNat)) := by ring
    rw [eA]
    clear eA
    generalize 2 ^ 1074 * 10 ^ p.toNat * (u * 10 ^ (-p).toNat / (2 ^ 1074 * 10 ^ p.toNat)) = A
      at e ⊢
    generalize u * 10 ^ (-p).toNat % (2 ^ 1074 * 10 ^ p.toNat) = r at e h hr
    generalize 2 ^ 1074 * 10 ^ p.toNat = Y at e h hlo hr
    apply roundUnits_near hu h0 hlt hb
    · omega
    · omega
  · intro h
    unfold decimalToUnits
    have eA : (u * 10 ^ (-p).toNat / (2 ^ 1074 * 10 ^ p.toNat) + 1) * 10 ^ p.toNat * 2 ^ 1074 =
        2 ^ 1074 * 10 ^ p.toNat * (u * 10 ^ (-p).toNat / (2 ^ 1074 * 10 ^ p.toNat)) +
          2 ^ 1074 * 10 ^ p.toNat := by ring
    rw [eA]
    clear eA
    generalize 2 ^ 1074 * 10 ^ p.toNat * (u * 10 ^ (-p).toNat / (2 ^ 1074 * 10 ^ p.toNat)) = A
      at e ⊢
    generalize u * 10 ^ (-p).toNat % (2 ^ 1074 * 10 ^ p.toNat) = r at e h hr
    generalize 2 ^ 1074 * 10 ^ p.toNat = Y at e h hlo hr ⊢
    apply roundUnits_near hu h0 hlt hb
    · omega
    · omega

/-- The decimal `1 * 10^(p + 17)` has the value of `10^17 * 10^p`. -/
theorem decimalToUnits_carry (p : Int) :
    decimalToUnits 1 (p + 17) = decimalToUnits (10 ^ 17) p := by
  unfold decimalToUnits
  by_cases h1 : 0 ≤ p
  · have a1 : (p + 17).toNat = p.toNat + 17 := by omega
    have a2 : (-(p + 17)).toNat = 0 := by omega
    have a4 : (-p).toNat = 0 := by omega
    have eA : 1 * 10 ^ (p.toNat + 17) * 2 ^ 1074 = 10 ^ 17 * 10 ^ p.toNat * 2 ^ 1074 := by ring
    rw [a1, a2, a4, eA]
  · by_cases h2 : p ≤ -17
    · obtain ⟨d, hd⟩ : ∃ d : Nat, (-p).toNat = d + 17 := ⟨(-p).toNat - 17, by omega⟩
      have a1 : (p + 17).toNat = 0 := by omega
      have a2 : (-(p + 17)).toNat = d := by omega
      have a3 : p.toNat = 0 := by omega
      have eA : 10 ^ 17 * 10 ^ 0 * 2 ^ 1074 = 1 * 10 ^ 0 * 2 ^ 1074 * 10 ^ 17 := by ring
      have eb : 10 ^ (d + 17) = 10 ^ d * 10 ^ 17 := by ring
      rw [a1, a2, a3, hd, eA, eb]
      exact (roundUnits_scale _ _ (ten_pow_pos 17)).symm
    · obtain ⟨d, hd⟩ : ∃ d : Nat, (-p).toNat = d := ⟨_, rfl⟩
      obtain ⟨m, hm⟩ : ∃ m : Nat, (p + 17).toNat = m := ⟨_, rfl⟩
      have hmd : m + d = 17 := by omega
      have a2 : (-(p + 17)).toNat = 0 := by omega
      have a3 : p.toNat = 0 := by omega
      have eA : 10 ^ 17 * 10 ^ 0 * 2 ^ 1074 = 1 * 10 ^ m * 2 ^ 1074 * 10 ^ d := by
        rw [← hmd]
        ring
      have eb : 10 ^ d = 10 ^ 0 * 10 ^ d := by ring
      rw [hm, a2, a3, hd, eA]
      nth_rewrite 2 [eb]
      exact (roundUnits_scale _ _ (ten_pow_pos d)).symm

/-- Seventeen digits always yield a candidate. -/
theorem candidate_seventeen {u : Nat} (hu : IsDouble u) (h0 : 0 < u) (hlt : u < 2 ^ 2098) :
    ∃ sp, candidate u 17 = some sp := by
  have hp : decimalExponent u - ((17 : Nat) : Int) + 1 = decimalExponent u - 16 := by
    norm_num
    ring
  obtain ⟨b1, -⟩ := seventeen_bounds h0 _ hp
  obtain ⟨n1, n2⟩ := nearest_decimal hu h0 hlt _ b1
  unfold candidate
  simp only
  apply pickDecimal_isSome
  by_cases hr : 2 * (u * 10 ^ (-(decimalExponent u - ((17 : Nat) : Int) + 1)).toNat %
      (2 ^ 1074 * 10 ^ (decimalExponent u - ((17 : Nat) : Int) + 1).toNat)) ≤
      2 ^ 1074 * 10 ^ (decimalExponent u - ((17 : Nat) : Int) + 1).toNat
  · exact Or.inl (n1 hr)
  · right
    have n3 := n2 (by omega)
    split
    · rename_i hc
      simp only
      have : (((17 : Nat) : Int)) = 17 := rfl
      rw [this, decimalToUnits_carry, ← hc]
      exact n3
    · exact n3

/-- The search of `shortestDecimal` succeeds within seventeen digits for every
positive finite double; the default at its end is not taken. -/
theorem shortestDecimal_found {u : Nat} (hu : IsDouble u) (h0 : 0 < u) (hlt : u < 2 ^ 2098) :
    ((List.range 17).findSome? fun i => candidate u (i + 1)) = some (shortestDecimal u) := by
  unfold shortestDecimal
  cases h : (List.range 17).findSome? fun i => candidate u (i + 1) with
  | some sp => rfl
  | none =>
    exfalso
    rw [List.findSome?_eq_none_iff] at h
    obtain ⟨sp, hsp⟩ := candidate_seventeen hu h0 hlt
    have := h 16 (by simp)
    simp only at this
    rw [hsp] at this
    exact Option.noConfusion this

/-! ### Claim C1 -/

/-- C1 counterexample. -/
theorem normalize_array_counterexample :
    JSONparse (js "[\x7b\"Go\":\x7b\"semantic_similarity\":\x7b\"score\":0.6,\"evidence\":\"\x7d\x7b\"\x7d\x7d\x7d]")
      = some (.arr [.obj [(js "Go", .obj [(js "semantic_similarity",
          .obj [(js "score", .num ⟨false, 6, -1⟩), (js "evidence", .str (js "\x7d\x7b"))])])]]) ∧
    (∀ it ∈ [JVal.obj [(js "Go", .obj [(js "semantic_similarity",
          .obj [(js "score", .num ⟨false, 6, -1⟩), (js "evidence", .str (js "\x7d\x7b"))])])]],
      isSkillObject it = true) ∧
    ¬ MergesAll
      (js "[\x7b\"Go\":\x7b\"semantic_similarity\":\x7b\"score\":0.6,\"evidence\":\"\x7d\x7b\"\x7d\x7d\x7d]")
      [.obj [(js "Go", .obj [(js "semantic_similarity",
          .obj [(js "score", .num ⟨false, 6, -1⟩), (js "evidence", .str (js "\x7d\x7b"))])])]] := by
  refine ⟨by decide, by decide, ?_⟩
  rintro ⟨M, hM, _, hv⟩
  have hn : normalize
      (js "[\x7b\"Go\":\x7b\"semantic_similarity\":\x7b\"score\":0.6,\"evidence\":\"\x7d\x7b\"\x7d\x7d\x7d]")
      = .ok [(js "Go", .obj [(js "semantic_similarity",
          .obj [(js "score", .num ⟨false, 6, -1⟩), (js "evidence", .str (js "\x7d,\x7b"))])])] := by
    decide
  rw [hn] at hM
  injection hM with hM
  subst hM
  have := (hv (js "Go") (.obj [(js "semantic_similarity",
      .obj [(js "score", .num ⟨false, 6, -1⟩), (js "evidence", .str (js "\x7d\x7b"))])])).mpr
    ⟨[], _, [], rfl, by decide, by simp⟩
  exact absurd this (by decide)

/-- C1 (as amended): a raw text that `JSON.parse` accepts as an array of one
or more objects, none with a `status` or `__proto__` key and at least one
with a key, and in which (newlines removed) no closing brace is directly
followed by an opening brace, normalises to the merge of the objects: the
keys are the union of the objects' keys and each key has the value given by
the last object that has it. -/
theorem normalize_array (raw : JStr) (items : List JVal)
    (hp : JSONparse raw = some (.arr items))
    (hs : ∀ it ∈ items, isSkillObject it = true)
    (hproto : ∀ it ∈ items, valueIn it protoKey = none)
    (hne : ∃ it ∈ items, keysOf it ≠ [])
    (hsm : hasSmash (removeNewlines raw) = false) :
    MergesAll raw items := by
  obtain ⟨w1, c, w2, _, _, _, hc⟩ := txt_of_JSONparse hp
  exact mergesAll_of_plain (JSONparse_cleanText hp hsm) (trim_ne_nil_of_parse hp)
    (plain_of_parse hc hs hproto) hne

/-- C1 witness. -/
theorem normalize_array_witness :
    MergesAll
      (js " [\x7b\"Go\":\x7b\"semantic_similarity\":\x7b\"score\":0.6\x7d\x7d\x7d,\n \x7b\"Rust\":\x7b\"semantic_similarity\":\x7b\"score\":0.3\x7d\x7d,\"Go\":\x7b\"semantic_similarity\":\x7b\"score\":0.9\x7d\x7d\x7d ]\n")
      [.obj [(js "Go", .obj [(js "semantic_similarity", .obj [(js "score", .num ⟨false, 6, -1⟩)])])],
       .obj [(js "Rust", .obj [(js "semantic_similarity", .obj [(js "score", .num ⟨false, 3, -1⟩)])]),
             (js "Go", .obj [(js "semantic_similarity", .obj [(js "score", .num ⟨false, 9, -1⟩)])])]] :=
  normalize_array _ _ (by decide) (by decide) (by decide) (by decide) (by decide)

/-! ### Claim C2 -/

/-- C2: a raw text made only of spaces, tabs and newlines (the empty text
included) fails with `EmptyResponse`; the test is on `rawText.trim()` alone,
before the text is sanitised, wrapped or parsed. -/
theorem normalize_blank (raw : JStr) (h : ∀ c ∈ raw, c = 32 ∨ c = 9 ∨ c = 10) :
    trim raw = [] ∧ normalize raw = .error .emptyResponse := by
  have ht : trim raw = [] := by
    apply trim_eq_nil_of_all
    intro c hc
    rcases h c hc with rfl | rfl | rfl <;> decide
  exact ⟨ht, by simp [normalize, ht]⟩

/-- C2 witness: a space, a tab, a newline and a space. -/
theorem normalize_blank_witness :
    trim (js " \t\n ") = [] ∧ normalize (js " \t\n ") = .error .emptyResponse :=
  normalize_blank (js " \t\n ") (by decide)

/-! ### Claim C3 -/

/-- C3 (defect of line 103): on two status objects written back-to-back, the
second with the empty string as its status, `normalize` does not fail with
`NoAnalysisData`; the second object is merged, and the mapping with the
single key `status` is returned. -/
theorem normalize_merges_empty_status :
    (∀ p ∈ [(js "\x7b\"status\":\"parsing\"\x7d", JVal.obj [(statusKey, .str (js "parsing"))]),
            (js "\x7b\"status\":\"\"\x7d", JVal.obj [(statusKey, .str [])])],
      ObjectText p.1 p.2 ∧ ∃ sv, p.2 = .obj [(statusKey, sv)]) ∧
    normalize (js "\x7b\"status\":\"parsing\"\x7d" ++ js "\x7b\"status\":\"\"\x7d")
      = .ok [(statusKey, .str [])] ∧
    normalize (js "\x7b\"status\":\"parsing\"\x7d" ++ js "\x7b\"status\":\"\"\x7d")
      ≠ .error .noAnalysisData := by
  refine ⟨?_, by decide, by decide⟩
  intro p hp
  simp only [List.mem_cons, List.mem_singleton, List.not_mem_nil, or_false] at hp
  rcases hp with rfl | rfl
  · exact ⟨⟨by decide, by decide, by decide⟩, _, rfl⟩
  · exact ⟨⟨by decide, by decide, by decide⟩, _, rfl⟩

/-! ### Claim C4 -/

/-- C4 (defect of line 103): the raw text `{"Go":1}{"status":""}` is parsed
as a skill object and an element that carries a `status` key; the fold does
not skip that element but merges it, so the result has the key `status` and
differs from the fold of the sequence without the element. -/
theorem foldItems_merges_empty_status :
    JSONparse (cleanText (js "\x7b\"Go\":1\x7d\x7b\"status\":\"\"\x7d")) =
      some (.arr [.obj [(js "Go", .num ⟨false, 1, 0⟩)], .obj [(js "status", .str [])]]) ∧
    hasStatusKey (.obj [(js "status", .str [])]) = true ∧
    foldItems [JVal.obj [(js "Go", .num ⟨false, 1, 0⟩)], .obj [(js "status", .str [])]]
        Target.empty
      = .ok ⟨[(js "Go", .num ⟨false, 1, 0⟩), (js "status", .str [])], false⟩ ∧
    foldItems ([JVal.obj [(js "Go", .num ⟨false, 1, 0⟩)], .obj [(js "status", .str [])]].filter
        fun it => !hasStatusKey it) Target.empty
      = .ok ⟨[(js "Go", .num ⟨false, 1, 0⟩)], false⟩ := by
  decide

/-! ### Claim C5 -/

/-- C5: `normalize` returns no empty mapping, and when the fold ends with no
key it fails with `NoAnalysisData`. -/
theorem normalize_nonempty (raw : JStr) :
    (∀ M, normalize raw = .ok M → M ≠ []) ∧
    (∀ v t, trim raw ≠ [] → JSONparse (cleanText raw) = some v → collect v = .ok t →
      t.props = [] → normalize raw = .error .noAnalysisData) := by
  constructor
  · intro M h
    unfold normalize at h
    split at h
    · cases h
    · split at h
      · cases h
      · split at h
        · cases h
        · split at h
          · cases h
          · next hl =>
            injection h with h
            subst h
            intro e
            rw [e] at hl
            exact hl rfl
  · intro v t ht hp hc he
    simp [normalize, ht, hp, hc, he]

/-- C5 witness: a lone status message leaves the fold without a key. -/
theorem normalize_nonempty_witness :
    normalize (js "\x7b\"status\":\"done\"\x7d") = .error .noAnalysisData :=
  (normalize_nonempty (js "\x7b\"status\":\"done\"\x7d")).2
    (.arr [.obj [(js "status", .str (js "done"))]]) Target.empty
    (by decide) (by decide) (by decide) (by decide)

/-! ### Claim C6 -/

/-- C6 counterexample: on `[null]` the read of `item.status` throws a
`TypeError`, which is none of the three kinds. -/
theorem normalize_null_counterexample :
    ¬ ((∃ M, normalize (js "[null]") = .ok M) ∨
      normalize (js "[null]") = .error .emptyResponse ∨
      normalize (js "[null]") = .error .malformedJson ∨
      normalize (js "[null]") = .error .noAnalysisData) := by
  have h : normalize (js "[null]") = .error .typeError := by decide
  rw [h]
  simp

/-- C6 (as amended): on every raw text `normalize` returns a mapping or fails
with `EmptyResponse`, `MalformedJson`, `NoAnalysisData` or the `TypeError` of
reading `status` on `null`; the last happens exactly when the text is not
blank and the parsed array has a `null` element. -/
theorem normalize_total (raw : JStr) :
    ((∃ M, normalize raw = .ok M) ∨ normalize raw = .error .emptyResponse ∨
      normalize raw = .error .malformedJson ∨ normalize raw = .error .noAnalysisData ∨
      normalize raw = .error .typeError) ∧
    (normalize raw = .error .typeError ↔
      trim raw ≠ [] ∧ ∃ items, JSONparse (cleanText raw) = some (.arr items) ∧
        JVal.null ∈ items) := by
  constructor
  · cases h : normalize raw with
    | ok M => exact Or.inl ⟨M, rfl⟩
    | error e => cases e <;> simp
  · unfold normalize
    by_cases ht : trim raw = []
    · simp [ht]
    · simp only [ht, if_false, not_false_eq_true, true_and, ne_eq]
      cases hp : JSONparse (cleanText raw) with
      | none => simp
      | some v =>
        cases v with
        | arr items =>
          simp only [collect, Option.some.injEq, JVal.arr.injEq, exists_eq_left']
          rw [← foldItems_error_iff items Target.empty]
          cases hf : foldItems items Target.empty with
          | error e =>
            have := foldItems_error_typeError hf
            subst this
            simp
          | ok M =>
            simp only
            split <;> simp
        | _ =>
          simp only [collect]
          split <;> simp

/-! ### Claim C7 -/

/-- C7 counterexample: in `{"Rust":{"semantic_similarity":{"score":0.7,"evidence":"{}{}"}}}`
the evidence string `{}{}` reaches the parser as `{},{}`. -/
theorem strings_unaltered_counterexample :
    JSONparse (js "\x7b\"Rust\":\x7b\"semantic_similarity\":\x7b\"score\":0.7,\"evidence\":\"\x7b\x7d\x7b\x7d\"\x7d\x7d\x7d")
      = some (.obj [(js "Rust", .obj [(js "semantic_similarity",
          .obj [(js "score", .num ⟨false, 7, -1⟩), (js "evidence", .str (js "\x7b\x7d\x7b\x7d"))])])]) ∧
    JSONparse (cleanText (js "\x7b\"Rust\":\x7b\"semantic_similarity\":\x7b\"score\":0.7,\"evidence\":\"\x7b\x7d\x7b\x7d\"\x7d\x7d\x7d"))
      = some (.arr [.obj [(js "Rust", .obj [(js "semantic_similarity",
          .obj [(js "score", .num ⟨false, 7, -1⟩), (js "evidence", .str (js "\x7b\x7d,\x7b\x7d"))])])]]) ∧
    JSONparse (cleanText (js "\x7b\"Rust\":\x7b\"semantic_similarity\":\x7b\"score\":0.7,\"evidence\":\"\x7b\x7d\x7b\x7d\"\x7d\x7d\x7d"))
      ≠ some (asArray (.obj [(js "Rust", .obj [(js "semantic_similarity",
          .obj [(js "score", .num ⟨false, 7, -1⟩), (js "evidence", .str (js "\x7b\x7d\x7b\x7d"))])])])) := by
  decide

/-- C7 (as amended): the sanitize and repair steps alter no quoted string of
a text in which no closing brace is directly followed by an opening brace once
the newlines are removed.  For such a raw text that is one JSON value, the
text handed to the parser denotes that value (as the only element of an array
when it is not itself an array); for one or more such JSON objects written
back-to-back, it denotes the array of the objects' values. -/
theorem strings_unaltered :
    (∀ (raw : JStr) (v : JVal), JSONparse raw = some v →
      hasSmash (removeNewlines raw) = false → JSONparse (cleanText raw) = some (asArray v)) ∧
    (∀ ps : List (JStr × JVal), ps ≠ [] →
      (∀ p ∈ ps, ObjectText p.1 p.2 ∧ hasSmash (removeNewlines p.1) = false) →
      JSONparse (cleanText (ps.map Prod.fst).flatten) = some (.arr (ps.map Prod.snd))) :=
  ⟨fun _ _ hp hs => JSONparse_cleanText hp hs, cleanText_stream_plain⟩

/-- C7 witness: a skill object on three lines, with a tab and a line break
written as escapes inside the evidence string; and two objects back-to-back,
the first with a lone closing brace in a string. -/
theorem strings_unaltered_witness :
    JSONparse (cleanText (js "\x7b\"Rust\":\n \x7b\"evidence\":\"a\\tb\\n \x7b c \x7d\"\x7d\n\x7d\n"))
      = some (.arr [.obj [(js "Rust", .obj [(js "evidence", .str (js "a\tb\n \x7b c \x7d"))])]]) ∧
    JSONparse (cleanText (js "\x7b\"a\":\"x\x7d\"\x7d\x7b\"b\":\"\x7by\"\x7d"))
      = some (.arr [.obj [(js "a", .str (js "x\x7d"))], .obj [(js "b", .str (js "\x7by"))]]) :=
  ⟨strings_unaltered.1 _ (.obj [(js "Rust", .obj [(js "evidence", .str (js "a\tb\n \x7b c \x7d"))])])
      (by decide) (by decide),
   strings_unaltered.2
      [(js "\x7b\"a\":\"x\x7d\"\x7d", .obj [(js "a", .str (js "x\x7d"))]),
       (js "\x7b\"b\":\"\x7by\"\x7d", .obj [(js "b", .str (js "\x7by"))])]
      (by simp)
      (by
        intro p hp
        simp only [List.mem_cons, List.mem_singleton, List.not_mem_nil, or_false] at hp
        rcases hp with rfl | rfl
        · exact ⟨⟨by decide, by decide, by decide⟩, by decide⟩
        · exact ⟨⟨by decide, by decide, by decide⟩, by decide⟩)⟩

/-! ### Claim C8 -/

/-- C8 counterexample: four mappings that `normalize` returns and that do
not come back from their serialisation.  The evidence `}{`, written in the raw
text with an escape, is serialised as it is and comes back as `},{`; the number
`1e400` is the double infinity, which is serialised as `null`; the number `-0`
is serialised as `0`; and the own key `__proto__`, created after an earlier
`__proto__` has set the prototype of the mapping to `null`, is serialised but
on the way back it runs the setter of `Object.prototype`. -/
theorem normalize_idempotent_counterexample :
    (normalize (js "\x7b\"Go\":\x7b\"evidence\":\"\x7d\\u007b\"\x7d\x7d")
        = .ok [(js "Go", .obj [(js "evidence", .str (js "\x7d\x7b"))])] ∧
      stringify (.arr [.obj [(js "Go", .obj [(js "evidence", .str (js "\x7d\x7b"))])]])
        = js "[\x7b\"Go\":\x7b\"evidence\":\"\x7d\x7b\"\x7d\x7d]" ∧
      normalize (js "[\x7b\"Go\":\x7b\"evidence\":\"\x7d\x7b\"\x7d\x7d]")
        = .ok [(js "Go", .obj [(js "evidence", .str (js "\x7d,\x7b"))])] ∧
      toJs (.obj [(js "Go", .obj [(js "evidence", .str (js "\x7d,\x7b"))])])
        ≠ toJs (.obj [(js "Go", .obj [(js "evidence", .str (js "\x7d\x7b"))])])) ∧
    (normalize (js "\x7b\"a\":1e400\x7d") = .ok [(js "a", .num ⟨false, 1, 400⟩)] ∧
      stringify (.arr [.obj [(js "a", .num ⟨false, 1, 400⟩)]]) = js "[\x7b\"a\":null\x7d]" ∧
      normalize (js "[\x7b\"a\":null\x7d]") = .ok [(js "a", .null)] ∧
      toJs (.obj [(js "a", .null)]) ≠ toJs (.obj [(js "a", .num ⟨false, 1, 400⟩)])) ∧
    (normalize (js "\x7b\"a\":-0\x7d") = .ok [(js "a", .num ⟨true, 0, 0⟩)] ∧
      stringify (.arr [.obj [(js "a", .num ⟨true, 0, 0⟩)]]) = js "[\x7b\"a\":0\x7d]" ∧
      normalize (js "[\x7b\"a\":0\x7d]") = .ok [(js "a", .num ⟨false, 0, 0⟩)] ∧
      toJs (.obj [(js "a", .num ⟨false, 0, 0⟩)]) ≠ toJs (.obj [(js "a", .num ⟨true, 0, 0⟩)])) ∧
    (normalize (js "\x7b\"__proto__\":null,\"a\":1\x7d\x7b\"__proto__\":5\x7d")
        = .ok [(js "a", .num ⟨false, 1, 0⟩), (js "__proto__", .num ⟨false, 5, 0⟩)] ∧
      stringify (.arr [.obj [(js "a", .num ⟨false, 1, 0⟩), (js "__proto__", .num ⟨false, 5, 0⟩)]])
        = js "[\x7b\"a\":1,\"__proto__\":5\x7d]" ∧
      normalize (js "[\x7b\"a\":1,\"__proto__\":5\x7d]") = .ok [(js "a", .num ⟨false, 1, 0⟩)] ∧
      toJs (.obj [(js "a", .num ⟨false, 1, 0⟩)])
        ≠ toJs (.obj [(js "a", .num ⟨false, 1, 0⟩), (js "__proto__", .num ⟨false, 5, 0⟩)])) := by
  refine ⟨⟨by decide, by decide, by decide, by decide⟩, ⟨by decide, by decide, by decide, by decide⟩,
    ⟨by decide, by decide, by decide, by decide⟩, ⟨by decide, by decide, by decide, by decide⟩⟩

/-- C8 (as amended): for every mapping `M` that `normalize` returns, that
has no key `__proto__`, in which every number is finite and not the negative
zero, and whose serialisation as the one-element array `[M]` has no closing
brace directly followed by an opening brace, normalising that serialisation
succeeds and returns `M` again: a mapping with the same keys in the same order
of enumeration and with the same values, numbers being doubles. -/
theorem normalize_idempotent (raw : JStr) (M : Props) (h : normalize raw = .ok M)
    (h3 : M.lookup protoKey = none) (hnum : jsonNumbers (.obj M) = true)
    (hsm : hasSmash (stringify (.arr [.obj M])) = false) :
    ∃ M2, normalize (stringify (.arr [.obj M])) = .ok M2 ∧ toJs (.obj M2) = toJs (.obj M) := by
  obtain ⟨⟨h1, h2, h4⟩, hne⟩ := goodMap_of_normalize h
  have hcan : Canon (.arr [.obj M]) := by
    simp only [Canon, CanonList]
    exact ⟨⟨h1, h2⟩, trivial⟩
  have hj : jsonNumbers (.arr [.obj M]) = true := by
    rw [jsonNumbers, jsonNumbersList, jsonNumbersList, hnum]
    rfl
  obtain ⟨v2, htxt, hjs⟩ := stringify_parses _ hcan hj
  obtain ⟨M2, rfl, hM2⟩ := toJs_single_obj hjs
  obtain ⟨p3, p4, pne⟩ := reparsed_facts hM2 h3 h4 hne
  have hcan2 : Canon (.arr [.obj M2]) := txt_canon htxt
  simp only [Canon, CanonList] at hcan2
  have hp := JSONparse_of_txt_self htxt
  have hnl : removeNewlines (stringify (.arr [.obj M])) = stringify (.arr [.obj M]) :=
    removeNewlines_eq_self (stringify_no_nl _)
  have hc := JSONparse_cleanText hp (by rw [hnl]; exact hsm)
  refine ⟨M2, ?_, hM2⟩
  rw [normalize_of_parse hc (trim_ne_nil_of_parse hp)]
  simp only [foldItems, readStatus, p4]
  rw [if_neg (by simp)]
  simp only [objectAssign_empty_obj hcan2.1.1 p3]
  rw [if_neg]
  intro h0
  exact pne (List.length_eq_zero.mp h0)

/-- C8 witness: the first input of the spec and the mapping it yields. -/
theorem normalize_idempotent_witness :
    (stringify (.arr [.obj [(js "Python", scoreRecord ⟨false, 8, -1⟩)]])
      = js "[\x7b\"Python\":\x7b\"semantic_similarity\":\x7b\"score\":0.8\x7d\x7d\x7d]" ∧
    normalize (js "\x7b\"Python\":\x7b\"semantic_similarity\":\x7b\"score\":0.8\x7d\x7d\x7d\x7b\"status\":\"done\"\x7d")
      = .ok [(js "Python", scoreRecord ⟨false, 8, -1⟩)]) ∧
    ∃ M2, normalize (stringify (.arr [.obj [(js "Python", scoreRecord ⟨false, 8, -1⟩)]]))
      = .ok M2 ∧
      toJs (.obj M2) = toJs (.obj [(js "Python", scoreRecord ⟨false, 8, -1⟩)]) :=
  ⟨⟨by decide, by decide⟩,
   normalize_idempotent
    (js "\x7b\"Python\":\x7b\"semantic_similarity\":\x7b\"score\":0.8\x7d\x7d\x7d\x7b\"status\":\"done\"\x7d")
    [(js "Python", scoreRecord ⟨false, 8, -1⟩)] (by decide) (by decide) (by decide) (by decide)⟩

/-! ### Claim C9 -/

/-- C9 counterexample: the input is a bracketed one-element array of a skill
object whose evidence string is `{}{}`; the mapping that comes back
is not the object's. -/
theorem wrap_once_counterexample :
    JSONparse (js "[\x7b\"Go\":\x7b\"semantic_similarity\":\x7b\"score\":0.6,\"evidence\":\"\x7b\x7d\x7b\x7d\"\x7d\x7d\x7d]")
      = some (.arr [.obj [(js "Go", .obj [(js "semantic_similarity",
          .obj [(js "score", .num ⟨false, 6, -1⟩), (js "evidence", .str (js "\x7b\x7d\x7b\x7d"))])])]]) ∧
    isSkillObject (.obj [(js "Go", .obj [(js "semantic_similarity",
          .obj [(js "score", .num ⟨false, 6, -1⟩), (js "evidence", .str (js "\x7b\x7d\x7b\x7d"))])])])
      = true ∧
    normalize (js "[\x7b\"Go\":\x7b\"semantic_similarity\":\x7b\"score\":0.6,\"evidence\":\"\x7b\x7d\x7b\x7d\"\x7d\x7d\x7d]")
      ≠ .ok [(js "Go", .obj [(js "semantic_similarity",
          .obj [(js "score", .num ⟨false, 6, -1⟩), (js "evidence", .str (js "\x7b\x7d\x7b\x7d"))])])] := by
  decide

/-- C9 (as amended): when the sanitised and repaired text starts with an
opening bracket it is handed to the parser unchanged, and otherwise it is
handed over between an opening and a closing bracket; and a raw text that
`JSON.parse` accepts as a one-element array of an object with at least one
key, none of them `status` or `__proto__`, and in which (newlines removed) no
closing brace is directly followed by an opening brace, normalises to exactly
that object's mapping. -/
theorem wrap_once (raw : JStr) (kvs : Props)
    (hp : JSONparse raw = some (.arr [.obj kvs]))
    (hs : isSkillObject (.obj kvs) = true)
    (hproto : kvs.lookup protoKey = none) (hne : kvs ≠ [])
    (hsm : hasSmash (removeNewlines raw) = false) :
    (∀ s : JStr, (fixSmashed (trim (removeNewlines s))).head? = some 91 →
      cleanText s = fixSmashed (trim (removeNewlines s))) ∧
    (∀ s : JStr, (fixSmashed (trim (removeNewlines s))).head? ≠ some 91 →
      cleanText s = 91 :: (fixSmashed (trim (removeNewlines s)) ++ [93])) ∧
    normalize raw = .ok kvs := by
  refine ⟨fun s h => by simp [cleanText, wrapBrackets, h],
    fun s h => by simp [cleanText, wrapBrackets, h], ?_⟩
  obtain ⟨w1, c, w2, _, _, _, hc⟩ := txt_of_JSONparse hp
  obtain ⟨c2, hc2⟩ := hc.arr_sub (.obj kvs) (by simp)
  have hst : kvs.lookup statusKey = none := by simpa [isSkillObject] using hs
  rw [normalize_of_parse (JSONparse_cleanText hp hsm) (trim_ne_nil_of_parse hp)]
  simp only [foldItems, readStatus, hst, truthyOpt]
  rw [if_neg (by simp)]
  simp only [objectAssign_empty_obj hc2.nodup_obj hproto]
  rw [if_neg]
  intro h0
  exact hne (List.length_eq_zero.mp h0)

/-- C9 witness: the bracketed input of the spec. -/
theorem wrap_once_witness :
    normalize (js "[\x7b\"Go\":\x7b\"semantic_similarity\":\x7b\"score\":0.6\x7d\x7d\x7d]")
      = .ok [(js "Go", .obj [(js "semantic_similarity", .obj [(js "score", .num ⟨false, 6, -1⟩)])])] :=
  (wrap_once (js "[\x7b\"Go\":\x7b\"semantic_similarity\":\x7b\"score\":0.6\x7d\x7d\x7d]")
    [(js "Go", .obj [(js "semantic_similarity", .obj [(js "score", .num ⟨false, 6, -1⟩)])])]
    (by decide) (by decide) (by decide) (by decide) (by decide)).2.2

/-! ### Claim C10 -/

/-- C10 counterexample: the skill is named `status`; the skill object is
then skipped as a status message and `normalize` fails with
`NoAnalysisData`. -/
theorem normalize_skill_then_status_counterexample :
    (∀ c ∈ js "status", c ≠ 123 ∧ c ≠ 125 ∧ c ≠ 34 ∧ c ≠ 92) ∧
    NumText (js "0.8") ⟨false, 8, -1⟩ ∧ js "done" ≠ [] ∧ PlainString (js "done") ∧
    normalize (skillText (js "status") (js "0.8") ++ (List.replicate 0 10 ++ statusText (js "done")))
      ≠ .ok [(js "status", scoreRecord ⟨false, 8, -1⟩)] := by
  refine ⟨by decide, ⟨by decide, by decide⟩, by decide, ?_, by decide⟩
  unfold PlainString
  decide

/-- C10 (as amended): a skill object (the skill name free of braces, quotes,
backslashes and control characters, and not `status` or `__proto__`, mapped to
a record holding a numeric `semantic_similarity` score) followed by a status
object with a non-empty status string, the two written back-to-back or with
only newlines in between, normalises to the mapping with the skill name as its
only key, mapped to the skill's record. -/
theorem normalize_skill_then_status (name lit st : JStr) (n : JNum) (k : Nat)
    (hname : ∀ c ∈ name, c ≠ 123 ∧ c ≠ 125 ∧ c ≠ 34 ∧ c ≠ 92)
    (hlit : NumText lit n) (hst : st ≠ []) (hplain : PlainString st)
    (hctl : ∀ c ∈ name, 32 ≤ c) (hns : name ≠ statusKey) (hnp : name ≠ protoKey) :
    normalize (skillText name lit ++ (List.replicate k 10 ++ statusText st))
      = .ok [(name, scoreRecord n)] := by
  have hname2 : ∀ c ∈ name, c ≠ 125 ∧ 32 ≤ c := fun c hc => ⟨(hname c hc).2.1, hctl c hc⟩
  have hnamep : PlainString name := fun c hc => ⟨(hname c hc).2.2.1, (hname c hc).2.2.2, hctl c hc⟩
  obtain ⟨res2, ht2, hsim2⟩ := txt_fixSmashed (txt_statusText hplain)
  cases res2 with
  | val v2 =>
    have hraw : removeNewlines (skillText name lit ++ (List.replicate k 10 ++ statusText st))
        = [skillText name lit, statusText st].flatten := by
      rw [removeNewlines_append, removeNewlines_append, removeNewlines_replicate,
        removeNewlines_skillText hname2 hlit, removeNewlines_statusText hplain]
      simp
    have hps : List.Forall₂ (fun t v => t.head? = some 123 ∧ t.getLast? = some 125 ∧
        Txt (fixSmashed t) (.val v)) [skillText name lit, statusText st]
        [.obj [(name, scoreRecord n)], v2] := by
      refine List.Forall₂.cons ⟨rfl, ?_, ?_⟩ (List.Forall₂.cons ⟨rfl, ?_, ht2⟩ List.Forall₂.nil)
      · rw [skillText_split, List.getLast?_append]
        rfl
      · rw [fixSmashed_skillText hname2 hlit]
        exact txt_skillText hnamep hlit
      · exact List.getLast?_eq_some_iff.mpr
          ⟨[123, 34] ++ (statusKey ++ ([34, 58, 34] ++ (st ++ [34]))), by simp [statusText]⟩
    obtain ⟨htrim, hparse⟩ := cleanText_stream_forall₂ _ _ _ (by simp) hraw hps
    rw [normalize_of_parse hparse htrim]
    have hsk : isSkipped v2 = true := by
      rw [isSkipped_of_sim hsim2]
      cases st with
      | nil => exact absurd rfl hst
      | cons x st => simp [isSkipped, readStatus, lookup_cons_self, truthyOpt, truthy]
    have h1 : foldItems [.obj [(name, scoreRecord n)], v2] Target.empty
        = .ok { Target.empty with props := [(name, scoreRecord n)] } := by
      rw [foldItems]
      simp only [readStatus, lookup_cons_ne (Ne.symm hns), List.lookup_nil, truthyOpt]
      rw [if_neg (by simp), foldItems_cons_skipped hsk]
      simp [objectAssign, ownProps, assignProp, hnp, setProp, foldItems, Target.empty]
    rw [h1]
    rfl
  | _ => simp [SimRes] at hsim2

/-- C10 witness: the two inputs of the spec rolled into one, a skill `Rust`,
two newlines, and a status object whose status string holds `}{`. -/
theorem normalize_skill_then_status_witness :
    normalize (js "\x7b\"Rust\":\x7b\"semantic_similarity\":\x7b\"score\":0.8\x7d\x7d\x7d\n\n\x7b\"status\":\"a\x7d\x7bb\"\x7d")
      = .ok [(js "Rust", scoreRecord ⟨false, 8, -1⟩)] :=
  normalize_skill_then_status (js "Rust") (js "0.8") (js "a\x7d\x7bb") ⟨false, 8, -1⟩ 2
    (by decide) ⟨by decide, by decide⟩ (by decide) (by unfold PlainString; decide) (by decide)
    (by decide) (by decide)

/-! ### Claim C11 -/

/-- C11: when the raw text is not blank and `JSON.parse` rejects the
sanitised, repaired and wrapped text, `normalize` fails with `MalformedJson`
and returns no mapping; and `normalize` fails with `MalformedJson` only then. -/
theorem normalize_malformed (raw : JStr) :
    (trim raw ≠ [] → JSONparse (cleanText raw) = none →
      normalize raw = .error .malformedJson ∧ ∀ M, normalize raw ≠ .ok M) ∧
    (normalize raw = .error .malformedJson →
      trim raw ≠ [] ∧ JSONparse (cleanText raw) = none) := by
  constructor
  · intro ht hp
    have h : normalize raw = .error .malformedJson := by
      unfold normalize
      rw [if_neg ht, hp]
    rw [h]
    exact ⟨rfl, fun M e => by cases e⟩
  · unfold normalize
    by_cases ht : trim raw = []
    · rw [if_pos ht]
      intro e
      cases e
    · rw [if_neg ht]
      cases hp : JSONparse (cleanText raw) with
      | none => exact fun _ => ⟨ht, rfl⟩
      | some v =>
        simp only
        cases hc : collect v with
        | error e =>
          obtain ⟨items, rfl⟩ := JSONparse_cleanText_arr hp
          have := foldItems_error_typeError hc
          subst this
          intro e
          cases e
        | ok T =>
          simp only
          split <;> intro e <;> cases e

/-- C11 witness: a stream that breaks off inside an object. -/
theorem normalize_malformed_witness :
    (trim (js "\x7b\"status\":\"parsing\"\x7d\n\x7b\"Go\":") ≠ [] ∧
      JSONparse (cleanText (js "\x7b\"status\":\"parsing\"\x7d\n\x7b\"Go\":")) = none) ∧
    normalize (js "\x7b\"status\":\"parsing\"\x7d\n\x7b\"Go\":") = .error .malformedJson ∧
    ∀ M, normalize (js "\x7b\"status\":\"parsing\"\x7d\n\x7b\"Go\":") ≠ .ok M :=
  ⟨⟨by decide, by decide⟩,
    (normalize_malformed (js "\x7b\"status\":\"parsing\"\x7d\n\x7b\"Go\":")).1
      (by decide) (by decide)⟩

/-! ### Claim C12 -/

/-- C12 counterexample: the entry `{"__proto__":1}` has no `status` key, yet
its key does not enter the mapping, because `Object.assign` assigns to
`__proto__`, which runs the setter of `Object.prototype`. -/
theorem fold_last_write_wins_counterexample :
    hasStatusKey (.obj [(js "__proto__", .num ⟨false, 1, 0⟩)]) = false ∧
    foldItems [.obj [(js "__proto__", .num ⟨false, 1, 0⟩)]] Target.empty = .ok ⟨[], false⟩ ∧
    ¬ MergesNonStatus [.obj [(js "__proto__", .num ⟨false, 1, 0⟩)]] := by
  refine ⟨by decide, by decide, ?_⟩
  rintro ⟨T, hT, hk, _⟩
  have h : foldItems [.obj [(js "__proto__", .num ⟨false, 1, 0⟩)]] Target.empty =
      .ok ⟨[], false⟩ := by decide
  rw [h] at hT
  injection hT with hT
  subst hT
  have := (hk (js "__proto__")).mpr
    ⟨.obj [(js "__proto__", .num ⟨false, 1, 0⟩)], by simp, by decide, by decide⟩
  simp at this

/-- C12 (as amended): on a sequence of objects in which every `status` that
is present is truthy, the fold returns a mapping that has, among the keys
other than `__proto__`, exactly the keys of the entries without a `status`
key, each with the value given by the last such entry that has the key; and
when no such entry has the key `__proto__`, the mapping has not got it
either. -/
theorem fold_last_write_wins (items : List JVal)
    (ho : ∀ it ∈ items, isJsObject it = true)
    (hst : ∀ it ∈ items, hasStatusKey it = true → isSkipped it = true) :
    ∃ T, foldItems items Target.empty = .ok T ∧
      (∀ k, k ≠ protoKey →
        (k ∈ T.props.map Prod.fst ↔ ∃ it ∈ items, hasStatusKey it = false ∧ k ∈ keysOf it)) ∧
      (∀ k v, k ≠ protoKey →
        (T.props.lookup k = some v ↔
          ∃ pre it post, items = pre ++ it :: post ∧ hasStatusKey it = false ∧
            valueIn it k = some v ∧ ∀ j ∈ post, hasStatusKey j = false → valueIn j k = none)) ∧
      ((∀ it ∈ items, hasStatusKey it = false → valueIn it protoKey = none) →
        T.props.lookup protoKey = none) := by
  have hiff : ∀ it ∈ items, (isSkipped it = false ↔ hasStatusKey it = false) := by
    intro it hit
    constructor
    · intro h1
      cases h2 : hasStatusKey it with
      | false => rfl
      | true => rw [hst it hit h2] at h1; cases h1
    · exact isSkipped_of_no_status
  obtain ⟨T, hT, hk, hv, hp⟩ := fold_merges_unskipped items ho
  refine ⟨T, hT, ?_, ?_, ?_⟩
  · intro k hne
    rw [hk k hne]
    constructor
    · rintro ⟨it, hit, h1, h2⟩
      exact ⟨it, hit, (hiff it hit).mp h1, h2⟩
    · rintro ⟨it, hit, h1, h2⟩
      exact ⟨it, hit, (hiff it hit).mpr h1, h2⟩
  · intro k v hne
    rw [hv k v hne]
    constructor
    · rintro ⟨pre, it, post, rfl, h1, h2, h3⟩
      refine ⟨pre, it, post, rfl, (hiff it (by simp)).mp h1, h2, ?_⟩
      intro j hj hs
      exact h3 j hj ((hiff j (by simp [hj])).mpr hs)
    · rintro ⟨pre, it, post, rfl, h1, h2, h3⟩
      refine ⟨pre, it, post, rfl, (hiff it (by simp)).mpr h1, h2, ?_⟩
      intro j hj hs
      exact h3 j hj ((hiff j (by simp [hj])).mp hs)
  · intro h
    apply hp
    intro it hit hs
    exact h it hit ((hiff it hit).mp hs)

/-- C12 witness: a skill, a skipped status entry, and a later value for the
skill. -/
theorem fold_last_write_wins_witness :
    ((∀ it ∈ [JVal.obj [(js "Go", scoreRecord ⟨false, 6, -1⟩)],
        .obj [(js "status", .str (js "scoring")), (js "Lost", .null)],
        .obj [(js "Go", scoreRecord ⟨false, 9, -1⟩), (js "Rust", scoreRecord ⟨false, 3, -1⟩)]],
      isJsObject it = true) ∧
    (∀ it ∈ [JVal.obj [(js "Go", scoreRecord ⟨false, 6, -1⟩)],
        .obj [(js "status", .str (js "scoring")), (js "Lost", .null)],
        .obj [(js "Go", scoreRecord ⟨false, 9, -1⟩), (js "Rust", scoreRecord ⟨false, 3, -1⟩)]],
      hasStatusKey it = true → isSkipped it = true)) ∧
    ∃ T, foldItems [JVal.obj [(js "Go", scoreRecord ⟨false, 6, -1⟩)],
        .obj [(js "status", .str (js "scoring")), (js "Lost", .null)],
        .obj [(js "Go", scoreRecord ⟨false, 9, -1⟩), (js "Rust", scoreRecord ⟨false, 3, -1⟩)]]
        Target.empty = .ok T ∧
      (∀ k, k ≠ protoKey →
        (k ∈ T.props.map Prod.fst ↔
          ∃ it ∈ [JVal.obj [(js "Go", scoreRecord ⟨false, 6, -1⟩)],
            .obj [(js "status", .str (js "scoring")), (js "Lost", .null)],
            .obj [(js "Go", scoreRecord ⟨false, 9, -1⟩),
              (js "Rust", scoreRecord ⟨false, 3, -1⟩)]],
            hasStatusKey it = false ∧ k ∈ keysOf it)) ∧
      (∀ k v, k ≠ protoKey →
        (T.props.lookup k = some v ↔
          ∃ pre it post, [JVal.obj [(js "Go", scoreRecord ⟨false, 6, -1⟩)],
            .obj [(js "status", .str (js "scoring")), (js "Lost", .null)],
            .obj [(js "Go", scoreRecord ⟨false, 9, -1⟩),
              (js "Rust", scoreRecord ⟨false, 3, -1⟩)]] =
              pre ++ it :: post ∧ hasStatusKey it = false ∧
            valueIn it k = some v ∧ ∀ j ∈ post, hasStatusKey j = false → valueIn j k = none)) ∧
      ((∀ it ∈ [JVal.obj [(js "Go", scoreRecord ⟨false, 6, -1⟩)],
          .obj [(js "status", .str (js "scoring")), (js "Lost", .null)],
          .obj [(js "Go", scoreRecord ⟨false, 9, -1⟩),
            (js "Rust", scoreRecord ⟨false, 3, -1⟩)]],
          hasStatusKey it = false → valueIn it protoKey = none) →
        T.props.lookup protoKey = none) :=
  ⟨⟨by decide, by decide⟩, fold_last_write_wins _ (by decide) (by decide)⟩

/-! ### Claim C13 -/

/-- C13: the repair of line 83, which is the left-to-right scan of the
global replace, yields the text with a comma inserted between each closing
brace and the opening brace that immediately follows it; the repaired text has
no closing brace directly followed by an opening brace, and repairing it again
changes nothing. -/
theorem fixSmashed_inserts_commas (s : JStr) :
    fixSmashed s = replaceSmashed s ∧
    fixSmashed s = insertCommas s ∧
    ¬ [125, 123] <:+: fixSmashed s ∧
    fixSmashed (fixSmashed s) = fixSmashed s := by
  refine ⟨fixSmashed_eq_replaceSmashed s, fixSmashed_eq_insertCommas s, ?_,
    fixSmashed_of_not_hasSmash (hasSmash_fixSmashed s)⟩
  rw [← hasSmash_iff_infix, hasSmash_fixSmashed]
  simp

/-! ### Claim C14 -/

/-- C14: the text handed to `JSON.parse` begins with an opening bracket, so
every value the parse returns is an array, and the object is built by the
`forEach` branch of line 102, never by the fallback of line 109. -/
theorem parsed_value_is_array (raw : JStr) :
    (cleanText raw).head? = some 91 ∧
    ∀ v, JSONparse (cleanText raw) = some v →
      ∃ items, v = .arr items ∧ collect v = foldItems items Target.empty := by
  refine ⟨wrapBrackets_head _, ?_⟩
  intro v hv
  obtain ⟨items, rfl⟩ := JSONparse_cleanText_arr hv
  exact ⟨items, rfl, rfl⟩

/-- C14 witness: a single object is wrapped and parsed as an array of one
element. -/
theorem parsed_value_is_array_witness :
    JSONparse (cleanText (js "\x7b\"Go\":\x7b\"semantic_similarity\":\x7b\"score\":0.6\x7d\x7d\x7d"))
      = some (.arr [.obj [(js "Go", scoreRecord ⟨false, 6, -1⟩)]]) ∧
    ∃ items, JVal.arr [.obj [(js "Go", scoreRecord ⟨false, 6, -1⟩)]] = .arr items ∧
      collect (.arr [.obj [(js "Go", scoreRecord ⟨false, 6, -1⟩)]]) =
        foldItems items Target.empty :=
  ⟨by decide,
    (parsed_value_is_array
      (js "\x7b\"Go\":\x7b\"semantic_similarity\":\x7b\"score\":0.6\x7d\x7d\x7d")).2 _ (by decide)⟩

/-! ### Claim C15 -/

/-- C15: on a mapping in which every skill has a numeric score, `getChartData`
returns three counts that are non-negative, add up to the number of skills,
and are the numbers of skills whose card is labelled Skilled, Moderate and
Beginner by `getScoreLevel`; the labels are Skilled for `score * 100 > 50`,
Moderate for `40 ≤ score * 100 ≤ 50`, and Beginner otherwise. -/
theorem chart_agrees_with_cards (M : Props)
    (h : ∀ s ∈ M.map Prod.fst, (score M s).isSome = true) :
    (∃ skilled moderate beginner : Int,
      getChartData (some M) = some (.data skilled moderate beginner) ∧
      0 ≤ skilled ∧ 0 ≤ moderate ∧ 0 ≤ beginner ∧
      skilled + moderate + beginner = (skillsList (some M)).length ∧
      (skillsList (some M)).length = M.length ∧
      skilled = ((skillsList (some M)).filter fun s => cardLevel M s = some .skilled).length ∧
      moderate = ((skillsList (some M)).filter fun s => cardLevel M s = some .moderate).length ∧
      beginner = ((skillsList (some M)).filter fun s => cardLevel M s = some .beginner).length) ∧
    ∀ x : ℚ, (getScoreLevel x = .skilled ↔ x * 100 > 50) ∧
      (getScoreLevel x = .moderate ↔ 40 ≤ x * 100 ∧ x * 100 ≤ 50) ∧
      (getScoreLevel x = .beginner ↔ ¬ x * 100 > 50 ∧ ¬ (40 ≤ x * 100 ∧ x * 100 ≤ 50)) := by
  constructor
  · obtain ⟨a, b, ha, hb, ea, eb, hsum⟩ := countWhere_levels M (objectKeys M)
      (fun s hs => h s (mem_objectKeys.mp hs))
    refine ⟨a, b, ((objectKeys M).filter fun s => cardLevel M s = some .beginner).length,
      ?_, by omega, by omega, by omega, ?_, length_objectKeys M, ?_, ?_, rfl⟩
    · simp only [getChartData, skillsList, ha, hb, Option.some.injEq, Chart.data.injEq,
        true_and]
      omega
    · simp only [skillsList]
      omega
    · simp only [skillsList]
      omega
    · simp only [skillsList]
      omega
  · intro x
    refine ⟨getScoreLevel_skilled x, getScoreLevel_moderate x, ?_⟩
    rw [getScoreLevel_beginner]
    constructor
    · intro h1
      exact ⟨by linarith, fun h2 => by linarith [h2.1]⟩
    · rintro ⟨h1, h2⟩
      by_contra h3
      exact h2 ⟨not_lt.mp h3, not_lt.mp h1⟩

/-- C15 witness: five skills, two of each of the first two levels and one
beginner. -/
theorem chart_agrees_with_cards_witness :
    (∀ s ∈ ([(js "Go", scoreRecord ⟨false, 6, -1⟩), (js "Rust", scoreRecord ⟨false, 45, -2⟩),
        (js "C", scoreRecord ⟨false, 5, -1⟩), (js "Zig", scoreRecord ⟨false, 1, -1⟩),
        (js "Ada", scoreRecord ⟨false, 60, -2⟩)] : Props).map Prod.fst,
      (score [(js "Go", scoreRecord ⟨false, 6, -1⟩), (js "Rust", scoreRecord ⟨false, 45, -2⟩),
        (js "C", scoreRecord ⟨false, 5, -1⟩), (js "Zig", scoreRecord ⟨false, 1, -1⟩),
        (js "Ada", scoreRecord ⟨false, 60, -2⟩)] s).isSome = true) ∧
    ∃ skilled moderate beginner : Int,
      getChartData (some [(js "Go", scoreRecord ⟨false, 6, -1⟩),
        (js "Rust", scoreRecord ⟨false, 45, -2⟩), (js "C", scoreRecord ⟨false, 5, -1⟩),
        (js "Zig", scoreRecord ⟨false, 1, -1⟩), (js "Ada", scoreRecord ⟨false, 60, -2⟩)]) =
        some (.data skilled moderate beginner) ∧
      0 ≤ skilled ∧ 0 ≤ moderate ∧ 0 ≤ beginner ∧ skilled + moderate + beginner = 5 :=
  ⟨by decide, by
    obtain ⟨a, b, c, h1, h2, h3, h4, h5, h6, _⟩ := (chart_agrees_with_cards
      [(js "Go", scoreRecord ⟨false, 6, -1⟩), (js "Rust", scoreRecord ⟨false, 45, -2⟩),
        (js "C", scoreRecord ⟨false, 5, -1⟩), (js "Zig", scoreRecord ⟨false, 1, -1⟩),
        (js "Ada", scoreRecord ⟨false, 60, -2⟩)] (by decide)).1
    exact ⟨a, b, c, h1, h2, h3, h4, by rw [h5, h6]; rfl⟩⟩

/-! ### Claim C16 -/

/-- C16: on a non-empty mapping in which every skill has a numeric score,
`topSkill` is a key of the mapping and no skill of the mapping has a greater
score; without a mapping, and on the empty mapping, it is `N/A`. -/
theorem topSkill_highest (M : Props) (hne : M ≠ [])
    (h : ∀ s ∈ M.map Prod.fst, (score M s).isSome = true) :
    (∃ t q, topSkill (some M) = some t ∧ t ∈ M.map Prod.fst ∧ score M t = some q ∧
      ∀ s ∈ M.map Prod.fst, ∀ x, score M s = some x → x ≤ q) ∧
    topSkill none = some (js "N/A") ∧ topSkill (some []) = some (js "N/A") := by
  refine ⟨?_, rfl, rfl⟩
  cases hk : objectKeys M with
  | nil =>
    have := length_objectKeys M
    rw [hk] at this
    exact absurd (List.length_eq_zero.mp this.symm) hne
  | cons a rest =>
    have hall : ∀ s ∈ a :: rest, (score M s).isSome = true := by
      intro s hs
      rw [← hk] at hs
      exact h s (mem_objectKeys.mp hs)
    obtain ⟨t, q, ht, hmem, hq, hmax⟩ := reduceHigher_max M rest a hall
    refine ⟨t, q, ?_, ?_, hq, ?_⟩
    · simp only [topSkill, skillsList, hk]
      exact ht
    · rw [← hk] at hmem
      exact mem_objectKeys.mp hmem
    · intro s hs x hx
      refine hmax s ?_ x hx
      rw [← hk]
      exact mem_objectKeys.mpr hs

/-- C16 witness: three skills, the second has the highest score. -/
theorem topSkill_highest_witness :
    ([(js "Go", scoreRecord ⟨false, 6, -1⟩), (js "Rust", scoreRecord ⟨false, 8, -1⟩),
        (js "C", scoreRecord ⟨false, 5, -1⟩)] : Props) ≠ [] ∧
    (∀ s ∈ ([(js "Go", scoreRecord ⟨false, 6, -1⟩), (js "Rust", scoreRecord ⟨false, 8, -1⟩),
        (js "C", scoreRecord ⟨false, 5, -1⟩)] : Props).map Prod.fst,
      (score [(js "Go", scoreRecord ⟨false, 6, -1⟩), (js "Rust", scoreRecord ⟨false, 8, -1⟩),
        (js "C", scoreRecord ⟨false, 5, -1⟩)] s).isSome = true) ∧
    ∃ t q, topSkill (some [(js "Go", scoreRecord ⟨false, 6, -1⟩),
        (js "Rust", scoreRecord ⟨false, 8, -1⟩), (js "C", scoreRecord ⟨false, 5, -1⟩)]) = some t ∧
      t ∈ ([(js "Go", scoreRecord ⟨false, 6, -1⟩), (js "Rust", scoreRecord ⟨false, 8, -1⟩),
        (js "C", scoreRecord ⟨false, 5, -1⟩)] : Props).map Prod.fst ∧
      score [(js "Go", scoreRecord ⟨false, 6, -1⟩), (js "Rust", scoreRecord ⟨false, 8, -1⟩),
        (js "C", scoreRecord ⟨false, 5, -1⟩)] t = some q ∧
      ∀ s ∈ ([(js "Go", scoreRecord ⟨false, 6, -1⟩), (js "Rust", scoreRecord ⟨false, 8, -1⟩),
        (js "C", scoreRecord ⟨false, 5, -1⟩)] : Props).map Prod.fst,
        ∀ x, score [(js "Go", scoreRecord ⟨false, 6, -1⟩), (js "Rust", scoreRecord ⟨false, 8, -1⟩),
        (js "C", scoreRecord ⟨false, 5, -1⟩)] s = some x → x ≤ q :=
  ⟨by decide, by decide,
    (topSkill_highest [(js "Go", scoreRecord ⟨false, 6, -1⟩),
      (js "Rust", scoreRecord ⟨false, 8, -1⟩), (js "C", scoreRecord ⟨false, 5, -1⟩)]
      (by decide) (by decide)).1⟩

end PlatformAnalysis
